import Mathlib

/-!
Verification of the Context Pack Engine of the `local-gate` Obsidian plugin.

The development shallowly embeds the relevant JavaScript functions of
`src/search-ranker.js` and the plugin main module (context-pack creation,
reference expansion, path redaction, and the outgoing-payload tool-suppression
walk) as executable Lean definitions, and proves or refutes the spec's claims
about them.

Modelling conventions:
* Strings are `List Char` (`Str`); string literals are converted with `str`.
* JavaScript numbers are modelled exactly.  Ranking scores are represented
  in integer milli-units (the value multiplied by 1000): every numeric
  constant of the embedded code — 2.4, 1.1, 0.25, 0.08, 1/200 — is an exact
  integer count of thousandths, so the scaled-integer order is exactly the
  real-number order of the scores.  `topK` values are `ℚ` (they are only
  compared, never combined arithmetically).  The claims proved here depend
  only on comparisons that agree between IEEE doubles and exact arithmetic.
* JavaScript `Array.prototype.sort` with a consistent comparator is modelled
  as insertion sort by the strict order the comparator induces; every entry
  carries a distinct original index and the comparator breaks score ties by
  index, so the order is total and the sorted result is unique — independent
  of the sorting algorithm.
* `Set` objects used only for `has`/`add` are modelled as lists with
  membership.
-/

/-- Strings as lists of characters. -/
abbrev Str := List Char

/-- Convert a Lean string literal to the `List Char` representation. -/
def str (s : String) : Str := s.data

/-- JavaScript whitespace (`\s`) restricted to the code points exercised by
this code base: space, tab, LF, VT, FF, CR. -/
def isSpaceChar (c : Char) : Bool :=
  c = ' ' || c = '\t' || c = '\n' || c = '\x0b' || c = '\x0c' || c = '\r'

/-- ASCII lower-case letter. -/
def isLowerAlpha (c : Char) : Bool := 'a' ≤ c && c ≤ 'z'

/-- ASCII upper-case letter. -/
def isUpperAlpha (c : Char) : Bool := 'A' ≤ c && c ≤ 'Z'

/-- ASCII digit. -/
def isDigitChar (c : Char) : Bool := '0' ≤ c && c ≤ '9'

/-- Hangul syllable block (가–힣), the `가-힣` range in the tokenizer regex. -/
def isHangul (c : Char) : Bool := 0xAC00 ≤ c.toNat && c.toNat ≤ 0xD7A3

/-- ASCII lower-casing, the effect of `String.prototype.toLowerCase` on the
character set this code manipulates (ASCII + Hangul; Hangul has no case). -/
def toLowerChar (c : Char) : Char :=
  if isUpperAlpha c then Char.ofNat (c.toNat + 32) else c

/-- Lower-case a string. -/
def lowerStr (s : Str) : Str := s.map toLowerChar

/-- `String.prototype.trim`. -/
def jsTrim (s : Str) : Str :=
  ((s.dropWhile isSpaceChar).reverse.dropWhile isSpaceChar).reverse

/-- `sanitizeText` from `src/search-ranker.js`: trim (the non-string branch
returns `""`; the embedding works with strings throughout). -/
def sanitizeText (s : Str) : Str := jsTrim s

/-- `sanitizeString` from the main module: trim, empty results replaced by the
fallback. -/
def sanitizeString (s : Str) (fallback : Str) : Str :=
  let t := jsTrim s
  if t = [] then fallback else t

/-- Characters kept (not blanked) by the tokenizer regex: ASCII lower-case
letters and digits, Hangul syllables, underscore, hyphen, slash, colon, dot
(applied after lower-casing). Whitespace is also kept at this stage and
consumed by the subsequent split. -/
def isTokKeep (c : Char) : Bool :=
  isLowerAlpha c || isDigitChar c || isHangul c || c = '_' || c = '-' ||
    c = '/' || c = ':' || c = '.'

/-- Split on whitespace runs (accumulator form), dropping empty chunks.
Splitting on whitespace-plus in JS can produce empty-string entries at the
ends; those are removed by the `length >= 2` filter in `tokenize`, so
dropping them here is equivalent. -/
def splitWsAux : Str → Str → List Str
  | [], acc => if acc = [] then [] else [acc.reverse]
  | c :: rest, acc =>
    if isSpaceChar c then
      if acc = [] then splitWsAux rest [] else acc.reverse :: splitWsAux rest []
    else splitWsAux rest (c :: acc)

/-- Split a string on whitespace runs. -/
def splitWs (s : Str) : List Str := splitWsAux s []

/-- `tokenize` from `src/search-ranker.js`: trim, lower-case, blank everything
outside the kept character class, split on whitespace, drop tokens shorter
than 2 characters. -/
def tokenize (s : Str) : List Str :=
  (splitWs ((lowerStr (sanitizeText s)).map
      (fun c => if isTokKeep c || isSpaceChar c then c else ' '))).filter
    (fun w => 2 ≤ w.length)

/-- `tokenSet`: the token list deduplicated (a JS `Set` used for `has`/`size`
is extensionally its list of distinct elements). -/
def tokenSet (s : Str) : List Str := (tokenize s).dedup

/-- `overlapScore`: 0 if either side is empty, otherwise the number of query
tokens (with multiplicity) present in the target set, times the weight.
The weight is in milli-units (2.4 is passed as 2400, 1.1 as 1100). -/
def overlapScore (queryTokens : List Str) (targetSet : List Str) (w : ℤ) : ℤ :=
  if queryTokens = [] ∨ targetSet = [] then 0
  else w * ((queryTokens.filter (fun t => t ∈ targetSet)).length : ℤ)

/-- One context-pack item as consumed by the ranker (`path`, `mentionPath`,
`preview`, `folderPath`). -/
structure RItem where
  path : Str
  mentionPath : Str
  preview : Str
  folderPath : Str
deriving DecidableEq, Repr

/-- The caller-supplied `topK` option: a JS number, or anything whose
`Number(...)` conversion is `NaN` (absent option, non-numeric string, …). -/
inductive JsTopK where
  | num (q : ℚ)
  | nonNum
deriving DecidableEq, Repr

/-- `Math.max(1, Number(options.topK) || 8)`: `NaN` and `0` are falsy and
default to 8; any other number is clamped from below by 1. -/
def effTopK : JsTopK → ℚ
  | .num q => max 1 (if q = 0 then 8 else q)
  | .nonNum => max 1 8

/-- Ranker options (`query`, `topK`, `folderWeights`). `folderWeights` is
`none` when the caller passes nothing object-like. -/
structure RankOpts where
  query : Str
  topK : JsTopK
  folderWeights : Option (List (Str × ℤ))
deriving DecidableEq, Repr

/-- `Number(folderWeights[folderPath] || 0)` (weights in milli-units). -/
def folderBoost (fw : Option (List (Str × ℤ))) (fp : Str) : ℤ :=
  match fw with
  | none => 0
  | some l =>
    match l.find? (fun e => e.1 = fp) with
    | some e => e.2
    | none => 0

/-- A scored ranking entry: the item, its composite score, and its original
index. -/
structure SEntry where
  item : RItem
  score : ℤ
  index : ℕ
deriving DecidableEq, Repr

/-- The strict order induced by the sort comparator
`(a, b) => b.score - a.score || a.index - b.index` (descending score,
ascending index on ties). -/
def sBefore (a b : SEntry) : Bool :=
  b.score < a.score || (a.score = b.score && a.index < b.index)

/-- Insert into a list sorted by `sBefore`. -/
def sInsert (x : SEntry) : List SEntry → List SEntry
  | [] => [x]
  | y :: ys => if sBefore x y then x :: y :: ys else y :: sInsert x ys

/-- Sort by the comparator order.  The comparator is a strict total order on
entries with distinct indices, so the sorted result is the unique sorted
permutation, matching `Array.prototype.sort`. -/
def sSort : List SEntry → List SEntry
  | [] => []
  | x :: xs => sInsert x (sSort xs)

/-- Score one item at its index (the `.map((item, index) => …)` body).
Scores are in milli-units: the positional bonus `max(0, 1 - index/200)`
becomes `max 0 (1000 - 5*index)`. -/
def scoreItem (queryTokens : List Str) (fw : Option (List (Str × ℤ)))
    (item : RItem) (index : ℕ) : SEntry :=
  let path := sanitizeText item.path
  let mentionPath := sanitizeText item.mentionPath
  let preview := sanitizeText item.preview
  let folderPath := sanitizeText item.folderPath
  let pathTokens := tokenSet (path ++ [' '] ++ mentionPath)
  let previewTokens := tokenSet preview
  let score :=
    overlapScore queryTokens pathTokens 2400 +
    overlapScore queryTokens previewTokens 1100 +
    folderBoost fw folderPath +
    (if queryTokens = [] then max 0 (1000 - 5 * (index : ℤ)) else 0)
  ⟨item, score, index⟩

/-- The dedup key of an item, as computed in the ranker's output loop:
`sanitizeText(entry.item && (entry.item.mentionPath || entry.item.path))`
(an empty `mentionPath` is falsy, so `path` is used instead). -/
def itemKey (it : RItem) : Str :=
  sanitizeText (if it.mentionPath = [] then it.path else it.mentionPath)

/-- The dedup-and-truncate loop over the sorted entries: skip empty or
already-seen keys, push otherwise, stop once `out.length >= topK`. -/
def rankLoop (k : ℚ) : List SEntry → List Str → List RItem → List RItem
  | [], _, out => out.reverse
  | e :: rest, seen, out =>
    if itemKey e.item = [] ∨ itemKey e.item ∈ seen then rankLoop k rest seen out
    else if k ≤ (((e.item :: out).length : ℚ)) then (e.item :: out).reverse
    else rankLoop k rest (itemKey e.item :: seen) (e.item :: out)

/-- `rankContextPackItems` from `src/search-ranker.js`: tokenize the trimmed
query, score every item at its index, sort by the comparator, then dedup and
truncate. -/
def rankContextPackItems (items : List RItem) (opts : RankOpts) : List RItem :=
  rankLoop (effTopK opts.topK)
    (sSort ((items.enum).map
      (fun p => scoreItem (tokenize (sanitizeText opts.query))
        opts.folderWeights p.2 p.1)))
    [] []

/-- `buildFolderWeightMap` from `src/search-ranker.js`:
`max(0.25, 1 - index*0.08)` per (trimmed, non-empty) folder, in order
(in milli-units: `max 250 (1000 - 80*index)`). -/
def buildFolderWeightMap (folderPaths : List Str) : List (Str × ℤ) :=
  (((folderPaths.map jsTrim).filter (fun f => f ≠ [])).enum).map
    (fun p => (p.2, max 250 (1000 - (p.1 : ℤ) * 80)))

/-! ### Ranking with an empty query (C2) and the topK bound (C3) -/

/-- Reference order for an empty query: the items in original insertion
order, dropping empty keys and all but the first occurrence of each key. -/
def firstDistinctByKey : List RItem → List Str → List RItem
  | [], _ => []
  | it :: rest, seen =>
    if itemKey it = [] ∨ itemKey it ∈ seen then firstDistinctByKey rest seen
    else it :: firstDistinctByKey rest (itemKey it :: seen)

theorem overlapScore_nil (t : List Str) (w : ℤ) : overlapScore [] t w = 0 := by
  simp [overlapScore]

/-- With an empty query and no folder weights, an item's score is exactly the
positional bonus. -/
theorem scoreItem_empty_query (it : RItem) (i : ℕ) :
    scoreItem [] none it i = ⟨it, max 0 (1000 - 5 * (i : ℤ)), i⟩ := by
  simp [scoreItem, overlapScore_nil, folderBoost]

/-- Insertion sort leaves a list alone when each element relates to its
successor by the strict comparator order. -/
theorem sSort_sorted (l : List SEntry)
    (h : l.Chain' (fun a b => sBefore a b = true)) : sSort l = l := by
  induction l with
  | nil => rfl
  | cons x xs ih =>
    have hxs : xs.Chain' (fun a b => sBefore a b = true) := h.tail
    rw [sSort, ih hxs]
    cases xs with
    | nil => rfl
    | cons y ys =>
      have hxy : sBefore x y = true := (List.chain'_cons.mp h).1
      simp [sInsert, hxy]

/-- The positional bonus is antitone in the index. -/
theorem posBonus_antitone (i : ℕ) :
    max 0 (1000 - 5 * ((i + 1 : ℕ) : ℤ)) ≤ max 0 (1000 - 5 * (i : ℤ)) := by
  apply max_le_max le_rfl
  push_cast
  linarith

/-- The empty-query scored list is already in comparator order. -/
theorem chain_empty_query (items : List RItem) (n : ℕ) :
    (((List.enumFrom n items).map
      (fun p => scoreItem [] none p.2 p.1)).Chain'
        (fun a b => sBefore a b = true)) := by
  induction items generalizing n with
  | nil => simp
  | cons it rest ih =>
    cases rest with
    | nil => simp
    | cons it2 rest2 =>
      refine List.chain'_cons.mpr ⟨?_, ih (n + 1)⟩
      show sBefore (scoreItem [] none it n) (scoreItem [] none it2 (n + 1)) = true
      rw [scoreItem_empty_query, scoreItem_empty_query]
      have hle := posBonus_antitone n
      simp only [sBefore, Bool.or_eq_true, Bool.and_eq_true, decide_eq_true_eq]
      rcases lt_or_eq_of_le hle with hlt | heq
      · exact Or.inl hlt
      · exact Or.inr ⟨heq.symm, Nat.lt_succ_self n⟩

/-- The output loop on in-order entries produces the first-distinct prefix. -/
theorem rankLoop_spec (k : ℕ) (items : List RItem) (n : ℕ) (seen : List Str)
    (out : List RItem) (hout : out.length < k) :
    rankLoop (k : ℚ) ((List.enumFrom n items).map
        (fun p => scoreItem [] none p.2 p.1)) seen out
      = out.reverse ++ (firstDistinctByKey items seen).take (k - out.length) := by
  induction items generalizing n seen out with
  | nil => simp [rankLoop, firstDistinctByKey]
  | cons it rest ih =>
    simp only [List.enumFrom, List.map_cons]
    rw [rankLoop, firstDistinctByKey]
    have hit : (scoreItem [] none it n).item = it := by rw [scoreItem_empty_query]
    rw [hit]
    by_cases hskip : itemKey it = [] ∨ itemKey it ∈ seen
    · rw [if_pos hskip, if_pos hskip]
      exact ih (n + 1) seen out hout
    · rw [if_neg hskip, if_neg hskip]
      have hlen : ((it :: out).length : ℚ) = (out.length : ℚ) + 1 := by
        push_cast [List.length_cons]
        ring
      by_cases hfull : k ≤ out.length + 1
      · have hkeq : k = out.length + 1 := by omega
        rw [if_pos (by rw [hlen]; exact_mod_cast hfull)]
        rw [hkeq]
        simp [List.take]
      · rw [if_neg (by rw [hlen]; push_neg; exact_mod_cast Nat.lt_of_not_le hfull)]
        rw [ih (n + 1) _ (it :: out) (by simpa using Nat.lt_of_not_le hfull)]
        have hsub : k - out.length = (k - (out.length + 1)) + 1 := by omega
        rw [hsub]
        simp [List.take]

theorem effTopK_num_nat (k : ℕ) (hk : 1 ≤ k) : effTopK (.num (k : ℚ)) = (k : ℚ) := by
  have h0 : ((k : ℚ)) ≠ 0 := by exact_mod_cast Nat.one_le_iff_ne_zero.mp hk
  have h1 : (1 : ℚ) ≤ (k : ℚ) := by exact_mod_cast hk
  simp [effTopK, h0, max_eq_right h1]

/-- C2 (amended half): with an empty query and no folder weights, the ranker
returns the FIRST `topK` items by original insertion index (earliest-added
first), deduplicated by key, in insertion order. -/
theorem C2_amended_empty_query_rank (items : List RItem) (k : ℕ) (hk : 1 ≤ k) :
    rankContextPackItems items ⟨[], .num (k : ℚ), none⟩
      = (firstDistinctByKey items []).take k := by
  unfold rankContextPackItems
  simp only [effTopK_num_nat k hk]
  have hsort : sSort ((List.enumFrom 0 items).map
      (fun p => scoreItem [] none p.2 p.1))
      = (List.enumFrom 0 items).map (fun p => scoreItem [] none p.2 p.1) :=
    sSort_sorted _ (chain_empty_query items 0)
  have henum : items.enum = List.enumFrom 0 items := rfl
  have hq : sanitizeText ([] : Str) = [] := rfl
  rw [hq]
  have htok : tokenize ([] : Str) = [] := rfl
  rw [htok, henum, hsort, rankLoop_spec k items 0 [] []
    (by simpa using Nat.lt_of_lt_of_le Nat.zero_lt_one hk)]
  simp

/-- Witness instantiating `C2_amended_empty_query_rank` at a concrete
three-item pack with `topK = 2`. -/
theorem C2_amended_witness :
    1 ≤ 2 ∧
    rankContextPackItems
        [⟨str "a.md", str "a", [], []⟩, ⟨str "b.md", str "b", [], []⟩,
          ⟨str "c.md", str "c", [], []⟩] ⟨[], .num ((2 : ℕ) : ℚ), none⟩
      = (firstDistinctByKey
        [⟨str "a.md", str "a", [], []⟩, ⟨str "b.md", str "b", [], []⟩,
          ⟨str "c.md", str "c", [], []⟩] []).take 2 :=
  ⟨by decide, C2_amended_empty_query_rank _ 2 (by decide)⟩

/-- C2 counterexample: for a pack of 3 items with `topK = 2` and an empty
query, the ranker returns the 2 EARLIEST-added items `[a, b]` — not the 2
most-recently-added items `[b, c]` the claim asserts. -/
theorem C2_counterexample :
    rankContextPackItems
        [⟨str "a.md", str "a", [], []⟩, ⟨str "b.md", str "b", [], []⟩,
          ⟨str "c.md", str "c", [], []⟩] ⟨[], .num 2, none⟩
      = [⟨str "a.md", str "a", [], []⟩, ⟨str "b.md", str "b", [], []⟩] ∧
    ([⟨str "a.md", str "a", [], []⟩, ⟨str "b.md", str "b", [], []⟩] : List RItem)
      ≠ [⟨str "b.md", str "b", [], []⟩, ⟨str "c.md", str "c", [], []⟩] := by
  constructor
  · decide
  · decide

/-- Generalized form of the empty-query characterization, for any `topK`
whose effective value is a positive natural number. -/
theorem rank_empty_query_general (items : List RItem) (t : JsTopK) (k : ℕ)
    (heff : effTopK t = (k : ℚ)) (hk : 1 ≤ k) :
    rankContextPackItems items ⟨[], t, none⟩
      = (firstDistinctByKey items []).take k := by
  unfold rankContextPackItems
  rw [heff]
  have hsort : sSort ((List.enumFrom 0 items).map
      (fun p => scoreItem [] none p.2 p.1))
      = (List.enumFrom 0 items).map (fun p => scoreItem [] none p.2 p.1) :=
    sSort_sorted _ (chain_empty_query items 0)
  have henum : items.enum = List.enumFrom 0 items := rfl
  have hq : sanitizeText ([] : Str) = [] := rfl
  rw [hq]
  have htok : tokenize ([] : Str) = [] := rfl
  rw [htok, henum, hsort, rankLoop_spec k items 0 [] []
    (by simpa using Nat.lt_of_lt_of_le Nat.zero_lt_one hk)]
  simp

/-- The output loop never grows past the (rational) bound `k`:
if it starts strictly below `k` it ends strictly below `k + 1`. -/
theorem rankLoop_length_lt (k : ℚ) (entries : List SEntry) (seen : List Str)
    (out : List RItem) (h : ((out.length : ℚ)) < k) :
    (((rankLoop k entries seen out).length : ℚ)) < k + 1 := by
  induction entries generalizing seen out with
  | nil =>
    rw [rankLoop]
    simp only [List.length_reverse]
    linarith
  | cons e rest ih =>
    rw [rankLoop]
    by_cases hskip : itemKey e.item = [] ∨ itemKey e.item ∈ seen
    · rw [if_pos hskip]; exact ih seen out h
    · rw [if_neg hskip]
      by_cases hfull : k ≤ (((e.item :: out).length : ℚ))
      · rw [if_pos hfull]
        simp only [List.length_reverse, List.length_cons]
        push_cast
        linarith
      · rw [if_neg hfull]
        exact ih _ _ (lt_of_not_le hfull)

/-- The effective topK is at least 1. -/
theorem effTopK_ge_one (t : JsTopK) : 1 ≤ effTopK t := by
  cases t with
  | num q => exact le_max_left 1 _
  | nonNum => exact le_max_left 1 _

/-- Rational-to-integer form of the loop bound: the output length is at most
the ceiling of the effective topK. -/
theorem rank_length_le_ceil (items : List RItem) (opts : RankOpts) :
    ((rankContextPackItems items opts).length : ℤ) ≤ ⌈effTopK opts.topK⌉ := by
  have h0 : ((([] : List RItem).length : ℚ)) < effTopK opts.topK := by
    simpa using lt_of_lt_of_le one_pos (effTopK_ge_one opts.topK)
  have h := rankLoop_length_lt (effTopK opts.topK)
    (sSort ((items.enum).map
      (fun p => scoreItem (tokenize (sanitizeText opts.query))
        opts.folderWeights p.2 p.1))) [] [] h0
  unfold rankContextPackItems
  have h2 : (((rankLoop (effTopK opts.topK)
      (sSort ((items.enum).map
        (fun p => scoreItem (tokenize (sanitizeText opts.query))
          opts.folderWeights p.2 p.1))) [] []).length : ℤ))
      < ⌈effTopK opts.topK + 1⌉ := by
    apply Int.lt_ceil.mpr
    push_cast
    push_cast at h
    linarith
  rw [Int.ceil_add_one] at h2
  omega

/-- C3 counterexample: with 10 distinct-keyed items and `topK = -5`
(numeric, truthy) the bound is `Math.max(1, -5) = 1`, so the result has
length 1 — not 8 as the claim asserts. -/
theorem C3_counterexample :
    (rankContextPackItems
        [⟨str "a.md", str "a", [], []⟩, ⟨str "b.md", str "b", [], []⟩,
          ⟨str "c.md", str "c", [], []⟩, ⟨str "d.md", str "d", [], []⟩,
          ⟨str "e.md", str "e", [], []⟩, ⟨str "f.md", str "f", [], []⟩,
          ⟨str "g.md", str "g", [], []⟩, ⟨str "h.md", str "h", [], []⟩,
          ⟨str "i.md", str "i", [], []⟩, ⟨str "j.md", str "j", [], []⟩]
        ⟨[], .num (-5), none⟩).length = 1 ∧ (1 : ℕ) ≠ 8 := by
  rw [rank_empty_query_general _ (.num (-5)) 1 (by norm_num [effTopK]) le_rfl]
  constructor
  · decide
  · decide

/-- C3 (amended): a non-numeric topK and a topK of 0 default the bound to 8;
any other numeric topK `q` is clamped to `max(1, q)` (so a negative topK
yields at most one item, not 8); the result length never exceeds the
ceiling of that bound. -/
theorem C3_amended_topk_bound (items : List RItem) (q : Str)
    (fw : Option (List (Str × ℤ))) (qq : ℚ) (hqq : qq ≠ 0) :
    (rankContextPackItems items ⟨q, .nonNum, fw⟩).length ≤ 8 ∧
    (rankContextPackItems items ⟨q, .num 0, fw⟩).length ≤ 8 ∧
    ((rankContextPackItems items ⟨q, .num qq, fw⟩).length : ℤ) ≤ max 1 ⌈qq⌉ := by
  refine ⟨?_, ?_, ?_⟩
  · have h := rank_length_le_ceil items ⟨q, .nonNum, fw⟩
    have he : effTopK JsTopK.nonNum = (8 : ℚ) := by norm_num [effTopK]
    rw [he] at h
    have : ⌈(8 : ℚ)⌉ = 8 := by norm_num
    omega
  · have h := rank_length_le_ceil items ⟨q, .num 0, fw⟩
    have he : effTopK (JsTopK.num 0) = (8 : ℚ) := by norm_num [effTopK]
    rw [he] at h
    have : ⌈(8 : ℚ)⌉ = 8 := by norm_num
    omega
  · have h := rank_length_le_ceil items ⟨q, .num qq, fw⟩
    have he : effTopK (JsTopK.num qq) = max 1 qq := by simp [effTopK, hqq]
    rw [he] at h
    have hmax : ⌈max (1 : ℚ) qq⌉ = max ⌈(1 : ℚ)⌉ ⌈qq⌉ := Int.ceil_mono.map_max
    rw [hmax, Int.ceil_one] at h
    exact h

/-- Witness instantiating `C3_amended_topk_bound` at one item and
`topK = -5`. -/
theorem C3_amended_witness :
    ((-5 : ℚ) ≠ 0) ∧
    ((rankContextPackItems [⟨str "a.md", str "a", [], []⟩]
        ⟨[], .nonNum, none⟩).length ≤ 8 ∧
      (rankContextPackItems [⟨str "a.md", str "a", [], []⟩]
        ⟨[], .num 0, none⟩).length ≤ 8 ∧
      ((rankContextPackItems [⟨str "a.md", str "a", [], []⟩]
        ⟨[], .num (-5), none⟩).length : ℤ) ≤ max 1 ⌈(-5 : ℚ)⌉) :=
  ⟨by norm_num,
    C3_amended_topk_bound [⟨str "a.md", str "a", [], []⟩] [] none (-5) (by norm_num)⟩

/-! ### The send-guard tool-suppression walk (C7) -/

/-- JSON-like payload values walked by `applyToolSuppressionInPayload`.
Payloads are modelled as trees: the per-call `seen`-set in the source only
fires on shared references or cycles, which a tree value cannot express, so
on every payload representable here each node is visited at most once and
the `seen`-set has no effect. -/
inductive JVal where
  | vnull
  | vbool (b : Bool)
  | vnum (n : ℤ)
  | vstr (s : Str)
  | varr (items : List JVal)
  | vobj (fields : List (Str × JVal))

/-- First value stored under a key (JS property read). -/
def getKey (o : List (Str × JVal)) (k : Str) : Option JVal :=
  (o.find? (fun e => e.1 = k)).map (fun e => e.2)

/-- JS property write: update the first binding in place, else append. -/
def setKey : List (Str × JVal) → Str → JVal → List (Str × JVal)
  | [], k, v => [(k, v)]
  | (k', v') :: rest, k, v =>
    if k' = k then (k, v) :: rest else (k', v') :: setKey rest k v

/-- Apply a function to the value under a key, if present (JS
`value[key] = f(value[key])` guarded by `key in value`, or an in-place
mutation of the referenced child). -/
def modifyKey : List (Str × JVal) → Str → (JVal → JVal) → List (Str × JVal)
  | [], _, _ => []
  | (k', v') :: rest, k, f =>
    if k' = k then (k', f v') :: rest else (k', v') :: modifyKey rest k f

/-- `key in value`. -/
def hasKey (o : List (Str × JVal)) (k : Str) : Bool := (getKey o k).isSome

/-- `Array.isArray(value[key])`. -/
def isArrKey (o : List (Str × JVal)) (k : Str) : Bool :=
  match getKey o k with
  | some (.varr _) => true
  | _ => false

/-- `if (key in value) value[key] = v` — set only when present. -/
def setIfPresent (o : List (Str × JVal)) (k : Str) (v : JVal) :
    List (Str × JVal) :=
  if hasKey o k then setKey o k v else o

/-- `if (Array.isArray(value[key])) value[key] = []` — clear only arrays. -/
def setIfArrEmpty (o : List (Str × JVal)) (k : Str) : List (Str × JVal) :=
  if isArrKey o k then setKey o k (.varr []) else o

/-- The unconditional and conditional flag writes of
`applyToolSuppressionInPayload`, in source order (everything before the
`options` sub-object block). -/
def sflat (o : List (Str × JVal)) : List (Str × JVal) :=
  setIfArrEmpty (setIfArrEmpty (setIfArrEmpty
    (setIfPresent (setIfPresent (setIfPresent
      (setKey (setKey (setKey (setKey o
        (str "localGateContextOnly") (.vbool true))
        (str "tool_choice") (.vstr (str "none")))
        (str "toolChoice") (.vstr (str "none")))
        (str "disableTools") (.vbool true))
      (str "allowTools") (.vbool false))
      (str "enableTools") (.vbool false))
      (str "toolsEnabled") (.vbool false))
    (str "tools")) (str "availableTools")) (str "enabledTools")

/-- The writes applied one level into the `options` sub-object. -/
def soptFields (oo : List (Str × JVal)) : List (Str × JVal) :=
  setIfArrEmpty
    (setIfPresent (setIfPresent oo (str "allowTools") (.vbool false))
      (str "enableTools") (.vbool false))
    (str "tools")

/-- The value-level `options` rewrite: only plain objects are touched. -/
def soptVal : JVal → JVal
  | .vobj oo => .vobj (soptFields oo)
  | v => v

/-- `if (isPlainObject(value.options)) { … }`. -/
def soptTop (o : List (Str × JVal)) : List (Str × JVal) :=
  modifyKey o (str "options") soptVal

/-- All field writes of one visit, in source order: the flag writes, then
the `options` sub-object writes. -/
def suppressFlags (o : List (Str × JVal)) : List (Str × JVal) :=
  soptTop (sflat o)

/-- The fixed list of nested keys the walk descends into. -/
def nestedKeys : List Str :=
  [str "payload", str "request", str "options", str "config", str "body",
    str "data", str "input", str "message", str "messages", str "params",
    str "args", str "requestOptions", str "chatRequest",
    str "completionRequest"]

/-- Descend into each nested key in order, rewriting the child in place. -/
def nestedWalk (g : JVal → JVal) : List Str → List (Str × JVal) → List (Str × JVal)
  | [], o => o
  | k :: ks, o => nestedWalk g ks (modifyKey o k g)

/-- `value.slice(0, 24).forEach(...)`: visit (and replace in place) the
first `b` elements, leave the rest untouched. -/
def arrVisit (g : JVal → JVal) : ℕ → List JVal → List JVal
  | 0, l => l
  | _ + 1, [] => []
  | b + 1, x :: xs => g x :: arrVisit g b xs

/-- The recursive walk of `applyToolSuppressionInPayload`, with the
remaining depth budget as fuel: the source visits depths `0..5` (the guard
is `depth > 5`), i.e. 6 levels, and a node beyond the budget is returned
untouched. Primitives and `null` are untouched; arrays visit their first 24
elements; plain objects get the flag writes and the nested-key descent. -/
def suppressGo : ℕ → JVal → JVal
  | 0, v => v
  | f + 1, .varr items => .varr (arrVisit (fun x => suppressGo f x) 24 items)
  | f + 1, .vobj o =>
    .vobj (nestedWalk (fun x => suppressGo f x) nestedKeys (suppressFlags o))
  | _ + 1, .vnull => .vnull
  | _ + 1, .vbool b => .vbool b
  | _ + 1, .vnum n => .vnum n
  | _ + 1, .vstr s => .vstr s

/-- `applyToolSuppressionInPayload(value)` (entered at depth 0). -/
def applyToolSuppressionInPayload (v : JVal) : JVal := suppressGo 6 v

theorem getKey_nil (k : Str) : getKey [] k = none := rfl

theorem getKey_cons (a : Str) (b : JVal) (rest : List (Str × JVal)) (k : Str) :
    getKey ((a, b) :: rest) k = if a = k then some b else getKey rest k := by
  by_cases h : a = k <;> simp [getKey, List.find?, h]

theorem getKey_setKey (o : List (Str × JVal)) (k v k') :
    getKey (setKey o k v) k' = if k' = k then some v else getKey o k' := by
  induction o with
  | nil =>
    by_cases h : k' = k
    · subst h; simp [setKey, getKey_cons]
    · simp [setKey, getKey_cons, h, Ne.symm h]
  | cons e rest ih =>
    obtain ⟨a, b⟩ := e
    by_cases hak : a = k
    · subst hak
      by_cases h : k' = a
      · subst h; simp [setKey, getKey_cons]
      · simp [setKey, getKey_cons, h, Ne.symm h]
    · by_cases h : k' = a
      · subst h
        simp [setKey, hak, getKey_cons, ih, Ne.symm hak]
      · simp [setKey, hak, getKey_cons, ih, Ne.symm h]

theorem setKey_eq_self (o : List (Str × JVal)) (k : Str) (v : JVal)
    (h : getKey o k = some v) : setKey o k v = o := by
  induction o with
  | nil => simp [getKey_nil] at h
  | cons e rest ih =>
    obtain ⟨a, b⟩ := e
    rw [getKey_cons] at h
    by_cases hak : a = k
    · subst hak
      simp at h
      simp [setKey, h]
    · rw [if_neg hak] at h
      simp [setKey, hak, ih h]

theorem getKey_modifyKey (o : List (Str × JVal)) (k : Str) (f : JVal → JVal)
    (k' : Str) :
    getKey (modifyKey o k f) k'
      = if k' = k then (getKey o k).map f else getKey o k' := by
  induction o with
  | nil => by_cases h : k' = k <;> simp [modifyKey, getKey_nil, h]
  | cons e rest ih =>
    obtain ⟨a, b⟩ := e
    by_cases hak : a = k
    · subst hak
      by_cases h : k' = a
      · subst h; simp [modifyKey, getKey_cons]
      · simp [modifyKey, getKey_cons, h, Ne.symm h]
    · by_cases h : k' = a
      · subst h
        simp [modifyKey, hak, getKey_cons, ih, Ne.symm hak]
      · simp [modifyKey, hak, getKey_cons, ih, Ne.symm h]

theorem modifyKey_fixed (o : List (Str × JVal)) (k : Str) (f : JVal → JVal)
    (h : ∀ v, getKey o k = some v → f v = v) : modifyKey o k f = o := by
  induction o with
  | nil => rfl
  | cons e rest ih =>
    obtain ⟨a, b⟩ := e
    rw [getKey_cons] at h
    by_cases hak : a = k
    · subst hak
      simp at h
      simp [modifyKey, h]
    · rw [if_neg hak] at h
      simp [modifyKey, hak, ih h]

theorem getKey_setIfPresent (o : List (Str × JVal)) (k : Str) (v : JVal)
    (k' : Str) :
    getKey (setIfPresent o k v) k'
      = if k' = k then (getKey o k).map (fun _ => v) else getKey o k' := by
  unfold setIfPresent hasKey
  by_cases hp : (getKey o k).isSome
  · obtain ⟨w, hw⟩ := Option.isSome_iff_exists.mp hp
    rw [if_pos hp, getKey_setKey, hw]
    rfl
  · rw [if_neg hp]
    rw [Option.not_isSome_iff_eq_none] at hp
    by_cases h : k' = k <;> simp [h, hp]

theorem setIfPresent_fixed (o : List (Str × JVal)) (k : Str) (w : JVal)
    (h : ∀ v, getKey o k = some v → v = w) : setIfPresent o k w = o := by
  unfold setIfPresent hasKey
  by_cases hp : (getKey o k).isSome
  · obtain ⟨v, hv⟩ := Option.isSome_iff_exists.mp hp
    rw [if_pos hp]
    exact setKey_eq_self _ _ _ (by rw [hv, h v hv])
  · rw [if_neg hp]

theorem getKey_setIfArrEmpty (o : List (Str × JVal)) (k : Str) (k' : Str) :
    getKey (setIfArrEmpty o k) k'
      = if k' = k then
          (match getKey o k with
            | some (.varr _) => some (.varr ([] : List JVal))
            | x => x)
        else getKey o k' := by
  unfold setIfArrEmpty isArrKey
  rcases hk : getKey o k with _ | w
  · rw [if_neg (by simp [hk])]
    by_cases h : k' = k
    · subst h; simp [hk]
    · simp [h]
  · cases w with
    | varr l =>
      rw [if_pos (by simp [hk]), getKey_setKey]
    | vnull =>
      rw [if_neg (by simp [hk])]
      by_cases h : k' = k
      · subst h; simp [hk]
      · simp [h]
    | vbool b =>
      rw [if_neg (by simp [hk])]
      by_cases h : k' = k
      · subst h; simp [hk]
      · simp [h]
    | vnum n =>
      rw [if_neg (by simp [hk])]
      by_cases h : k' = k
      · subst h; simp [hk]
      · simp [h]
    | vstr s =>
      rw [if_neg (by simp [hk])]
      by_cases h : k' = k
      · subst h; simp [hk]
      · simp [h]
    | vobj fs =>
      rw [if_neg (by simp [hk])]
      by_cases h : k' = k
      · subst h; simp [hk]
      · simp [h]

theorem setIfArrEmpty_fixed (o : List (Str × JVal)) (k : Str)
    (h : ∀ l, getKey o k = some (.varr l) → l = []) : setIfArrEmpty o k = o := by
  unfold setIfArrEmpty isArrKey
  rcases hk : getKey o k with _ | w
  · simp
  · cases w with
    | varr l =>
      have hl : l = [] := h l hk
      subst hl
      simp only [if_pos rfl]
      exact setKey_eq_self _ _ _ hk
    | vnull => simp
    | vbool b => simp
    | vnum n => simp
    | vstr s => simp
    | vobj fs => simp

/-- The flag keys are in their suppressed state: a second run of the flag
writes cannot change anything. -/
def FlagsFixed (o : List (Str × JVal)) : Prop :=
  getKey o (str "localGateContextOnly") = some (.vbool true) ∧
  getKey o (str "tool_choice") = some (.vstr (str "none")) ∧
  getKey o (str "toolChoice") = some (.vstr (str "none")) ∧
  getKey o (str "disableTools") = some (.vbool true) ∧
  (∀ v, getKey o (str "allowTools") = some v → v = .vbool false) ∧
  (∀ v, getKey o (str "enableTools") = some v → v = .vbool false) ∧
  (∀ v, getKey o (str "toolsEnabled") = some v → v = .vbool false) ∧
  (∀ l, getKey o (str "tools") = some (.varr l) → l = []) ∧
  (∀ l, getKey o (str "availableTools") = some (.varr l) → l = []) ∧
  (∀ l, getKey o (str "enabledTools") = some (.varr l) → l = [])


theorem getKey_setKey_self (o : List (Str × JVal)) (k : Str) (v : JVal) :
    getKey (setKey o k v) k = some v := by
  rw [getKey_setKey, if_pos rfl]

theorem getKey_setIfPresent_self (o : List (Str × JVal)) (k : Str) (w : JVal) :
    ∀ v, getKey (setIfPresent o k w) k = some v → v = w := by
  intro v hv
  rw [getKey_setIfPresent, if_pos rfl] at hv
  rcases hk : getKey o k with _ | u
  · rw [hk] at hv; simp at hv
  · rw [hk] at hv
    simp at hv
    exact hv.symm

theorem getKey_setIfArrEmpty_self (o : List (Str × JVal)) (k : Str) :
    ∀ l, getKey (setIfArrEmpty o k) k = some (.varr l) → l = [] := by
  intro l hl
  rw [getKey_setIfArrEmpty, if_pos rfl] at hl
  rcases hk : getKey o k with _ | w
  · rw [hk] at hl; simp at hl
  · rw [hk] at hl
    cases w with
    | varr l2 => simp at hl; exact hl
    | vnull => simp at hl
    | vbool b => simp at hl
    | vnum n => simp at hl
    | vstr s => simp at hl
    | vobj fs => simp at hl

/-- The flag keys are in their suppressed state after the flag writes. -/
theorem sflat_flagsFixed (o : List (Str × JVal)) : FlagsFixed (sflat o) := by
  unfold FlagsFixed sflat
  refine ⟨?_, ?_, ?_, ?_, ?_, ?_, ?_, ?_, ?_, ?_⟩
  · rw [getKey_setIfArrEmpty, if_neg (by decide), getKey_setIfArrEmpty, if_neg (by decide), getKey_setIfArrEmpty, if_neg (by decide), getKey_setIfPresent, if_neg (by decide), getKey_setIfPresent, if_neg (by decide), getKey_setIfPresent, if_neg (by decide), getKey_setKey, if_neg (by decide), getKey_setKey, if_neg (by decide), getKey_setKey, if_neg (by decide)]
    exact getKey_setKey_self _ _ _
  · rw [getKey_setIfArrEmpty, if_neg (by decide), getKey_setIfArrEmpty, if_neg (by decide), getKey_setIfArrEmpty, if_neg (by decide), getKey_setIfPresent, if_neg (by decide), getKey_setIfPresent, if_neg (by decide), getKey_setIfPresent, if_neg (by decide), getKey_setKey, if_neg (by decide), getKey_setKey, if_neg (by decide)]
    exact getKey_setKey_self _ _ _
  · rw [getKey_setIfArrEmpty, if_neg (by decide), getKey_setIfArrEmpty, if_neg (by decide), getKey_setIfArrEmpty, if_neg (by decide), getKey_setIfPresent, if_neg (by decide), getKey_setIfPresent, if_neg (by decide), getKey_setIfPresent, if_neg (by decide), getKey_setKey, if_neg (by decide)]
    exact getKey_setKey_self _ _ _
  · rw [getKey_setIfArrEmpty, if_neg (by decide), getKey_setIfArrEmpty, if_neg (by decide), getKey_setIfArrEmpty, if_neg (by decide), getKey_setIfPresent, if_neg (by decide), getKey_setIfPresent, if_neg (by decide), getKey_setIfPresent, if_neg (by decide)]
    exact getKey_setKey_self _ _ _
  · intro v hv
    rw [getKey_setIfArrEmpty, if_neg (by decide), getKey_setIfArrEmpty, if_neg (by decide), getKey_setIfArrEmpty, if_neg (by decide), getKey_setIfPresent, if_neg (by decide), getKey_setIfPresent, if_neg (by decide)] at hv
    exact getKey_setIfPresent_self _ _ _ v hv
  · intro v hv
    rw [getKey_setIfArrEmpty, if_neg (by decide), getKey_setIfArrEmpty, if_neg (by decide), getKey_setIfArrEmpty, if_neg (by decide), getKey_setIfPresent, if_neg (by decide)] at hv
    exact getKey_setIfPresent_self _ _ _ v hv
  · intro v hv
    rw [getKey_setIfArrEmpty, if_neg (by decide), getKey_setIfArrEmpty, if_neg (by decide), getKey_setIfArrEmpty, if_neg (by decide)] at hv
    exact getKey_setIfPresent_self _ _ _ v hv
  · intro l hl
    rw [getKey_setIfArrEmpty, if_neg (by decide), getKey_setIfArrEmpty, if_neg (by decide)] at hl
    exact getKey_setIfArrEmpty_self _ _ l hl
  · intro l hl
    rw [getKey_setIfArrEmpty, if_neg (by decide)] at hl
    exact getKey_setIfArrEmpty_self _ _ l hl
  · intro l hl
    exact getKey_setIfArrEmpty_self _ _ l hl

/-- A second run of the flag writes on already-suppressed fields is a no-op. -/
theorem sflat_fixed (o : List (Str × JVal)) (h : FlagsFixed o) : sflat o = o := by
  obtain ⟨h1, h2, h3, h4, h5, h6, h7, h8, h9, h10⟩ := h
  unfold sflat
  rw [setKey_eq_self _ _ _ h1, setKey_eq_self _ _ _ h2, setKey_eq_self _ _ _ h3,
    setKey_eq_self _ _ _ h4, setIfPresent_fixed _ _ _ h5,
    setIfPresent_fixed _ _ _ h6, setIfPresent_fixed _ _ _ h7,
    setIfArrEmpty_fixed _ _ h8, setIfArrEmpty_fixed _ _ h9,
    setIfArrEmpty_fixed _ _ h10]

/-- `soptTop` only rewrites the `options` key, so the flag-key states
survive. -/
theorem flagsFixed_soptTop (o : List (Str × JVal)) (h : FlagsFixed o) :
    FlagsFixed (soptTop o) := by
  obtain ⟨h1, h2, h3, h4, h5, h6, h7, h8, h9, h10⟩ := h
  unfold FlagsFixed soptTop
  refine ⟨?_, ?_, ?_, ?_, ?_, ?_, ?_, ?_, ?_, ?_⟩ <;>
    rw [getKey_modifyKey, if_neg (by decide)]
  · exact h1
  · exact h2
  · exact h3
  · exact h4
  · exact h5
  · exact h6
  · exact h7
  · exact h8
  · exact h9
  · exact h10

/-- The nested-key walk leaves keys outside its key list untouched. -/
theorem getKey_nestedWalk_not_mem (g : JVal → JVal) (ks : List Str)
    (o : List (Str × JVal)) (k : Str) (hk : k ∉ ks) :
    getKey (nestedWalk g ks o) k = getKey o k := by
  induction ks generalizing o with
  | nil => rfl
  | cons k' ks' ih =>
    have hne : k ≠ k' := fun he => hk (he ▸ List.mem_cons_self k' ks')
    rw [nestedWalk, ih _ (fun hmem => hk (List.mem_cons_of_mem _ hmem)),
      getKey_modifyKey, if_neg hne]

/-- The flag keys are not nested keys, so the walk preserves their state. -/
theorem flagsFixed_nestedWalk (g : JVal → JVal) (o : List (Str × JVal))
    (h : FlagsFixed o) : FlagsFixed (nestedWalk g nestedKeys o) := by
  obtain ⟨h1, h2, h3, h4, h5, h6, h7, h8, h9, h10⟩ := h
  unfold FlagsFixed
  refine ⟨?_, ?_, ?_, ?_, ?_, ?_, ?_, ?_, ?_, ?_⟩ <;>
    rw [getKey_nestedWalk_not_mem _ _ _ _ (by decide)]
  · exact h1
  · exact h2
  · exact h3
  · exact h4
  · exact h5
  · exact h6
  · exact h7
  · exact h8
  · exact h9
  · exact h10

/-- A walk over keys whose current values are all fixed points of the visit
function is a no-op. -/
theorem nestedWalk_fixed (g : JVal → JVal) (ks : List Str)
    (o : List (Str × JVal))
    (h : ∀ k ∈ ks, ∀ v, getKey o k = some v → g v = v) :
    nestedWalk g ks o = o := by
  induction ks with
  | nil => rfl
  | cons k' ks' ih =>
    rw [nestedWalk, modifyKey_fixed _ _ _ (h k' (List.mem_cons_self _ _))]
    exact ih (fun k hk => h k (List.mem_cons_of_mem _ hk))

/-- After a walk with a pointwise-idempotent visit function, every value
stored under a walked key is a fixed point of the visit function. -/
theorem nestedWalk_gfixed (g : JVal → JVal) (hg : ∀ x, g (g x) = g x)
    (ks : List Str) (o : List (Str × JVal)) :
    ∀ k ∈ ks, ∀ v, getKey (nestedWalk g ks o) k = some v → g v = v := by
  induction ks generalizing o with
  | nil => intro k hk; exact absurd hk (List.not_mem_nil k)
  | cons k' ks' ih =>
    intro k hk v hv
    by_cases hmem : k ∈ ks'
    · exact ih (modifyKey o k' g) k hmem v (by rw [nestedWalk] at hv; exact hv)
    · have hkk : k = k' := by
        rcases List.mem_cons.mp hk with h | h
        · exact h
        · exact absurd h hmem
      subst hkk
      rw [nestedWalk, getKey_nestedWalk_not_mem _ _ _ _ hmem,
        getKey_modifyKey, if_pos rfl] at hv
      rcases ho : getKey o k with _ | w
      · rw [ho] at hv; simp at hv
      · rw [ho] at hv
        simp at hv
        rw [← hv, hg]

/-- The `options` sub-object keys are in their suppressed state: a second
run of the options writes cannot change anything. -/
def OptFixed (oo : List (Str × JVal)) : Prop :=
  (∀ v, getKey oo (str "allowTools") = some v → v = .vbool false) ∧
  (∀ v, getKey oo (str "enableTools") = some v → v = .vbool false) ∧
  (∀ l, getKey oo (str "tools") = some (.varr l) → l = [])

theorem soptFields_optFixed (oo : List (Str × JVal)) :
    OptFixed (soptFields oo) := by
  unfold OptFixed soptFields
  refine ⟨?_, ?_, ?_⟩
  · intro v hv
    rw [getKey_setIfArrEmpty, if_neg (by decide),
      getKey_setIfPresent, if_neg (by decide)] at hv
    exact getKey_setIfPresent_self _ _ _ v hv
  · intro v hv
    rw [getKey_setIfArrEmpty, if_neg (by decide)] at hv
    exact getKey_setIfPresent_self _ _ _ v hv
  · intro l hl
    exact getKey_setIfArrEmpty_self _ _ l hl

theorem soptFields_fixed (oo : List (Str × JVal)) (h : OptFixed oo) :
    soptFields oo = oo := by
  obtain ⟨h1, h2, h3⟩ := h
  unfold soptFields
  rw [setIfPresent_fixed _ _ _ h1, setIfPresent_fixed _ _ _ h2,
    setIfArrEmpty_fixed _ _ h3]

theorem optFixed_of_flagsFixed (o : List (Str × JVal)) (h : FlagsFixed o) :
    OptFixed o :=
  ⟨h.2.2.2.2.1, h.2.2.2.2.2.1, h.2.2.2.2.2.2.2.1⟩

theorem optFixed_soptTop (o : List (Str × JVal)) (h : OptFixed o) :
    OptFixed (soptTop o) := by
  obtain ⟨h1, h2, h3⟩ := h
  unfold OptFixed soptTop
  refine ⟨?_, ?_, ?_⟩ <;> rw [getKey_modifyKey, if_neg (by decide)]
  · exact h1
  · exact h2
  · exact h3

theorem optFixed_nestedWalk (g : JVal → JVal) (o : List (Str × JVal))
    (h : OptFixed o) : OptFixed (nestedWalk g nestedKeys o) := by
  obtain ⟨h1, h2, h3⟩ := h
  unfold OptFixed
  refine ⟨?_, ?_, ?_⟩ <;> rw [getKey_nestedWalk_not_mem _ _ _ _ (by decide)]
  · exact h1
  · exact h2
  · exact h3

/-- The value-level options rewrite is idempotent. -/
theorem optFixed_suppressFlags (x : List (Str × JVal)) :
    OptFixed (suppressFlags x) := by
  unfold suppressFlags
  exact optFixed_soptTop _ (optFixed_of_flagsFixed _ (sflat_flagsFixed _))

theorem soptVal_idem (v : JVal) : soptVal (soptVal v) = soptVal v := by
  cases v with
  | vobj oo =>
    show JVal.vobj (soptFields (soptFields oo)) = JVal.vobj (soptFields oo)
    rw [soptFields_fixed _ (soptFields_optFixed oo)]
  | vnull => rfl
  | vbool b => rfl
  | vnum n => rfl
  | vstr s => rfl
  | varr l => rfl

/-- A walk output applied to an options-rewritten value is itself a fixed
point of the options rewrite. -/
theorem soptVal_suppressGo (f : ℕ) (v : JVal) :
    soptVal (suppressGo f (soptVal v)) = suppressGo f (soptVal v) := by
  cases f with
  | zero => exact soptVal_idem v
  | succ f' =>
    cases v with
    | vobj oo =>
      show soptVal (suppressGo (f' + 1) (.vobj (soptFields oo))) = _
      rw [show suppressGo (f' + 1) (.vobj (soptFields oo))
          = .vobj (nestedWalk (fun x => suppressGo f' x) nestedKeys
            (suppressFlags (soptFields oo))) from rfl]
      show JVal.vobj (soptFields _) = _
      rw [soptFields_fixed _ (optFixed_nestedWalk _ _ (optFixed_suppressFlags _))]
      rfl
    | vnull => rfl
    | vbool b => rfl
    | vnum n => rfl
    | vstr s => rfl
    | varr l => rfl

/-- The options value after one full visit of an object. -/
theorem getKey_walk_options (g : JVal → JVal) (o : List (Str × JVal)) :
    getKey (nestedWalk g nestedKeys o) (str "options")
      = (getKey o (str "options")).map g := by
  unfold nestedKeys
  rw [nestedWalk, nestedWalk, nestedWalk,
    getKey_nestedWalk_not_mem _ _ _ _ (by decide),
    getKey_modifyKey, if_pos rfl, getKey_modifyKey, if_neg (by decide),
    getKey_modifyKey, if_neg (by decide)]

/-- Visiting the first `b` array elements twice with a pointwise-idempotent
function equals visiting once. -/
theorem arrVisit_idem (g : JVal → JVal) (hg : ∀ x, g (g x) = g x) :
    ∀ (b : ℕ) (l : List JVal), arrVisit g b (arrVisit g b l) = arrVisit g b l
  | 0, l => rfl
  | _ + 1, [] => rfl
  | b + 1, x :: xs => by
    rw [arrVisit, arrVisit, hg, arrVisit_idem g hg b xs]

/-- Core idempotence of the depth-limited suppression walk. -/
theorem suppressGo_idem (f : ℕ) :
    ∀ v : JVal, suppressGo f (suppressGo f v) = suppressGo f v := by
  induction f with
  | zero => intro v; rfl
  | succ f' ih =>
    intro v
    cases v with
    | vnull => rfl
    | vbool b => rfl
    | vnum n => rfl
    | vstr s => rfl
    | varr items =>
      show JVal.varr (arrVisit (fun x => suppressGo f' x) 24
        (arrVisit (fun x => suppressGo f' x) 24 items)) = _
      rw [arrVisit_idem _ ih]
      rfl
    | vobj o =>
      show JVal.vobj (nestedWalk (fun x => suppressGo f' x) nestedKeys
        (suppressFlags (nestedWalk (fun x => suppressGo f' x) nestedKeys
          (suppressFlags o)))) = _
      have hff : FlagsFixed (nestedWalk (fun x => suppressGo f' x) nestedKeys
          (suppressFlags o)) :=
        flagsFixed_nestedWalk _ _ (flagsFixed_soptTop _ (sflat_flagsFixed _))
      have hsflat := sflat_fixed _ hff
      have hsopt : soptTop (nestedWalk (fun x => suppressGo f' x) nestedKeys
          (suppressFlags o))
          = nestedWalk (fun x => suppressGo f' x) nestedKeys
            (suppressFlags o) := by
        apply modifyKey_fixed
        intro v hv
        rw [getKey_walk_options] at hv
        rcases ho : getKey (suppressFlags o) (str "options") with _ | u
        · rw [ho] at hv; simp at hv
        · rw [ho] at hv
          simp at hv
          have hu : ∃ w, u = soptVal w := by
            unfold suppressFlags soptTop at ho
            rw [getKey_modifyKey, if_pos rfl] at ho
            rcases hs : getKey (sflat o) (str "options") with _ | w
            · rw [hs] at ho; simp at ho
            · rw [hs] at ho
              simp at ho
              exact ⟨w, ho.symm⟩
          obtain ⟨w, hw⟩ := hu
          rw [← hv, hw, soptVal_suppressGo]
      have hwalk : nestedWalk (fun x => suppressGo f' x) nestedKeys
          (nestedWalk (fun x => suppressGo f' x) nestedKeys
            (suppressFlags o))
          = nestedWalk (fun x => suppressGo f' x) nestedKeys
            (suppressFlags o) := by
        apply nestedWalk_fixed
        exact nestedWalk_gfixed _ ih nestedKeys (suppressFlags o)
      rw [show suppressFlags (nestedWalk (fun x => suppressGo f' x) nestedKeys
          (suppressFlags o))
          = soptTop (sflat (nestedWalk (fun x => suppressGo f' x) nestedKeys
            (suppressFlags o))) from rfl, hsflat, hsopt, hwalk]
      rfl

/-- C7: the tool-suppression walk is idempotent — applying
`applyToolSuppressionInPayload` twice to any payload value (nested
objects/arrays up to the depth limit) leaves it exactly as one application
does. -/
theorem C7_tool_suppression_idempotent (v : JVal) :
    applyToolSuppressionInPayload (applyToolSuppressionInPayload v)
      = applyToolSuppressionInPayload v :=
  suppressGo_idem 6 v

/-! ### Pack store: creation, normalization (C8, C9), id round trip (C10) -/

/-- `sanitizeStringArray`: keep strings only (modelled as given), trim,
drop empties. -/
def sanitizeStringArray (l : List Str) : List Str :=
  (l.map jsTrim).filter (fun s => s ≠ [])

/-- Decimal digits of a natural number (for the `pack-${index+1}` and
`Context Pack ${index+1}` fallback labels). -/
def natToStr (n : ℕ) : Str := Nat.toDigits 10 n

/-- A raw (persisted, untrusted) context-pack item as read from settings.
Non-string JSON fields enter as the empty string (what `sanitizeString`
returns for them). -/
structure RawItem where
  path : Str
  mentionPath : Str
  preview : Str
  folderPath : Str
deriving DecidableEq, Repr

/-- `sanitizeContextPackItem`: trim all fields, reject items without a
path or mention path. -/
def sanitizeContextPackItem (r : RawItem) : Option RItem :=
  let path := sanitizeString r.path []
  let mentionPath := sanitizeString r.mentionPath []
  let preview := sanitizeString r.preview []
  let folderPath := sanitizeString r.folderPath []
  if path = [] ∨ mentionPath = [] then none
  else some ⟨path, mentionPath, preview, folderPath⟩

/-- A raw (persisted, untrusted) context pack as read from settings. -/
structure RawPack where
  id : Str
  label : Str
  createdAt : Str
  sourceFolders : List Str
  items : List RawItem
  filePaths : List Str
  topK : JsTopK
  lastUsedAt : Str
deriving DecidableEq, Repr

/-- A sanitized context pack (the shape stored in
`settings.contextPacks`). -/
structure Pack where
  id : Str
  label : Str
  createdAt : Str
  sourceFolders : List Str
  filePaths : List Str
  items : List RItem
  totalFiles : ℕ
  topK : ℚ
  lastUsedAt : Str
deriving DecidableEq, Repr

/-- `sanitizeContextPack(rawPack, index)`.  The ambient clock
(`new Date().toISOString()`, the `createdAt` fallback) is passed as `now`. -/
def sanitizeContextPack (r : RawPack) (index : ℕ) (now : Str) : Pack :=
  let fallbackId := str "pack-" ++ natToStr (index + 1)
  let id := lowerStr (sanitizeString r.id fallbackId)
  let createdAt := sanitizeString r.createdAt now
  let sourceFolders := sanitizeStringArray r.sourceFolders
  let items := r.items.filterMap sanitizeContextPackItem
  let filePaths := sanitizeStringArray r.filePaths
  { id := id
    label := sanitizeString r.label (str "Context Pack " ++ natToStr (index + 1))
    createdAt := createdAt
    sourceFolders := sourceFolders
    filePaths := if filePaths ≠ [] then filePaths else items.map (fun it => it.path)
    items := items
    totalFiles := max items.length filePaths.length
    topK := effTopK r.topK
    lastUsedAt := sanitizeString r.lastUsedAt [] }

/-- The dedup-by-id loop of `normalizeContextPacks` (forEach with a `seen`
set and a growing result). -/
def normalizeAux (now : Str) : List RawPack → ℕ → List Str → List Pack
  | [], _, _ => []
  | r :: rest, i, seen =>
    let p := sanitizeContextPack r i now
    if p.id = [] ∨ p.id ∈ seen then normalizeAux now rest (i + 1) seen
    else p :: normalizeAux now rest (i + 1) (p.id :: seen)

/-- `normalizeContextPacks`: sanitize each entry, drop empty/duplicate ids,
cap at 40. -/
def normalizeContextPacks (now : Str) (raws : List RawPack) : List Pack :=
  (normalizeAux now raws 0 []).take 40

/-- Digits used by `Number.prototype.toString(36)`. -/
def b36digits : Str := str "0123456789abcdefghijklmnopqrstuvwxyz"

/-- One base-36 digit. -/
def base36Digit (n : ℕ) : Char := b36digits.getD n '0'

/-- `n.toString(36)` (fuelled; `n + 1` steps always suffice). -/
def natToBase36Aux : ℕ → ℕ → Str
  | 0, _ => []
  | fuel + 1, n =>
    if n < 36 then [base36Digit n]
    else natToBase36Aux fuel (n / 36) ++ [base36Digit (n % 36)]

/-- `n.toString(36)`. -/
def natToBase36 (n : ℕ) : Str := natToBase36Aux (n + 1) n

/-- `padStart(4, "0")`. -/
def padStart4 (s : Str) : Str :=
  if s.length < 4 then List.replicate (4 - s.length) '0' ++ s else s

/-- `createContextPackId`: `cp-${Date.now().toString(36)}-${rand}` with the
clock value and the random draw (`Math.floor(Math.random() * 36 ** 4)`)
passed in. -/
def createContextPackId (nowMs rand : ℕ) : Str :=
  str "cp-" ++ natToBase36 nowMs ++ str "-" ++ padStart4 (natToBase36 rand)

/-- `buildContextPackReference`. -/
def buildContextPackReference (packId : Str) : Str :=
  str "@context-pack(" ++ packId ++ str ")"

/-- `normalizeMentionPath`: trim, backslashes to slashes, strip leading
slashes, strip one case-insensitive `.md` suffix. -/
def normalizeMentionPath (fp : Str) : Str :=
  let t := (sanitizeString fp []).map (fun c => if c = '\\' then '/' else c)
  let t := t.dropWhile (fun c => c = '/')
  if 3 ≤ t.length ∧ lowerStr (t.drop (t.length - 3)) = str ".md" then
    t.take (t.length - 3)
  else t

/-- `filePath.includes("/") ? filePath.slice(0, filePath.lastIndexOf("/"))
: ""`. -/
def folderOfPath (fp : Str) : Str :=
  if '/' ∈ fp then (fp.reverse.dropWhile (fun c => c ≠ '/')).drop 1 |>.reverse
  else []

/-- Settings fields consumed by the context-pack engine.  `maxItems` and
`topK` are numbers (`NaN` inputs are not exercised by the claims). -/
structure GateSettings where
  contextPackMaxItems : ℚ
  contextPackTopK : ℚ
  contextPackInjectInline : Bool
  contextPackIncludePreviews : Bool
  contextPackAutoPreviewFromQuery : Bool
deriving DecidableEq, Repr

/-- The result object of `createContextPackFromSelections`. -/
structure CreateResult where
  reference : Str
  packId : Str
  count : ℕ
  truncated : Bool
  total : ℕ
deriving DecidableEq, Repr

/-- The item-resolution stage of `createContextPackFromSelections`:
cap the resolved file list at the item budget, build one item per file that
has a non-empty mention path.  `files` is the resolved selection
(`collectMentionFilePaths`) and `previewOf` the awaited per-file preview
(`readNotePreview`, which degrades to `""` on I/O failure) — both are host
I/O boundaries passed in explicitly. -/
def resolveCreateItems (settings : GateSettings) (files : List Str)
    (previewOf : Str → Str) : List RItem :=
  let limRaw := if settings.contextPackMaxItems = 0 then 240
    else settings.contextPackMaxItems
  let lim := max (20 : ℚ) (min 800 limRaw)
  let selected := files.take (Int.toNat ⌊lim⌋)
  selected.filterMap (fun fp =>
    let mentionPath := normalizeMentionPath fp
    if mentionPath = [] then none
    else some ⟨fp, mentionPath, previewOf fp, folderOfPath fp⟩)

/-- An `RItem` viewed as raw input to `sanitizeContextPack` (the freshly
built item objects are passed straight into it). -/
def itemToRaw (it : RItem) : RawItem := ⟨it.path, it.mentionPath, it.preview, it.folderPath⟩

/-- `createContextPackFromSelections` (storage part): returns the result
object and the new `settings.contextPacks` list.  `nowIso` is
`new Date().toISOString()`, `nowMs`/`rand` feed `createContextPackId`. -/
def createContextPackFromSelections (settings : GateSettings)
    (packs : List Pack) (files : List Str) (previewOf : Str → Str)
    (folderPaths filePaths : List Str) (nowIso : Str) (nowMs rand : ℕ) :
    CreateResult × List Pack :=
  let items := resolveCreateItems settings files previewOf
  if items = [] then
    (⟨[], [], 0, false, files.length⟩, packs)
  else
    let packId := createContextPackId nowMs rand
    let labelSource :=
      (sanitizeStringArray folderPaths).headD
        ((sanitizeStringArray filePaths).headD (str "selection"))
    let pack := sanitizeContextPack
      { id := packId
        label := str "Context Pack: " ++ labelSource
        createdAt := nowIso
        sourceFolders := sanitizeStringArray folderPaths
        filePaths := items.map (fun it => it.path)
        items := items.map itemToRaw
        topK := .num settings.contextPackTopK
        lastUsedAt := [] } 0 nowIso
    let retained := packs.filter (fun e => e.id ≠ pack.id)
    (⟨buildContextPackReference pack.id, pack.id, items.length,
        decide (items.length < files.length), files.length⟩,
      (pack :: retained).take 40)

/-- Characters allowed after the first id character
(`[a-z0-9\x2d]` with the `i` flag). -/
def isIdChar (c : Char) : Bool :=
  isLowerAlpha c || isUpperAlpha c || isDigitChar c || c = '-'

/-- First id character (`[a-z0-9]` with the `i` flag). -/
def isIdHead (c : Char) : Bool :=
  isLowerAlpha c || isUpperAlpha c || isDigitChar c

/-- Case-insensitive literal match; the literal is given lower-case.
Returns the remaining input on success. -/
def matchLitCI : Str → Str → Option Str
  | [], s => some s
  | _ :: _, [] => none
  | lc :: lrest, c :: rest =>
    if toLowerChar c = lc then matchLitCI lrest rest else none

/-- Try to match one `@context-pack(<id>)` token at the current position.
The greedy id run is the maximal run of id characters; shorter runs are
still followed by an id character, never by `)`, so the regex matches here
exactly when the maximal run starts with an alphanumeric, has length at
least 6 and is followed by `)`. Returns the lower-cased id and the rest of
the input after the token. -/
def matchRefAt (s : Str) : Option (Str × Str) :=
  match matchLitCI (str "@context-pack(") s with
  | none => none
  | some after =>
    let run := after.takeWhile isIdChar
    let rest := after.dropWhile isIdChar
    if decide (6 ≤ run.length)
        && (match run with | c :: _ => isIdHead c | [] => false)
        && (match rest with | ')' :: _ => true | _ => false) then
      some (lowerStr run, rest.drop 1)
    else none

/-- The global scan of `getContextPackIdsFromText`: try the token pattern
at every position, resume after each match, collect distinct lower-cased
ids in first-occurrence order (fuelled by the input length; every step
consumes at least one character). -/
def getIdsAux : ℕ → Str → List Str → List Str
  | 0, _, acc => acc.reverse
  | fuel + 1, s, acc =>
    match s with
    | [] => acc.reverse
    | c :: rest =>
      match matchRefAt (c :: rest) with
      | some (id, after) =>
        getIdsAux fuel after (if id ∈ acc then acc else id :: acc)
      | none => getIdsAux fuel rest acc

/-- `getContextPackIdsFromText`. -/
def getContextPackIdsFromText (t : Str) : List Str :=
  let target := sanitizeString t []
  getIdsAux target.length target []

/-- `findContextPack`: case-insensitive id lookup. -/
def findContextPack (packs : List Pack) (packId : Str) : Option Pack :=
  let id := lowerStr (sanitizeString packId [])
  if id = [] then none
  else packs.find? (fun e => e.id = id)

/-- The dedup loop of `normalizeContextPacks` never emits an id from `seen`
and its output ids are distinct. -/
theorem normalizeAux_spec (now : Str) (raws : List RawPack) :
    ∀ i seen, (∀ p ∈ normalizeAux now raws i seen, p.id ∉ seen) ∧
      ((normalizeAux now raws i seen).map (fun p => p.id)).Nodup := by
  induction raws with
  | nil => intro i seen; simp [normalizeAux]
  | cons r rest ih =>
    intro i seen
    rw [normalizeAux]
    by_cases hskip : (sanitizeContextPack r i now).id = []
        ∨ (sanitizeContextPack r i now).id ∈ seen
    · rw [if_pos hskip]
      exact ih (i + 1) seen
    · rw [if_neg hskip]
      push_neg at hskip
      obtain ⟨hne, hnotin⟩ := hskip
      obtain ⟨ihmem, ihnodup⟩ := ih (i + 1) ((sanitizeContextPack r i now).id :: seen)
      constructor
      · intro p hp
        rcases List.mem_cons.mp hp with h | h
        · rw [h]; exact hnotin
        · intro hin
          exact ihmem p h (List.mem_cons_of_mem _ hin)
      · rw [List.map_cons, List.nodup_cons]
        refine ⟨?_, ihnodup⟩
        intro hin
        rw [List.mem_map] at hin
        obtain ⟨q, hq, hqid⟩ := hin
        exact ihmem q hq (hqid ▸ List.mem_cons_self _ _)

/-- C8: after a pack-storing `createContextPackFromSelections` call, the new
pack sits at index 0, every other stored pack has a different id, and the
history holds at most 40 packs; `normalizeContextPacks` preserves the
40-bound and id-uniqueness on load. -/
theorem C8_store_invariants (settings : GateSettings) (packs : List Pack)
    (files : List Str) (previewOf : Str → Str)
    (folderPaths filePaths : List Str) (nowIso : Str) (nowMs rand : ℕ)
    (raws : List RawPack) (loadNow : Str)
    (hne : resolveCreateItems settings files previewOf ≠ []) :
    ((createContextPackFromSelections settings packs files previewOf
        folderPaths filePaths nowIso nowMs rand).2.head?.map (fun p => p.id))
      = some (createContextPackFromSelections settings packs files previewOf
        folderPaths filePaths nowIso nowMs rand).1.packId ∧
    ((createContextPackFromSelections settings packs files previewOf
        folderPaths filePaths nowIso nowMs rand).2.tail.all (fun q =>
          q.id ≠ (createContextPackFromSelections settings packs files
            previewOf folderPaths filePaths nowIso nowMs rand).1.packId)) = true ∧
    (createContextPackFromSelections settings packs files previewOf
        folderPaths filePaths nowIso nowMs rand).2.length ≤ 40 ∧
    ((normalizeContextPacks loadNow raws).map (fun p => p.id)).Nodup ∧
    (normalizeContextPacks loadNow raws).length ≤ 40 := by
  unfold createContextPackFromSelections
  rw [if_neg hne]
  dsimp only
  refine ⟨?_, ?_, ?_, ?_, ?_⟩
  · rw [List.take_cons (by omega : 0 < 40)]
    rfl
  · rw [List.take_cons (by omega : 0 < 40)]
    rw [List.tail_cons, List.all_eq_true]
    intro q hq
    have hq' := List.mem_of_mem_take hq
    have := List.of_mem_filter hq'
    simpa using this
  · exact le_trans (List.length_take_le _ _) (by omega)
  · exact List.Nodup.sublist
      (List.Sublist.map (fun (p : Pack) => p.id)
        (List.take_sublist 40 (normalizeAux loadNow raws 0 [])))
      (normalizeAux_spec loadNow raws 0 []).2
  · exact le_trans (List.length_take_le _ _) (by omega)

/-- C9: a selection resolving to zero usable items yields the zero result
object and leaves the stored pack list untouched. -/
theorem C9_empty_selection (settings : GateSettings) (packs : List Pack)
    (files : List Str) (previewOf : Str → Str)
    (folderPaths filePaths : List Str) (nowIso : Str) (nowMs rand : ℕ)
    (hz : resolveCreateItems settings files previewOf = []) :
    createContextPackFromSelections settings packs files previewOf
        folderPaths filePaths nowIso nowMs rand
      = (⟨[], [], 0, false, files.length⟩, packs) := by
  unfold createContextPackFromSelections
  rw [if_pos hz]

/-- Witness instantiating `C9_empty_selection` on an empty vault. -/
theorem C9_empty_selection_witness :
    resolveCreateItems ⟨240, 8, true, false, false⟩ [] (fun _ => []) = [] ∧
    createContextPackFromSelections ⟨240, 8, true, false, false⟩ [] []
        (fun _ => []) [] [] [] 0 0
      = (⟨[], [], 0, false, 0⟩, []) :=
  ⟨rfl, C9_empty_selection ⟨240, 8, true, false, false⟩ [] [] (fun _ => [])
    [] [] [] 0 0 rfl⟩

/-- Witness instantiating `C8_store_invariants` on a one-file selection. -/
theorem C8_store_invariants_witness :
    resolveCreateItems ⟨240, 8, true, false, false⟩ [str "a.md"]
        (fun _ => []) ≠ [] ∧
    (((createContextPackFromSelections ⟨240, 8, true, false, false⟩ []
        [str "a.md"] (fun _ => []) [] [] [] 0 0).2.head?.map (fun p => p.id))
      = some (createContextPackFromSelections ⟨240, 8, true, false, false⟩ []
        [str "a.md"] (fun _ => []) [] [] [] 0 0).1.packId ∧
    ((createContextPackFromSelections ⟨240, 8, true, false, false⟩ []
        [str "a.md"] (fun _ => []) [] [] [] 0 0).2.tail.all (fun q =>
          q.id ≠ (createContextPackFromSelections ⟨240, 8, true, false, false⟩
            [] [str "a.md"] (fun _ => []) [] [] [] 0 0).1.packId)) = true ∧
    (createContextPackFromSelections ⟨240, 8, true, false, false⟩ []
        [str "a.md"] (fun _ => []) [] [] [] 0 0).2.length ≤ 40 ∧
    ((normalizeContextPacks [] []).map (fun p => p.id)).Nodup ∧
    (normalizeContextPacks [] []).length ≤ 40) :=
  ⟨by decide,
    C8_store_invariants ⟨240, 8, true, false, false⟩ [] [str "a.md"]
      (fun _ => []) [] [] [] 0 0 [] [] (by decide)⟩

/-- Every base-36 digit the converter emits is one of `0-9a-z`. -/
theorem base36Digit_mem (n : ℕ) : base36Digit n ∈ b36digits := by
  unfold base36Digit List.getD
  rcases hg : b36digits.get? n with _ | c
  · simp [hg]
    decide
  · simp [hg]
    exact List.get?_mem hg

theorem natToBase36Aux_mem (fuel : ℕ) :
    ∀ n c, c ∈ natToBase36Aux fuel n → c ∈ b36digits := by
  induction fuel with
  | zero => intro n c hc; simp [natToBase36Aux] at hc
  | succ f ih =>
    intro n c hc
    rw [natToBase36Aux] at hc
    by_cases h : n < 36
    · rw [if_pos h] at hc
      simp at hc
      exact hc ▸ base36Digit_mem n
    · rw [if_neg h] at hc
      rcases List.mem_append.mp hc with h2 | h2
      · exact ih _ c h2
      · simp at h2
        exact h2 ▸ base36Digit_mem _

theorem natToBase36Aux_ne_nil (fuel n : ℕ) (h : 1 ≤ fuel) :
    natToBase36Aux fuel n ≠ [] := by
  cases fuel with
  | zero => omega
  | succ f =>
    rw [natToBase36Aux]
    by_cases h36 : n < 36
    · simp [h36]
    · simp [h36]

/-- The generated pack id: every character, in order, is `c`, `p`, `-`,
a base-36 digit, or a padding `0`. -/
theorem createContextPackId_chars (nowMs rand : ℕ) :
    ∀ c ∈ createContextPackId nowMs rand,
      c ∈ b36digits ∨ c = '-' ∨ c = 'c' ∨ c = 'p' := by
  intro c hc
  unfold createContextPackId at hc
  rcases List.mem_append.mp hc with h | h
  · rcases List.mem_append.mp h with h2 | h2
    · rcases List.mem_append.mp h2 with h3 | h3
      · simp [str] at h3
        rcases h3 with h4 | h4 | h4
        · exact Or.inr (Or.inr (Or.inl h4))
        · exact Or.inr (Or.inr (Or.inr h4))
        · exact Or.inr (Or.inl h4)
      · exact Or.inl (natToBase36Aux_mem _ _ c h3)
    · simp [str] at h2
      exact Or.inr (Or.inl h2)
  · unfold padStart4 at h
    by_cases hlen : (natToBase36 rand).length < 4
    · rw [if_pos hlen] at h
      rcases List.mem_append.mp h with h2 | h2
      · have := List.eq_of_mem_replicate h2
        subst this
        exact Or.inl (by decide)
      · exact Or.inl (natToBase36Aux_mem _ _ c h2)
    · rw [if_neg hlen] at h
      exact Or.inl (natToBase36Aux_mem _ _ c h)

/-- The digit characters are id characters and lower-case-fixed
(checked by evaluation over the 36 concrete digits). -/
theorem b36digits_idChar :
    ∀ c ∈ b36digits, isIdChar c = true ∧ toLowerChar c = c := by decide

/-- Every character of a generated id is an id character and is fixed by
lower-casing. -/
theorem createContextPackId_idChar (nowMs rand : ℕ) :
    ∀ c ∈ createContextPackId nowMs rand,
      isIdChar c = true ∧ toLowerChar c = c := by
  intro c hc
  rcases createContextPackId_chars nowMs rand c hc with h | h | h | h
  · exact b36digits_idChar c h
  · subst h; exact ⟨by decide, by decide⟩
  · subst h; exact ⟨by decide, by decide⟩
  · subst h; exact ⟨by decide, by decide⟩

/-- Length of a generated id: at least 9 characters
(`cp-` + at least one time digit + `-` + at least 4 random digits). -/
theorem createContextPackId_length (nowMs rand : ℕ) :
    9 ≤ (createContextPackId nowMs rand).length := by
  unfold createContextPackId
  have h1 : 1 ≤ (natToBase36 nowMs).length := by
    rcases hn : natToBase36 nowMs with _ | ⟨c, rest⟩
    · exact absurd hn (natToBase36Aux_ne_nil _ _ (by omega))
    · simp
  have h2 : 4 ≤ (padStart4 (natToBase36 rand)).length := by
    unfold padStart4
    by_cases hl : (natToBase36 rand).length < 4
    · rw [if_pos hl]
      simp
      omega
    · rw [if_neg hl]
      omega
  simp [str]
  omega

/-- A trim is a no-op when both ends are non-space. -/
theorem jsTrim_eq_self (s : Str)
    (h1 : ∀ c, s.head? = some c → isSpaceChar c = false)
    (h2 : ∀ c, s.getLast? = some c → isSpaceChar c = false) :
    jsTrim s = s := by
  unfold jsTrim
  have hd : s.dropWhile isSpaceChar = s := by
    cases s with
    | nil => rfl
    | cons c rest =>
      rw [List.dropWhile_cons, if_neg (by simp [h1 c rfl])]
  rw [hd]
  have hrev : s.reverse.dropWhile isSpaceChar = s.reverse := by
    cases hr : s.reverse with
    | nil => rfl
    | cons c rest =>
      rw [List.dropWhile_cons, if_neg ?_]
      have : s.getLast? = some c := by
        rw [← List.head?_reverse, hr]
        rfl
      simp [h2 c this]
  rw [hrev, List.reverse_reverse]

/-- Case-insensitive literal match succeeds on the literal itself. -/
theorem matchLitCI_append (lit r : Str)
    (h : ∀ c ∈ lit, toLowerChar c = c) :
    matchLitCI lit (lit ++ r) = some r := by
  induction lit with
  | nil => rfl
  | cons c rest ih =>
    rw [List.cons_append, matchLitCI, if_pos (h c (List.mem_cons_self _ _)),
      ih (fun d hd => h d (List.mem_cons_of_mem _ hd))]

theorem takeWhile_all_append (p : Char → Bool) (l₁ : Str) (b : Char) (l₂ : Str)
    (h1 : ∀ c ∈ l₁, p c = true) (hb : p b = false) :
    (l₁ ++ b :: l₂).takeWhile p = l₁ ∧ (l₁ ++ b :: l₂).dropWhile p = b :: l₂ := by
  induction l₁ with
  | nil => simp [List.takeWhile, List.dropWhile, hb]
  | cons c rest ih =>
    obtain ⟨iht, ihd⟩ := ih (fun d hd => h1 d (List.mem_cons_of_mem _ hd))
    constructor
    · rw [List.cons_append, List.takeWhile_cons,
        if_pos (h1 c (List.mem_cons_self _ _)), iht]
    · rw [List.cons_append, List.dropWhile_cons,
        if_pos (h1 c (List.mem_cons_self _ _)), ihd]

/-- Lower-casing fixes a generated id. -/
theorem lowerStr_createContextPackId (nowMs rand : ℕ) :
    lowerStr (createContextPackId nowMs rand) = createContextPackId nowMs rand := by
  unfold lowerStr
  rw [show (createContextPackId nowMs rand).map toLowerChar
      = (createContextPackId nowMs rand).map id from
    List.map_congr_left (fun c hc =>
      (createContextPackId_idChar nowMs rand c hc).2), List.map_id]

theorem getIdsAux_nil (fuel : ℕ) (acc : List Str) :
    getIdsAux fuel [] acc = acc.reverse := by
  cases fuel <;> rfl

/-- A text that is exactly one reference token scans to exactly its id. -/
theorem getIdsAux_single (fuel : ℕ) (c : Char) (r : Str) (w : Str)
    (hm : matchRefAt (c :: r) = some (w, [])) :
    getIdsAux (fuel + 1) (c :: r) [] = [w] := by
  rw [getIdsAux]
  simp only [hm, List.not_mem_nil, if_neg (fun h => h)]
  rw [getIdsAux_nil]
  rfl

/-- The reference built from a generated id is matched in full at position
0, producing the id itself and consuming the whole text. -/
theorem matchRefAt_reference (nowMs rand : ℕ) :
    matchRefAt (str "@context-pack("
        ++ (createContextPackId nowMs rand ++ str ")"))
      = some (createContextPackId nowMs rand, []) := by
  obtain ⟨ht, hd⟩ := takeWhile_all_append isIdChar
    (createContextPackId nowMs rand) ')' []
    (fun ch hch => (createContextPackId_idChar nowMs rand ch hch).1)
    (by decide)
  unfold matchRefAt
  rw [show str "@context-pack(" ++ (createContextPackId nowMs rand ++ str ")")
      = str "@context-pack(" ++ (createContextPackId nowMs rand ++ [')'])
    from rfl]
  rw [matchLitCI_append _ _ (by decide)]
  dsimp only
  rw [ht, hd]
  have hlen : 9 ≤ (createContextPackId nowMs rand).length :=
    createContextPackId_length nowMs rand
  have hshape : createContextPackId nowMs rand
      = 'c' :: 'p' :: '-' :: (natToBase36 nowMs
        ++ (str "-" ++ padStart4 (natToBase36 rand))) := by
    unfold createContextPackId
    rw [show str "cp-" = ['c', 'p', '-'] from by decide]
    simp
  have hguard : (decide (6 ≤ (createContextPackId nowMs rand).length)
      && (match createContextPackId nowMs rand with
          | c :: _ => isIdHead c
          | [] => false)
      && (match ([')'] : Str) with | ')' :: _ => true | _ => false)) = true := by
    rw [hshape] at hlen ⊢
    simp only [List.length_cons, Bool.and_eq_true, decide_eq_true_eq]
    simp only [List.length_cons] at hlen
    refine ⟨⟨by omega, by decide⟩, trivial⟩
  split
  · rw [lowerStr_createContextPackId]
    rfl
  · rename_i hcond
    exact absurd hguard hcond

/-- The reference-token id grammar: one alphanumeric, then at least five
more characters drawn from letters, digits and hyphen. -/
def matchesIdGrammar (s : Str) : Bool :=
  (match s with | c :: _ => isIdHead c | [] => false)
    && s.all isIdChar && decide (6 ≤ s.length)

/-- C10: every id `createContextPackId` produces matches the reference-token
id grammar, and scanning the reference built from it recovers exactly that
id — generated references are always re-findable by the resolver. -/
theorem C10_reference_round_trip (nowMs rand : ℕ) :
    matchesIdGrammar (createContextPackId nowMs rand) = true ∧
    getContextPackIdsFromText
        (buildContextPackReference (createContextPackId nowMs rand))
      = [createContextPackId nowMs rand] := by
  have hshape : createContextPackId nowMs rand
      = 'c' :: 'p' :: '-' :: (natToBase36 nowMs
        ++ (str "-" ++ padStart4 (natToBase36 rand))) := by
    unfold createContextPackId
    rw [show str "cp-" = ['c', 'p', '-'] from by decide]
    simp
  have hlen := createContextPackId_length nowMs rand
  have hbuild : buildContextPackReference (createContextPackId nowMs rand)
      = '@' :: (str "context-pack("
        ++ (createContextPackId nowMs rand ++ str ")")) := by
    unfold buildContextPackReference
    rw [show str "@context-pack(" = '@' :: str "context-pack(" from by decide]
    simp
  constructor
  · simp only [matchesIdGrammar, Bool.and_eq_true, List.all_eq_true,
      decide_eq_true_eq]
    refine ⟨⟨?_, ?_⟩, by omega⟩
    · rw [hshape]
      exact (by decide : isIdHead 'c' = true)
    · intro c hc
      exact (createContextPackId_idChar nowMs rand c hc).1
  · have hm := matchRefAt_reference nowMs rand
    have hhead : (buildContextPackReference
        (createContextPackId nowMs rand)).head? = some '@' := by
      rw [hbuild]
      rfl
    have hlast : (buildContextPackReference
        (createContextPackId nowMs rand)).getLast? = some ')' := by
      rw [show buildContextPackReference (createContextPackId nowMs rand)
          = (str "@context-pack(" ++ createContextPackId nowMs rand) ++ [')']
        from by
          unfold buildContextPackReference
          rw [show str ")" = [')'] from by decide]]
      exact List.getLast?_concat _
    have htrim := jsTrim_eq_self
      (buildContextPackReference (createContextPackId nowMs rand))
      (fun c hc => by rw [hhead] at hc; cases hc; decide)
      (fun c hc => by rw [hlast] at hc; cases hc; decide)
    have hsan : sanitizeString
        (buildContextPackReference (createContextPackId nowMs rand)) []
        = buildContextPackReference (createContextPackId nowMs rand) := by
      unfold sanitizeString
      dsimp only
      rw [htrim, if_neg (by rw [hbuild]; simp)]
    unfold getContextPackIdsFromText
    dsimp only
    rw [hsan, hbuild, List.length_cons]
    apply getIdsAux_single
    rw [← hbuild]
    unfold buildContextPackReference
    exact hm

/-! ### Text cleanup: metadata stripping and path redaction (C6, and the
inline formatter used by expansion) -/

/-- JS `\w`: ASCII letters, digits, underscore. -/
def isWordChar (c : Char) : Bool :=
  isLowerAlpha c || isUpperAlpha c || isDigitChar c || c = '_'

/-- The multi-segment path segment class `[A-Za-z0-9._-]`. -/
def isSChar (c : Char) : Bool := isWordChar c || c = '.' || c = '-'

/-- Letters-or-digits for the Unicode property class in the leading-junk
strip; covers the ranges this code base handles (ASCII + Hangul). -/
def jsLetterDigit (c : Char) : Bool :=
  isLowerAlpha c || isUpperAlpha c || isDigitChar c || isHangul c

/-- Case-sensitive literal match, returning the rest on success. -/
def matchLitCS : Str → Str → Option Str
  | [], s => some s
  | _ :: _, [] => none
  | lc :: lrest, c :: rest => if c = lc then matchLitCS lrest rest else none

/-- Generic left-to-right global replace: at each position try `fm` (which
sees the word-ness of the previous source character, for `\b` assertions);
on a match of length `n`, emit `repl`, resume after the match with the
previous-character state taken from the last matched source character —
exactly JS `String.replace` with a global regex (fuelled by the input
length; every match consumes at least one character). -/
def scanGo (fm : Bool → Str → Option ℕ) (repl : Str) :
    ℕ → Bool → Str → Str
  | 0, _, s => s
  | fuel + 1, prev, s =>
    match s with
    | [] => []
    | c :: rest =>
      match fm prev (c :: rest) with
      | some n =>
        repl ++ scanGo fm repl fuel
          (match ((c :: rest).take n).getLast? with
            | some d => isWordChar d
            | none => prev)
          ((c :: rest).drop n)
      | none => c :: scanGo fm repl fuel (isWordChar c) rest

/-- Run a global replace over a whole string (start-of-string counts as a
non-word previous character). -/
def scanReplace (fm : Bool → Str → Option ℕ) (repl : Str) (s : Str) : Str :=
  scanGo fm repl s.length false s

/-- `[[...]]` wiki-link: two brackets, a non-empty run without `]`, two
closing brackets (the greedy run is maximal and shorter runs are still
followed by a non-`]` character, so the match is determined). -/
def matchLinkAt (_ : Bool) (s : Str) : Option ℕ :=
  match s with
  | '[' :: '[' :: rest =>
    let run := rest.takeWhile (fun c => c ≠ ']')
    if run = [] then none
    else
      match rest.drop run.length with
      | ']' :: ']' :: _ => some (run.length + 4)
      | _ => none
  | _ => none

/-- `/Users/` followed by a maximal non-space run (at least one char). -/
def matchUsersAt (_ : Bool) (s : Str) : Option ℕ :=
  match matchLitCS (str "/Users/") s with
  | some after =>
    let run := after.takeWhile (fun c => !isSpaceChar c)
    if run = [] then none else some (7 + run.length)
  | none => none

/-- Drive-letter path: a letter, `:`, backslash, maximal non-space run. -/
def matchDriveAt (_ : Bool) (s : Str) : Option ℕ :=
  match s with
  | c :: c2 :: c3 :: rest =>
    if c2 = ':' && c3 = '\\' && (isLowerAlpha c || isUpperAlpha c) then
      let run := rest.takeWhile (fun ch => !isSpaceChar ch)
      if run = [] then none else some (3 + run.length)
    else none
  | _ => none

/-- Greedy unit parse for the multi-segment path pattern: each unit is a
maximal non-empty segment-class run followed by `/`; returns, for
`k = 1, 2, …`, the total length consumed by the first `k` units and the
remaining input there. -/
def unitsFrom : ℕ → Str → List (ℕ × Str)
  | 0, _ => []
  | fuel + 1, s =>
    let run := s.takeWhile isSChar
    match run with
    | [] => []
    | _ :: _ =>
      match s.drop run.length with
      | d :: rest2 =>
        if d = '/' then
          (run.length + 1, rest2)
            :: (unitsFrom fuel rest2).map
                (fun p => (run.length + 1 + p.1, p.2))
        else []
      | [] => []

/-- One past the index of the last word character of a run (the longest
ending of the final segment that satisfies the trailing `\b`; the optional
`.md` branch only produces endings this also captures). -/
def lastWordEnd : Str → Option ℕ
  | [] => none
  | c :: rest =>
    match lastWordEnd rest with
    | some n => some (n + 1)
    | none => if isWordChar c then some 1 else none

/-- The multi-segment slash-path pattern
(2+ `[A-Za-z0-9._-]+/` units, a final segment, word boundaries at both
ends): the backtracking engine takes the largest unit count `k ≥ 2` whose
final segment run contains a word character, ending one past its last word
character — the longest match at this position. -/
def matchMsAt (prev : Bool) (s : Str) : Option ℕ :=
  match s with
  | [] => none
  | c :: _ =>
    if (isWordChar c) = prev then none
    else
      (((unitsFrom s.length s).enum.filter (fun p => 1 ≤ p.1)).reverse).findSome?
        (fun p => (lastWordEnd ((p.2.2).takeWhile isSChar)).map
          (fun e => p.2.1 + e))

/-- A run of two or more square brackets. -/
def matchBracketRunAt (_ : Bool) (s : Str) : Option ℕ :=
  let run := s.takeWhile (fun c => c = '[' || c = ']')
  if 2 ≤ run.length then some run.length else none

/-- A maximal whitespace run. -/
def matchWsAt (_ : Bool) (s : Str) : Option ℕ :=
  let run := s.takeWhile isSpaceChar
  if run = [] then none else some run.length

/-- `redactPathLikeText`: trim; blank empty; then the six global replaces
of the source in order — wiki links to `[링크]`, `/Users/…`, drive-letter
and multi-segment slash paths to `[경로생략]`, bracket runs and whitespace
runs to single spaces — and a final trim. -/
def redactPathLikeText (raw : Str) : Str :=
  let t := sanitizeString raw []
  if t = [] then []
  else jsTrim (scanReplace matchWsAt (str " ")
    (scanReplace matchBracketRunAt (str " ")
      (scanReplace matchMsAt (str "[경로생략]")
        (scanReplace matchDriveAt (str "[경로생략]")
          (scanReplace matchUsersAt (str "[경로생략]")
            (scanReplace matchLinkAt (str "[링크]") t))))))

/-- The metadata-noise key vocabulary (alternation order preserved). -/
def kwList : List Str :=
  [str "plugin", str "generated_at", str "window_start", str "window_end",
    str "feeds_checked", str "items_count", str "items_without_date",
    str "items_filtered_by_keyword", str "items_deduped", str "feed_errors",
    str "translation_provider", str "translation_model",
    str "titles_translated"]

/-- `\b(keyword…)\s*:` — every keyword starts with a word character, so
the leading boundary demands a non-word previous character; alternatives
are tried in source order. -/
def matchKwAt (prev : Bool) (s : Str) : Option ℕ :=
  if prev then none
  else kwList.findSome? (fun kw =>
    match matchLitCI kw s with
    | some after =>
      let sp := after.takeWhile isSpaceChar
      match after.drop sp.length with
      | ':' :: _ => some (kw.length + sp.length + 1)
      | _ => none
    | none => none)

/-- Consume exactly `k` digits. -/
def takeDigits : ℕ → Str → Option Str
  | 0, s => some s
  | k + 1, c :: rest => if isDigitChar c then takeDigits k rest else none
  | _ + 1, [] => none

/-- Trailing word-boundary check: the next character must be absent or
non-word. -/
def nonWordNext : Str → Bool
  | [] => true
  | d :: _ => !isWordChar d

/-- ISO timestamp `\b\d{4}-\d{2}-\d{2}t\d{2}:\d{2}:\d{2}(\.\d+)?z\b`
(case-insensitive `t`/`z`): the optional fraction is tried greedily first,
then the plain ending; the trailing boundary needs a non-word follower. -/
def matchIsoAt (prev : Bool) (s : Str) : Option ℕ :=
  if prev then none
  else
    match takeDigits 4 s with
    | none => none
    | some r1 =>
      match r1 with
      | '-' :: r2 =>
        match takeDigits 2 r2 with
        | none => none
        | some r3 =>
          match r3 with
          | '-' :: r4 =>
            match takeDigits 2 r4 with
            | none => none
            | some r5 =>
              match r5 with
              | t :: r6 =>
                if t = 't' ∨ t = 'T' then
                  match takeDigits 2 r6 with
                  | none => none
                  | some r7 =>
                    match r7 with
                    | ':' :: r8 =>
                      match takeDigits 2 r8 with
                      | none => none
                      | some r9 =>
                        match r9 with
                        | ':' :: r10 =>
                          match takeDigits 2 r10 with
                          | none => none
                          | some r11 =>
                            let base := 19
                            match r11 with
                            | '.' :: r12 =>
                              let frac := r12.takeWhile isDigitChar
                              match frac, r12.drop frac.length with
                              | _ :: _, z :: r13 =>
                                if (z = 'z' || z = 'Z') && nonWordNext r13 then
                                  some (base + 1 + frac.length + 1)
                                else
                                  match r11 with
                                  | z2 :: r14 =>
                                    if (z2 = 'z' || z2 = 'Z') && nonWordNext r14 then
                                      some (base + 1)
                                    else none
                                  | [] => none
                              | _, _ =>
                                match r11 with
                                | z2 :: r14 =>
                                  if (z2 = 'z' || z2 = 'Z') && nonWordNext r14 then
                                    some (base + 1)
                                  else none
                                | [] => none
                            | z :: r12 =>
                              if (z = 'z' || z = 'Z') && nonWordNext r12 then
                                some (base + 1)
                              else none
                            | [] => none
                        | _ => none
                    | _ => none
                else none
              | [] => none
          | _ => none
      | _ => none

/-- `\.\d+z\b` (case-insensitive `z`). -/
def matchDotZAt (_ : Bool) (s : Str) : Option ℕ :=
  match s with
  | '.' :: rest =>
    let run := rest.takeWhile isDigitChar
    match run, rest.drop run.length with
    | _ :: _, z :: r2 =>
      if (z = 'z' || z = 'Z') && nonWordNext r2 then
        some (1 + run.length + 1)
      else none
    | _, _ => none
  | _ => none

/-- `\b\d+\b`: a maximal digit run with non-word context on both sides. -/
def matchNumAt (prev : Bool) (s : Str) : Option ℕ :=
  if prev then none
  else
    let run := s.takeWhile isDigitChar
    match run, s.drop run.length with
    | [], _ => none
    | _ :: _, [] => some run.length
    | _ :: _, d :: _ => if isWordChar d then none else some run.length

/-- `[_]{2,}`: a maximal underscore run of length at least 2. -/
def matchUnderscoresAt (_ : Bool) (s : Str) : Option ℕ :=
  let run := s.takeWhile (fun c => c = '_')
  if 2 ≤ run.length then some run.length else none

/-- `stripMetadataNoise`: trim; blank empty; the six source replaces in
order (metadata keys, ISO timestamps, `.digitsz` fragments, standalone
numbers, underscore runs, the leading non-letter/digit run) then
whitespace collapse and trim. -/
def stripMetadataNoise (raw : Str) : Str :=
  let t := sanitizeString raw []
  if t = [] then []
  else jsTrim (scanReplace matchWsAt (str " ")
    ((scanReplace matchUnderscoresAt (str " ")
      (scanReplace matchNumAt (str " ")
        (scanReplace matchDotZAt (str " ")
          (scanReplace matchIsoAt (str " ")
            (scanReplace matchKwAt (str " ") t))))).dropWhile
      (fun c => !jsLetterDigit c)))

/-! ### Reference expansion (C1, C4, C5) -/

/-- The fixed inline guidance line (`INLINE_CONTEXT_ONLY_GUIDANCE`). -/
def INLINE_GUIDANCE : Str :=
  str "[지시] 파일/폴더 탐색 도구(List/Search/Glob/Read)를 호출하지 말고, 아래 컨텍스트 텍스트만 근거로 답하세요. (Use only provided context.)"

/-- Substring test (`String.prototype.includes`). -/
def hasSubstr (w s : Str) : Bool :=
  (List.range (s.length + 1)).any (fun i => (s.drop i).take w.length = w)

/-- Number of (possibly overlapping) occurrences of a substring. -/
def countSubstr (w s : Str) : ℕ :=
  ((List.range (s.length + 1)).filter
    (fun i => (s.drop i).take w.length = w)).length

/-- Case-insensitive substring test (`/…/i.test`). -/
def hasSubstrCI (w s : Str) : Bool :=
  (List.range (s.length + 1)).any (fun i => (matchLitCI w (s.drop i)).isSome)

/-- The auto-preview keyword alternation. -/
def previewKeywords : List Str :=
  [str "요약", str "정리", str "핵심", str "summary", str "summarize",
    str "analysis", str "analyze", str "분석", str "비교", str "요지",
    str "브리핑"]

/-- `/(요약|…|브리핑)/i.test(query)`. -/
def containsPreviewKeyword (q : Str) : Bool :=
  previewKeywords.any (fun w => hasSubstrCI w q)

/-- Token matcher for the query derivation (`CONTEXT_PACK_REF_REGEX`
replaced by a space): the matched length at this position. -/
def matchRefTokenAt (_ : Bool) (s : Str) : Option ℕ :=
  match matchRefAt s with
  | some (_, after) => some (s.length - after.length)
  | none => none

/-- Split on `/` (chunks; `split("/").filter(Boolean)` drops the empty
entries, so chunking is equivalent). -/
def splitSlashAux : Str → Str → List Str
  | [], acc => if acc = [] then [] else [acc.reverse]
  | c :: rest, acc =>
    if c = '/' then
      if acc = [] then splitSlashAux rest [] else acc.reverse :: splitSlashAux rest []
    else splitSlashAux rest (c :: acc)

/-- `folderAliasFromPath`: last non-empty `/`-segment, trimmed with the
whole path as fallback. -/
def folderAliasFromPath (p : Str) : Str :=
  let safe := sanitizeString p []
  if safe = [] then []
  else
    match (splitSlashAux safe []).getLast? with
    | some last => sanitizeString last safe
    | none => safe

/-- `[...new Set(l)]`: distinct elements in first-occurrence order. -/
def dedupKeepFirstAux : List Str → List Str → List Str
  | [], _ => []
  | x :: rest, seen =>
    if x ∈ seen then dedupKeepFirstAux rest seen
    else x :: dedupKeepFirstAux rest (x :: seen)

/-- `[...new Set(l)]`. -/
def dedupKeepFirst (l : List Str) : List Str := dedupKeepFirstAux l []

/-- `buildFolderOnlyContextText`: folder-alias list plus a
`ranked/total` ratio. -/
def buildFolderOnlyContextText (pack : Pack) (rankedCount : ℕ) : Str :=
  let folders := ((sanitizeStringArray pack.sourceFolders).map
    folderAliasFromPath).filter (fun f => f ≠ [])
  let uniqueFolders := dedupKeepFirst folders
  let folderLabel := if uniqueFolders ≠ [] then
      (List.intercalate (str ", ") (uniqueFolders.take 3))
    else str "선택한 노트"
  str "- [폴더] " ++ folderLabel ++ str "\n- [문서수] " ++ natToStr rankedCount
    ++ str "/" ++ natToStr (max 1 (if pack.totalFiles = 0 then rankedCount
      else pack.totalFiles))

/-- `buildInlineSnippetTextFromPackItems`: folder-only summary unless
previews are requested, otherwise one redacted 300-char bullet per ranked
item. -/
def buildInlineSnippetTextFromPackItems (settings : GateSettings)
    (items : List RItem) (pack : Pack) (includePreviewsOpt : Bool) : Str :=
  let includePreviews := includePreviewsOpt || settings.contextPackIncludePreviews
  if !includePreviews then buildFolderOnlyContextText pack items.length
  else
    List.intercalate (str "\n") (((items.enum).map (fun p =>
      let rawPreview := sanitizeString p.2.preview []
      let preview := redactPathLikeText (stripMetadataNoise rawPreview)
      let docLabel := str "문서 " ++ natToStr (p.1 + 1)
      if preview ≠ [] then
        str "- [" ++ docLabel ++ str "] " ++ preview.take 300
      else str "- [" ++ docLabel ++ str "] (미리보기 없음)")).filter
        (fun line => line ≠ []))

/-- `buildMentionsTextFromPackItems`: `@mention [[mention]]` pairs,
space-joined. -/
def buildMentionsTextFromPackItems (items : List RItem) : Str :=
  List.intercalate (str " ") ((items.map (fun it =>
    let normalized := sanitizeString it.mentionPath []
    if normalized = [] then []
    else str "@" ++ normalized ++ str " [[" ++ normalized ++ str "]]")).filter
      (fun m => m ≠ []))

/-- JS `String.replace` replacement-pattern expansion for a string
replacement: `$$`, `$&` (the match), `` $` `` (the part before the match),
`$'` (the part after); everything else (including `$n`, since the token
regex has no capture groups) is copied literally. -/
def dollarExpand (matched before after : Str) : Str → Str
  | [] => []
  | '$' :: '$' :: rest => '$' :: dollarExpand matched before after rest
  | '$' :: '&' :: rest => matched ++ dollarExpand matched before after rest
  | '$' :: '`' :: rest => before ++ dollarExpand matched before after rest
  | '$' :: '\'' :: rest => after ++ dollarExpand matched before after rest
  | c :: rest => c :: dollarExpand matched before after rest

/-- Global case-insensitive replacement of the literal token
`@context-pack(<id>)` (the id contains no regex metacharacters after
escaping) by a string replacement, with JS `$`-pattern expansion.
`done` is the reversed already-scanned prefix (for `` $` ``). -/
def replTokGo (lit repl : Str) : ℕ → Str → Str → Str
  | 0, _, s => s
  | fuel + 1, done, s =>
    match s with
    | [] => []
    | c :: rest =>
      match matchLitCI lit (c :: rest) with
      | some after =>
        dollarExpand ((c :: rest).take lit.length) done.reverse after repl
          ++ replTokGo lit repl fuel
            (((c :: rest).take lit.length).reverse ++ done) after
      | none => c :: replTokGo lit repl fuel (c :: done) rest

/-- `nextText.replace(tokenRegex, replacement)`. -/
def replaceTokenAll (idLower repl s : Str) : Str :=
  replTokGo (str "@context-pack(" ++ idLower ++ str ")") repl s.length [] s

/-- Set `lastUsedAt` on the first stored pack with the given id (the object
`findContextPack` returned). -/
def updateFirstPackLastUsed : List Pack → Str → Str → List Pack
  | [], _, _ => []
  | p :: rest, id, now =>
    if p.id = id then { p with lastUsedAt := now } :: rest
    else p :: updateFirstPackLastUsed rest id now

/-- A `Pack` viewed as raw input to `normalizeContextPacks` (the stored
objects are re-normalized after expansion updates `lastUsedAt`). -/
def packToRaw (p : Pack) : RawPack :=
  ⟨p.id, p.label, p.createdAt, p.sourceFolders, p.items.map itemToRaw,
    p.filePaths, .num p.topK, p.lastUsedAt⟩

/-- The full result of `expandContextPackReferences`, including the
post-call `settings.contextPacks` state.  `steps` is instrumentation (not
in the source): one entry per successful expansion recording whether its
replacement included the guidance line. -/
structure ExpandOut where
  text : Str
  expandedIds : List Str
  missingIds : List Str
  packs : List Pack
  steps : List Bool
deriving DecidableEq, Repr

/-- One iteration of the `ids.forEach` body of
`expandContextPackReferences`. -/
def expandStep (settings : GateSettings) (now query : Str)
    (st : ExpandOut) (id : Str) : ExpandOut :=
  match findContextPack st.packs id with
  | none => ⟨st.text, st.expandedIds, st.missingIds ++ [id], st.packs, st.steps⟩
  | some pack =>
    let topK : ℚ := max 1 (if pack.topK ≠ 0 then pack.topK
      else if settings.contextPackTopK ≠ 0 then settings.contextPackTopK
      else 8)
    let ranked := rankContextPackItems pack.items
      ⟨query, .num topK, some (buildFolderWeightMap pack.sourceFolders)⟩
    let inlineMode := settings.contextPackInjectInline
    let needsDetailFromQuery := settings.contextPackAutoPreviewFromQuery
      && containsPreviewKeyword query
    let includePreviews := settings.contextPackIncludePreviews
      || needsDetailFromQuery
    let payloadText := if inlineMode then
        buildInlineSnippetTextFromPackItems settings ranked pack includePreviews
      else buildMentionsTextFromPackItems ranked
    let includeGuidance := inlineMode && decide (st.expandedIds = [])
      && !(hasSubstr INLINE_GUIDANCE st.text)
    let guidanceLine := if includeGuidance then INLINE_GUIDANCE ++ str "\n"
      else []
    let replacement := if payloadText ≠ [] then
        (if inlineMode then
          str "[Context Pack " ++ id ++ str ": " ++ natToStr ranked.length
            ++ str "/" ++ natToStr pack.totalFiles ++ str ", inline]\n"
            ++ guidanceLine ++ payloadText ++ str "\n"
        else
          str "[Context Pack " ++ id ++ str ": " ++ natToStr ranked.length
            ++ str "/" ++ natToStr pack.totalFiles ++ str "] " ++ payloadText)
      else str "[Context Pack " ++ id ++ str ": no usable notes]"
    ⟨replaceTokenAll id replacement st.text,
      st.expandedIds ++ [id], st.missingIds,
      updateFirstPackLastUsed st.packs id now,
      st.steps ++ [includeGuidance]⟩

/-- `expandContextPackReferences`.  The scan, the query derivation (tokens
removed, whitespace collapsed, trimmed), the per-id expansion fold, and the
store re-normalization when any pack was touched. -/
def expandContextPackReferences (settings : GateSettings) (packs : List Pack)
    (now : Str) (rawText : Str) : ExpandOut :=
  let original := sanitizeString rawText []
  if original = [] then ⟨original, [], [], packs, []⟩
  else
    let ids := getContextPackIdsFromText original
    if ids = [] then ⟨original, [], [], packs, []⟩
    else
      let query := jsTrim (scanReplace matchWsAt (str " ")
        (scanReplace matchRefTokenAt (str " ") original))
      let out := ids.foldl (expandStep settings now query)
        ⟨original, [], [], packs, []⟩
      if out.expandedIds ≠ [] then
        ⟨out.text, out.expandedIds, out.missingIds,
          normalizeContextPacks now (out.packs.map packToRaw), out.steps⟩
      else out

theorem dropWhile_head_not (p : Char → Bool) (l : Str) :
    ∀ c, (l.dropWhile p).head? = some c → p c = false := by
  induction l with
  | nil => intro c hc; simp at hc
  | cons x rest ih =>
    intro c hc
    rw [List.dropWhile_cons] at hc
    by_cases hx : p x
    · rw [if_pos hx] at hc
      exact ih c hc
    · rw [if_neg hx] at hc
      simp at hc
      rw [← hc]
      simpa using hx

theorem getLast?_dropWhile (p : Char → Bool) (l : Str)
    (h : l.dropWhile p ≠ []) : (l.dropWhile p).getLast? = l.getLast? := by
  induction l with
  | nil => simp at h
  | cons x rest ih =>
    rw [List.dropWhile_cons]
    by_cases hx : p x
    · rw [if_pos hx]
      rw [List.dropWhile_cons, if_pos hx] at h
      rw [ih h]
      cases hr : rest with
      | nil => rw [hr] at h; simp at h
      | cons y ys => rfl
    · rw [if_neg hx]

theorem jsTrim_idem (s : Str) : jsTrim (jsTrim s) = jsTrim s := by
  apply jsTrim_eq_self
  · intro c hc
    unfold jsTrim at hc
    rw [show ((((s.dropWhile isSpaceChar).reverse.dropWhile
        isSpaceChar).reverse).head?)
      = (((s.dropWhile isSpaceChar).reverse.dropWhile
        isSpaceChar)).getLast? from (List.head?_reverse _)] at hc
    have hne : ((s.dropWhile isSpaceChar).reverse.dropWhile isSpaceChar) ≠ [] := by
      intro he
      rw [he] at hc
      simp at hc
    rw [getLast?_dropWhile _ _ hne, List.getLast?_reverse] at hc
    exact dropWhile_head_not _ _ c hc
  · intro c hc
    unfold jsTrim at hc
    rw [List.getLast?_reverse] at hc
    exact dropWhile_head_not _ _ c hc

theorem sanitizeString_idem (s : Str) :
    sanitizeString (sanitizeString s []) [] = sanitizeString s [] := by
  unfold sanitizeString
  dsimp only
  by_cases h : jsTrim s = []
  · simp only [if_pos h]
    rfl
  · rw [if_neg h, jsTrim_idem s, if_neg h]

theorem getIds_sanitize (t : Str) :
    getContextPackIdsFromText (sanitizeString t [])
      = getContextPackIdsFromText t := by
  unfold getContextPackIdsFromText
  rw [sanitizeString_idem]

/-- C4 (amended): a reference whose id matches no stored pack never blocks
(the function is total by construction), the id is reported in
`missingIds` exactly, and the token is left in place verbatim — the output
text is the (trimmed) input, with no marker substituted. -/
theorem C4_amended_missing_pack (settings : GateSettings) (packs : List Pack)
    (now t id : Str) (hids : getContextPackIdsFromText t = [id])
    (hmiss : findContextPack packs id = none) :
    expandContextPackReferences settings packs now t
      = ⟨sanitizeString t [], [], [id], packs, []⟩ := by
  unfold expandContextPackReferences
  by_cases h0 : sanitizeString t [] = []
  · exfalso
    unfold getContextPackIdsFromText at hids
    rw [h0] at hids
    simp [getIdsAux] at hids
  · rw [if_neg h0]
    dsimp only
    rw [getIds_sanitize t, hids]
    rw [if_neg (by simp)]
    rw [List.foldl_cons, List.foldl_nil]
    rw [show expandStep settings now
        (jsTrim (scanReplace matchWsAt (str " ")
          (scanReplace matchRefTokenAt (str " ") (sanitizeString t []))))
        ⟨sanitizeString t [], [], [], packs, []⟩ id
      = ⟨sanitizeString t [], [], [id], packs, []⟩ from by
        unfold expandStep
        rw [hmiss]
        simp]
    rw [if_neg (by simp)]

/-- Witness instantiating `C4_amended_missing_pack` at the spec's example
scenario (`cp-missing1`, empty store). -/
theorem C4_amended_missing_pack_witness :
    getContextPackIdsFromText (str "see @context-pack(cp-missing1)")
      = [str "cp-missing1"] ∧
    findContextPack [] (str "cp-missing1") = none ∧
    expandContextPackReferences ⟨240, 8, true, false, false⟩ [] (str "t")
        (str "see @context-pack(cp-missing1)")
      = ⟨sanitizeString (str "see @context-pack(cp-missing1)") [], [],
          [str "cp-missing1"], [], []⟩ :=
  ⟨by decide, by decide,
    C4_amended_missing_pack ⟨240, 8, true, false, false⟩ [] (str "t")
      (str "see @context-pack(cp-missing1)") (str "cp-missing1")
      (by decide) (by decide)⟩

/-- C4 counterexample: for the missing id `cp-missing1` the output text is
the input unchanged — the reference token is still present and no
"pack not found" marker was substituted in its place, contradicting the
claim. `missingIds` still reports the id. -/
theorem C4_counterexample :
    (expandContextPackReferences ⟨240, 8, true, false, false⟩ [] (str "t")
        (str "see @context-pack(cp-missing1)")).text
      = str "see @context-pack(cp-missing1)" ∧
    hasSubstr (str "@context-pack(cp-missing1)")
        (expandContextPackReferences ⟨240, 8, true, false, false⟩ [] (str "t")
          (str "see @context-pack(cp-missing1)")).text = true ∧
    (expandContextPackReferences ⟨240, 8, true, false, false⟩ [] (str "t")
        (str "see @context-pack(cp-missing1)")).missingIds
      = [str "cp-missing1"] := by
  refine ⟨by decide, by decide, by decide⟩

/-- The guidance-count invariant of the per-id expansion fold: at most one
recorded step carries the guidance flag, none while nothing has been
expanded, and there is exactly one step per expanded id. -/
def GuidInv (st : ExpandOut) : Prop :=
  ((st.steps.filter (fun b => b = true)).length ≤ 1) ∧
  (st.expandedIds = [] → (st.steps.filter (fun b => b = true)).length = 0) ∧
  st.steps.length = st.expandedIds.length

theorem filter_append_singleton (p : Bool → Bool) (l : List Bool) (x : Bool) :
    (List.filter p (l ++ [x])).length
      = (List.filter p l).length + (if p x then 1 else 0) := by
  rw [List.filter_append]
  by_cases h : p x <;> simp [List.filter, h]

theorem expandStep_guidInv (settings : GateSettings) (now query : Str)
    (st : ExpandOut) (id : Str) (h : GuidInv st) :
    GuidInv (expandStep settings now query st id) := by
  obtain ⟨h1, h2, h3⟩ := h
  unfold expandStep
  rcases hf : findContextPack st.packs id with _ | pack
  · exact ⟨h1, fun hemp => h2 hemp, h3⟩
  · dsimp only
    refine ⟨?_, ?_, ?_⟩
    · rw [filter_append_singleton]
      by_cases he : st.expandedIds = []
      · rw [h2 he]
        split <;> omega
      · have hg : (settings.contextPackInjectInline
            && decide (st.expandedIds = [])
            && !(hasSubstr INLINE_GUIDANCE st.text)) = false := by
          simp [he]
        rw [hg, if_neg (by simp)]
        omega
    · intro habs
      exfalso
      simp at habs
    · simp [h3]

theorem expandFold_guidInv (settings : GateSettings) (now query : Str)
    (ids : List Str) :
    ∀ st : ExpandOut, GuidInv st →
      GuidInv (ids.foldl (expandStep settings now query) st) := by
  induction ids with
  | nil => intro st h; exact h
  | cons id rest ih =>
    intro st h
    rw [List.foldl_cons]
    exact ih _ (expandStep_guidInv settings now query st id h)

/-- C5 (amended): within one expansion call, the guidance line is included
in the replacement of at most one expanded pack (the first); later packs
never add it.  (The original claim fails because one pack's token occurring
several times duplicates that single replacement — see the
counterexample.) -/
theorem C5_amended_guidance_single_step (settings : GateSettings)
    (packs : List Pack) (now t : Str) :
    (((expandContextPackReferences settings packs now t).steps.filter
        (fun b => b = true)).length ≤ 1) ∧
    (expandContextPackReferences settings packs now t).steps.length
      = (expandContextPackReferences settings packs now t).expandedIds.length := by
  unfold expandContextPackReferences
  by_cases h0 : sanitizeString t [] = []
  · rw [if_pos h0]
    exact ⟨by simp, rfl⟩
  · rw [if_neg h0]
    dsimp only
    by_cases hids : getContextPackIdsFromText (sanitizeString t []) = []
    · rw [if_pos hids]
      exact ⟨by simp, rfl⟩
    · rw [if_neg hids]
      have hinv := expandFold_guidInv settings now
        (jsTrim (scanReplace matchWsAt (str " ")
          (scanReplace matchRefTokenAt (str " ") (sanitizeString t []))))
        (getContextPackIdsFromText (sanitizeString t []))
        ⟨sanitizeString t [], [], [], packs, []⟩
        ⟨by simp, fun _ => by simp, rfl⟩
      by_cases hexp : ((getContextPackIdsFromText
          (sanitizeString t [])).foldl (expandStep settings now
            (jsTrim (scanReplace matchWsAt (str " ")
              (scanReplace matchRefTokenAt (str " ")
                (sanitizeString t []))))) 
          ⟨sanitizeString t [], [], [], packs, []⟩).expandedIds ≠ []
      · rw [if_pos hexp]
        exact ⟨hinv.1, hinv.2.2⟩
      · rw [if_neg hexp]
        exact ⟨hinv.1, hinv.2.2⟩

/-- C5 counterexample: with one stored pack and its token occurring twice
in the input, the single guidance-bearing replacement is substituted at
both occurrences, so the guidance line appears twice in the output —
contradicting "at most once". -/
theorem C5_counterexample :
    countSubstr INLINE_GUIDANCE
      (expandContextPackReferences ⟨240, 8, true, false, false⟩
        [⟨str "cp-abc123", str "L", str "t0", [], [str "n.md"],
          [⟨str "n.md", str "n", str "hello", []⟩], 1, 8, []⟩]
        (str "t")
        (str "a @context-pack(cp-abc123) b @context-pack(cp-abc123)")).text
      = 2 := by
  set_option maxRecDepth 40000 in decide

/-- C1 (code bug): expansion is not idempotent.  `nextText.replace(tokenRegex,
replacement)` passes the rendered block as a replacement STRING, so JS
replacement patterns in stored content are expanded: a pack item whose
preview contains `$&` re-inserts the matched reference token into the
output.  The second run then finds and expands that token again — the text
changes and `expandedIds` is non-empty, contrary to the idempotence the
spec requires.  Evaluated at the failing input below. -/
theorem C1_code_bug_not_idempotent :
    ((expandContextPackReferences ⟨240, 8, true, true, false⟩
        (expandContextPackReferences ⟨240, 8, true, true, false⟩
          [⟨str "cp-test01", str "L", str "t0", [], [str "n.md"],
            [⟨str "n.md", str "n", str "x $& y", []⟩], 1, 8, []⟩]
          (str "t1") (str "hi @context-pack(cp-test01)")).packs
        (str "t2")
        (expandContextPackReferences ⟨240, 8, true, true, false⟩
          [⟨str "cp-test01", str "L", str "t0", [], [str "n.md"],
            [⟨str "n.md", str "n", str "x $& y", []⟩], 1, 8, []⟩]
          (str "t1") (str "hi @context-pack(cp-test01)")).text).text
      ≠ (expandContextPackReferences ⟨240, 8, true, true, false⟩
          [⟨str "cp-test01", str "L", str "t0", [], [str "n.md"],
            [⟨str "n.md", str "n", str "x $& y", []⟩], 1, 8, []⟩]
          (str "t1") (str "hi @context-pack(cp-test01)")).text) ∧
    ((expandContextPackReferences ⟨240, 8, true, true, false⟩
        (expandContextPackReferences ⟨240, 8, true, true, false⟩
          [⟨str "cp-test01", str "L", str "t0", [], [str "n.md"],
            [⟨str "n.md", str "n", str "x $& y", []⟩], 1, 8, []⟩]
          (str "t1") (str "hi @context-pack(cp-test01)")).packs
        (str "t2")
        (expandContextPackReferences ⟨240, 8, true, true, false⟩
          [⟨str "cp-test01", str "L", str "t0", [], [str "n.md"],
            [⟨str "n.md", str "n", str "x $& y", []⟩], 1, 8, []⟩]
          (str "t1") (str "hi @context-pack(cp-test01)")).text).expandedIds
      ≠ []) := by
  set_option maxRecDepth 80000 in decide

/-! #### C6: the redactor's own patterns, as output checkers

The claim's first pattern is the redactor's absolute-path regex
(`/Users/` followed by at least one non-space character).  The second is
its multi-segment slash-path regex: at least two `[A-Za-z0-9._-]+/` units,
a final segment, an optional `.md` and word boundaries at both ends.  The
language of `[A-Za-z0-9._-]+(\.md)?` is exactly `[A-Za-z0-9._-]+` (the
suffix is drawn from the same class), so a string contains a match exactly
when some substring is `seg1/…/segN` with `N ≥ 3` non-empty all-class
segments, whose neighbouring characters produce word boundaries (a word
boundary holds when exactly one of the two adjacent characters is a word
character; the ends of the string count as non-word). -/

/-- `/Users/` at the head, followed by one non-space character. -/
def isUsersPrefix (x : Str) : Bool :=
  match matchLitCS (str "/Users/") x with
  | some (d :: _) => !isSpaceChar d
  | _ => false

/-- Some suffix starts with `/Users/` + non-space: the claim's first
pattern occurs in the string. -/
def hasUsersMatch : Str → Bool
  | [] => false
  | c :: rest => isUsersPrefix (c :: rest) || hasUsersMatch rest

/-- Split keeping empty chunks (so `a//b` yields an empty middle part and
is correctly rejected as a path). -/
def splitKeep (sep : Char) : Str → List Str
  | [] => [[]]
  | c :: rest =>
    if c = sep then [] :: splitKeep sep rest
    else
      match splitKeep sep rest with
      | [] => [[c]]
      | p :: ps => (c :: p) :: ps

/-- Membership in the multi-segment path language: at least three
non-empty all-segment-class `/`-separated parts. -/
def midInL (mid : Str) : Bool :=
  let parts := splitKeep '/' mid
  decide (3 ≤ parts.length)
    && parts.all (fun p => !p.isEmpty && p.all isSChar)

/-- The leading word boundary: the word-ness of the candidate's first
character differs from that of the previous character. -/
def headBoundary (prevW : Bool) (mid : Str) : Bool :=
  match mid with
  | c :: _ => (isWordChar c) != prevW
  | [] => false

/-- The trailing word boundary: the word-ness of the candidate's last
character differs from that of the following character (the end of the
string counts as non-word). -/
def tailBoundary (mid after : Str) : Bool :=
  match mid.getLast?, after.head? with
  | some lc, none => isWordChar lc
  | some lc, some d => (isWordChar lc) != (isWordChar d)
  | none, _ => false

/-- A multi-segment path match starts at the head of `x`, given the
word-ness of the previous character: some non-empty prefix is in the
language and both word boundaries hold. -/
def msExistsAt (prevW : Bool) (x : Str) : Bool :=
  (List.range (x.length + 1)).any (fun n =>
    decide (0 < n) && midInL (x.take n) && headBoundary prevW (x.take n)
      && tailBoundary (x.take n) (x.drop n))

/-- The claim's second pattern occurs somewhere in the string (walking
positions left to right, tracking the previous character's word-ness). -/
def hasMsMatchGo : Bool → Str → Bool
  | _, [] => false
  | prevW, c :: rest =>
    msExistsAt prevW (c :: rest) || hasMsMatchGo (isWordChar c) rest

/-- The claim's second pattern occurs in the string. -/
def hasMsMatch (s : Str) : Bool := hasMsMatchGo false s

/-! #### The `/Users/` pattern never survives redaction -/

/-- The literal `lit` at the head of `x`, followed by one non-space
character. -/
def litNonspaceAfter (lit x : Str) : Bool :=
  match matchLitCS lit x with
  | some (d :: _) => !isSpaceChar d
  | _ => false

/-- The suffixes of the `/Users/` literal. -/
def usersLits : List Str :=
  [str "/Users/", str "Users/", str "sers/", str "ers/", str "rs/",
    str "s/", str "/", []]

theorem usersLits_tail : ∀ lit ∈ usersLits, lit.tail ∈ usersLits := by
  decide

theorem usersLits_head : ∀ lit ∈ usersLits, lit = [] ∨
    (lit.headD 'a' = '/' ∨ lit.headD 'a' = 'U' ∨ lit.headD 'a' = 's' ∨
      lit.headD 'a' = 'e' ∨ lit.headD 'a' = 'r') := by
  decide

theorem litNonspaceAfter_nil (lit : Str) : litNonspaceAfter lit [] = false := by
  cases lit <;> rfl

theorem litNonspaceAfter_cons (lc : Char) (lit' : Str) (c : Char) (x : Str) :
    litNonspaceAfter (lc :: lit') (c :: x) =
      if c = lc then litNonspaceAfter lit' x else false := by
  unfold litNonspaceAfter
  rw [matchLitCS]
  by_cases h : c = lc
  · rw [if_pos h, if_pos h]
  · rw [if_neg h, if_neg h]

theorem litNonspaceAfter_nil_cons (c : Char) (x : Str) :
    litNonspaceAfter [] (c :: x) = !isSpaceChar c := rfl

theorem scanGo_zero (fm : Bool → Str → Option ℕ) (repl : Str) (prev : Bool)
    (s : Str) : scanGo fm repl 0 prev s = s := rfl

theorem scanGo_nil (fm : Bool → Str → Option ℕ) (repl : Str) (f : ℕ)
    (prev : Bool) : scanGo fm repl (f + 1) prev [] = [] := rfl

theorem scanGo_copy (fm : Bool → Str → Option ℕ) (repl : Str) (f : ℕ)
    (prev : Bool) (c : Char) (rest : Str) (hm : fm prev (c :: rest) = none) :
    scanGo fm repl (f + 1) prev (c :: rest) =
      c :: scanGo fm repl f (isWordChar c) rest := by
  rw [scanGo, hm]

theorem scanGo_repl (fm : Bool → Str → Option ℕ) (repl : Str) (f : ℕ)
    (prev : Bool) (c : Char) (rest : Str) (n : ℕ)
    (hm : fm prev (c :: rest) = some n) :
    scanGo fm repl (f + 1) prev (c :: rest) =
      repl ++ scanGo fm repl f
        (match ((c :: rest).take n).getLast? with
          | some d => isWordChar d
          | none => prev)
        ((c :: rest).drop n) := by
  rw [scanGo, hm]

/-- Scan-output pull-back for `/Users/`-shaped prefixes: if the output of a
pass starts with a suffix of the `/Users/` literal followed by non-space,
so does its input.  Requires: the replacement is non-empty, its head is not
a character of the literal, and (when its head is non-space) the pass only
matches at non-space characters. -/
theorem litNonspaceAfter_scanGo (fm : Bool → Str → Option ℕ) (repl : Str)
    (r0 : Char) (r' : Str) (hrepl : repl = r0 :: r')
    (h1 : ¬(r0 = '/' ∨ r0 = 'U' ∨ r0 = 's' ∨ r0 = 'e' ∨ r0 = 'r'))
    (h2 : isSpaceChar r0 = false →
      ∀ prev x n, fm prev x = some n →
        ∃ d xs, x = d :: xs ∧ isSpaceChar d = false) :
    ∀ (fuel : ℕ) (prev : Bool) (s lit : Str), lit ∈ usersLits →
      litNonspaceAfter lit (scanGo fm repl fuel prev s) = true →
      litNonspaceAfter lit s = true := by
  intro fuel
  induction fuel with
  | zero => intro prev s lit _ h; exact h
  | succ f ih =>
    intro prev s lit hlit h
    cases s with
    | nil =>
      rw [scanGo_nil, litNonspaceAfter_nil] at h
      exact absurd h (by simp)
    | cons c rest =>
      rcases hm : fm prev (c :: rest) with _ | n
      · rw [scanGo_copy fm repl f prev c rest hm] at h
        cases lit with
        | nil =>
          rw [litNonspaceAfter_nil_cons] at h ⊢
          exact h
        | cons lc lit' =>
          rw [litNonspaceAfter_cons] at h ⊢
          by_cases hc : c = lc
          · rw [if_pos hc] at h ⊢
            have hlit' : lit' ∈ usersLits := usersLits_tail _ hlit
            exact ih (isWordChar c) rest lit' hlit' h
          · rw [if_neg hc] at h
            exact absurd h (by simp)
      · rw [scanGo_repl fm repl f prev c rest n hm, hrepl] at h
        have h' : litNonspaceAfter lit
            (r0 :: (r' ++ scanGo fm (r0 :: r') f
              (match ((c :: rest).take n).getLast? with
                | some d => isWordChar d
                | none => prev)
              ((c :: rest).drop n))) = true := h
        cases lit with
        | nil =>
          rw [litNonspaceAfter_nil_cons] at h'
          by_cases hsp : isSpaceChar r0
          · rw [hsp] at h'
            exact absurd h' (by simp)
          · obtain ⟨d, xs, hx, hd⟩ := h2 (by simpa using hsp) prev _ _ hm
            rw [hx, litNonspaceAfter_nil_cons, hd]
            rfl
        | cons lc lit' =>
          rw [litNonspaceAfter_cons] at h'
          have hne : ¬ (r0 = lc) := by
            intro he
            rcases usersLits_head _ hlit with h0 | h0
            · exact absurd h0 (by simp)
            · simp only [List.headD] at h0
              exact h1 (he ▸ h0)
          rw [if_neg hne] at h'
          exact absurd h' (by simp)

theorem hasUsersMatch_cons (c : Char) (rest : Str) :
    hasUsersMatch (c :: rest) =
      (isUsersPrefix (c :: rest) || hasUsersMatch rest) := rfl

theorem isUsersPrefix_eq_lit (x : Str) :
    isUsersPrefix x = litNonspaceAfter (str "/Users/") x := rfl

theorem str_users_cons : str "/Users/" = '/' :: str "Users/" := by decide

theorem isUsersPrefix_cons (c : Char) (x : Str) :
    isUsersPrefix (c :: x) =
      if c = '/' then litNonspaceAfter (str "Users/") x else false := by
  rw [isUsersPrefix_eq_lit, str_users_cons, litNonspaceAfter_cons]

theorem hasUsersMatch_append (B T : Str) (hB : ∀ b ∈ B, ¬ b = '/') :
    hasUsersMatch (B ++ T) = hasUsersMatch T := by
  induction B with
  | nil => rfl
  | cons b B' ih =>
    rw [List.cons_append, hasUsersMatch_cons, isUsersPrefix_cons,
      if_neg (hB b (List.mem_cons_self b B')), Bool.false_or]
    exact ih (fun x hx => hB x (List.mem_cons_of_mem b hx))

theorem hasUsersMatch_drop (n : ℕ) (s : Str) (h : hasUsersMatch s = false) :
    hasUsersMatch (s.drop n) = false := by
  induction n generalizing s with
  | zero => exact h
  | succ m ih =>
    cases s with
    | nil => exact h
    | cons c r =>
      rw [hasUsersMatch_cons, Bool.or_eq_false_iff] at h
      exact ih r h.2

theorem matchLitCS_append (lit : Str) :
    ∀ (a b u : Str), matchLitCS lit a = some u →
      matchLitCS lit (a ++ b) = some (u ++ b) := by
  induction lit with
  | nil =>
    intro a b u h
    have ha : a = u := Option.some.inj h
    rw [← ha]
    rfl
  | cons lc lr ih =>
    intro a b u h
    cases a with
    | nil => exact absurd h (by simp [matchLitCS])
    | cons c a' =>
      rw [show matchLitCS (lc :: lr) (c :: a') =
        if c = lc then matchLitCS lr a' else none from rfl] at h
      by_cases hc : c = lc
      · rw [if_pos hc] at h
        rw [List.cons_append, show matchLitCS (lc :: lr) (c :: (a' ++ b)) =
          if c = lc then matchLitCS lr (a' ++ b) else none from rfl,
          if_pos hc]
        exact ih a' b u h
      · rw [if_neg hc] at h
        exact absurd h (by simp)

theorem litNonspaceAfter_take (lit x : Str) (m : ℕ)
    (h : litNonspaceAfter lit (x.take m) = true) :
    litNonspaceAfter lit x = true := by
  unfold litNonspaceAfter at h
  rcases hm2 : matchLitCS lit (x.take m) with _ | u
  · rw [hm2] at h
    exact absurd h (by simp)
  · rw [hm2] at h
    cases u with
    | nil => exact absurd h (by simp)
    | cons d us =>
      have hfull := matchLitCS_append lit (x.take m) (x.drop m) (d :: us) hm2
      rw [List.take_append_drop] at hfull
      unfold litNonspaceAfter
      rw [hfull]
      exact h

theorem hasUsersMatch_take (n : ℕ) (s : Str) (h : hasUsersMatch s = false) :
    hasUsersMatch (s.take n) = false := by
  induction s generalizing n with
  | nil => rw [List.take_nil]; exact h
  | cons c r ih =>
    cases n with
    | zero => rfl
    | succ m =>
      rw [List.take_succ_cons, hasUsersMatch_cons]
      rw [hasUsersMatch_cons, Bool.or_eq_false_iff] at h
      rw [Bool.or_eq_false_iff]
      constructor
      · cases hval : isUsersPrefix (c :: r.take m)
        · rfl
        · exfalso
          have hlift : litNonspaceAfter (str "/Users/") ((c :: r).take (m + 1)) = true := by
            rw [List.take_succ_cons, ← isUsersPrefix_eq_lit]
            exact hval
          have h2 := litNonspaceAfter_take _ _ _ hlift
          rw [← isUsersPrefix_eq_lit] at h2
          rw [h.1] at h2
          exact absurd h2 (by simp)
      · exact ih m h.2

theorem dropWhile_eq_drop (p : Char → Bool) (l : Str) :
    ∃ n, l.dropWhile p = l.drop n := by
  induction l with
  | nil => exact ⟨0, rfl⟩
  | cons c r ih =>
    by_cases hc : p c
    · obtain ⟨n, hn⟩ := ih
      refine ⟨n + 1, ?_⟩
      rw [List.dropWhile_cons, if_pos hc, hn]
      rfl
    · refine ⟨0, ?_⟩
      rw [List.dropWhile_cons, if_neg hc]
      rfl

theorem jsTrim_take_drop (s : Str) : ∃ n m, jsTrim s = (s.drop n).take m := by
  obtain ⟨a, ha⟩ := dropWhile_eq_drop isSpaceChar s
  obtain ⟨b, hb⟩ := dropWhile_eq_drop isSpaceChar (s.drop a).reverse
  refine ⟨a, (s.drop a).reverse.length - b, ?_⟩
  rw [jsTrim, ha, hb, List.reverse_drop, List.reverse_reverse]

theorem hasUsersMatch_jsTrim (s : Str) (h : hasUsersMatch s = false) :
    hasUsersMatch (jsTrim s) = false := by
  obtain ⟨n, m, he⟩ := jsTrim_take_drop s
  rw [he]
  exact hasUsersMatch_take m _ (hasUsersMatch_drop n s h)

theorem matchLitCS_head (lc : Char) (lr x u : Str)
    (h : matchLitCS (lc :: lr) x = some u) : ∃ x', x = lc :: x' := by
  cases x with
  | nil => exact absurd h (by simp [matchLitCS])
  | cons c x' =>
    by_cases hc : c = lc
    · exact ⟨x', by rw [hc]⟩
    · rw [show matchLitCS (lc :: lr) (c :: x') =
        if c = lc then matchLitCS lr x' else none from rfl, if_neg hc] at h
      exact absurd h (by simp)

theorem matchUsersAt_head (prev : Bool) (x : Str) (n : ℕ)
    (h : matchUsersAt prev x = some n) :
    ∃ d xs, x = d :: xs ∧ isSpaceChar d = false := by
  unfold matchUsersAt at h
  rcases hm : matchLitCS (str "/Users/") x with _ | after
  · rw [hm] at h
    exact absurd h (by simp)
  · obtain ⟨x', hx⟩ := matchLitCS_head '/' (str "Users/") x after
      (by rw [← str_users_cons]; exact hm)
    exact ⟨'/', x', hx, by decide⟩

theorem matchUsersAt_pos (prev : Bool) (x : Str) (n : ℕ)
    (h : matchUsersAt prev x = some n) : 1 ≤ n := by
  unfold matchUsersAt at h
  rcases hm : matchLitCS (str "/Users/") x with _ | after
  · rw [hm] at h
    exact absurd h (by simp)
  · rw [hm] at h
    have h' : (if after.takeWhile (fun c => !isSpaceChar c) = []
        then (none : Option ℕ)
        else some (7 + (after.takeWhile (fun c => !isSpaceChar c)).length))
        = some n := h
    by_cases hr : after.takeWhile (fun c => !isSpaceChar c) = []
    · rw [if_pos hr] at h'
      exact absurd h' (by simp)
    · rw [if_neg hr] at h'
      have hn := Option.some.inj h'
      omega

/-- After the `/Users/` pass, the output contains no `/Users/` + non-space
occurrence: replaced sites are gone, and a surviving occurrence would pull
back (through the copied characters) to an occurrence the scanner must
have matched. -/
theorem usersFree_usersPass :
    ∀ (fuel : ℕ) (prev : Bool) (s : Str), s.length ≤ fuel →
      hasUsersMatch (scanGo matchUsersAt (str "[경로생략]") fuel prev s) = false := by
  intro fuel
  induction fuel with
  | zero =>
    intro prev s hlen
    have hs : s = [] := List.length_eq_zero.mp (Nat.le_zero.mp hlen)
    rw [hs]
    rfl
  | succ f ih =>
    intro prev s hlen
    cases s with
    | nil => rw [scanGo_nil]; rfl
    | cons c rest =>
      rcases hm : matchUsersAt prev (c :: rest) with _ | n
      · rw [scanGo_copy _ _ _ _ _ _ hm, hasUsersMatch_cons,
          Bool.or_eq_false_iff]
        have hrlen : rest.length ≤ f := by
          simp only [List.length_cons] at hlen
          omega
        refine ⟨?_, ih (isWordChar c) rest hrlen⟩
        cases hval : isUsersPrefix
            (c :: scanGo matchUsersAt (str "[경로생략]") f (isWordChar c) rest)
        · rfl
        · exfalso
          rw [isUsersPrefix_cons] at hval
          by_cases hc : c = '/'
          · rw [if_pos hc] at hval
            have hpull := litNonspaceAfter_scanGo matchUsersAt
              (str "[경로생략]") '[' (str "경로생략]") (by decide) (by decide)
              (fun _ prev' x n hx => matchUsersAt_head prev' x n hx)
              f (isWordChar c) rest (str "Users/") (by decide) hval
            unfold litNonspaceAfter at hpull
            rcases hm2 : matchLitCS (str "Users/") rest with _ | u
            · rw [hm2] at hpull
              exact absurd hpull (by simp)
            · rw [hm2] at hpull
              cases u with
              | nil => exact absurd hpull (by simp)
              | cons d us =>
                have hd : isSpaceChar d = false := by
                  cases hdv : isSpaceChar d
                  · rfl
                  · have hpull' : (!isSpaceChar d) = true := hpull
                    rw [hdv] at hpull'
                    exact absurd hpull' (by simp)
                have hlit : matchLitCS (str "/Users/") (c :: rest) = some (d :: us) := by
                  rw [hc, str_users_cons,
                    show matchLitCS ('/' :: str "Users/") ('/' :: rest) =
                      if '/' = '/' then matchLitCS (str "Users/") rest
                      else none from rfl,
                    if_pos rfl, hm2]
                unfold matchUsersAt at hm
                rw [hlit] at hm
                simp [List.takeWhile_cons, hd] at hm
          · rw [if_neg hc] at hval
            exact absurd hval (by simp)
      · rw [scanGo_repl _ _ _ _ _ _ _ hm,
          hasUsersMatch_append _ _ (by decide)]
        apply ih
        have hn := matchUsersAt_pos prev _ n hm
        rw [List.length_drop]
        simp only [List.length_cons] at hlen ⊢
        omega

/-- Later passes preserve `/Users/`-freedom: their replacement strings
contain no slash, and a fresh occurrence in the output would pull back to
one in the input. -/
theorem usersFree_pass (fm : Bool → Str → Option ℕ) (repl : Str)
    (r0 : Char) (r' : Str) (hrepl : repl = r0 :: r')
    (h1 : ¬(r0 = '/' ∨ r0 = 'U' ∨ r0 = 's' ∨ r0 = 'e' ∨ r0 = 'r'))
    (h2 : isSpaceChar r0 = false →
      ∀ prev x n, fm prev x = some n →
        ∃ d xs, x = d :: xs ∧ isSpaceChar d = false)
    (hslash : ∀ b ∈ repl, ¬ b = '/') :
    ∀ (fuel : ℕ) (prev : Bool) (s : Str), hasUsersMatch s = false →
      hasUsersMatch (scanGo fm repl fuel prev s) = false := by
  intro fuel
  induction fuel with
  | zero => intro prev s h; exact h
  | succ f ih =>
    intro prev s h
    cases s with
    | nil => rw [scanGo_nil]; rfl
    | cons c rest =>
      have hrest : hasUsersMatch rest = false := by
        rw [hasUsersMatch_cons, Bool.or_eq_false_iff] at h
        exact h.2
      rcases hm : fm prev (c :: rest) with _ | n
      · rw [scanGo_copy _ _ _ _ _ _ hm, hasUsersMatch_cons,
          Bool.or_eq_false_iff]
        refine ⟨?_, ih (isWordChar c) rest hrest⟩
        cases hval : isUsersPrefix (c :: scanGo fm repl f (isWordChar c) rest)
        · rfl
        · exfalso
          rw [isUsersPrefix_cons] at hval
          by_cases hc : c = '/'
          · rw [if_pos hc] at hval
            have hpull := litNonspaceAfter_scanGo fm repl r0 r' hrepl h1 h2
              f (isWordChar c) rest (str "Users/") (by decide) hval
            have hin : isUsersPrefix (c :: rest) = true := by
              rw [isUsersPrefix_cons, if_pos hc]
              exact hpull
            rw [hasUsersMatch_cons, hin] at h
            simp at h
          · rw [if_neg hc] at hval
            exact absurd hval (by simp)
      · rw [scanGo_repl _ _ _ _ _ _ _ hm, hasUsersMatch_append _ _ hslash]
        exact ih _ _ (hasUsersMatch_drop n _ h)

theorem hasMsMatchGo_cons (p : Bool) (c : Char) (rest : Str) :
    hasMsMatchGo p (c :: rest) =
      (msExistsAt p (c :: rest) || hasMsMatchGo (isWordChar c) rest) := rfl

/-- The scanner's context after consuming a block: the word-ness of its
last character, or the incoming context if it is empty. -/
def lastCtx (p : Bool) (B : Str) : Bool :=
  match B.getLast? with
  | some d => isWordChar d
  | none => p

theorem lastCtx_nil (p : Bool) : lastCtx p [] = p := rfl

theorem lastCtx_cons (p : Bool) (b : Char) (B : Str) :
    lastCtx p (b :: B) = lastCtx (isWordChar b) B := by
  cases B with
  | nil => rfl
  | cons x xs =>
    rw [lastCtx, lastCtx, List.getLast?_cons_cons]
    cases hg : (x :: xs).getLast? with
    | none => exact absurd hg (by simp)
    | some d => rfl

theorem isSChar_of_word (c : Char) (h : isWordChar c = true) :
    isSChar c = true := by
  simp [isSChar, h]

theorem msExistsAt_true_iff (p : Bool) (x : Str) :
    msExistsAt p x = true ↔ ∃ n, n ≤ x.length ∧ 0 < n ∧
      midInL (x.take n) = true ∧ headBoundary p (x.take n) = true ∧
      tailBoundary (x.take n) (x.drop n) = true := by
  rw [msExistsAt, List.any_eq_true]
  constructor
  · rintro ⟨n, hn, hf⟩
    simp only [Bool.and_eq_true, decide_eq_true_eq] at hf
    refine ⟨n, ?_, hf.1.1.1, hf.1.1.2, hf.1.2, hf.2⟩
    have := List.mem_range.mp hn
    omega
  · rintro ⟨n, hle, h0, h1, h2, h3⟩
    refine ⟨n, List.mem_range.mpr (by omega), ?_⟩
    simp [h0, h1, h2, h3]

theorem splitKeep_ne_nil (sep : Char) (l : Str) : splitKeep sep l ≠ [] := by
  cases l with
  | nil => exact (by simp [splitKeep])
  | cons c r =>
    rw [splitKeep]
    by_cases hc : c = sep
    · rw [if_pos hc]
      simp
    · rw [if_neg hc]
      rcases splitKeep sep r with _ | ⟨q, qs⟩ <;> simp

theorem midInL_head_notS (c : Char) (m' : Str) (hc : isSChar c = false) :
    midInL (c :: m') = false := by
  rw [midInL]
  by_cases hsep : c = '/'
  · rw [splitKeep, if_pos hsep]
    simp only [List.all_cons, List.isEmpty_nil]
    simp
  · rw [splitKeep, if_neg hsep]
    rcases hs : splitKeep '/' m' with _ | ⟨q, qs⟩
    · exact absurd hs (splitKeep_ne_nil '/' m')
    · simp only [List.all_cons, List.all_eq_true, Bool.and_eq_true]
      simp [hc]

theorem msExistsAt_head_notS (p : Bool) (c : Char) (x : Str)
    (hc : isSChar c = false) : msExistsAt p (c :: x) = false := by
  cases hv : msExistsAt p (c :: x)
  · rfl
  · exfalso
    obtain ⟨n, hle, h0, h1, _, _⟩ := (msExistsAt_true_iff p (c :: x)).mp hv
    cases n with
    | zero => omega
    | succ m =>
      rw [List.take_succ_cons, midInL_head_notS c _ hc] at h1
      exact absurd h1 (by simp)

theorem hasMsMatchGo_append_noS (B : Str) (hB : ∀ b ∈ B, isSChar b = false) :
    ∀ (p : Bool) (T : Str),
      hasMsMatchGo p (B ++ T) = hasMsMatchGo (lastCtx p B) T := by
  induction B with
  | nil => intro p T; rfl
  | cons b B' ih =>
    intro p T
    rw [List.cons_append, hasMsMatchGo_cons,
      msExistsAt_head_notS _ _ _ (hB b (List.mem_cons_self b B')),
      Bool.false_or, lastCtx_cons]
    exact ih (fun x hx => hB x (List.mem_cons_of_mem b hx)) (isWordChar b) T

theorem hasMsMatchGo_append_free (u : Str) :
    ∀ (p : Bool) (w : Str), hasMsMatchGo p (u ++ w) = false →
      hasMsMatchGo (lastCtx p u) w = false := by
  induction u with
  | nil => intro p w h; exact h
  | cons c u' ih =>
    intro p w h
    rw [List.cons_append, hasMsMatchGo_cons, Bool.or_eq_false_iff] at h
    rw [lastCtx_cons]
    exact ih (isWordChar c) w h.2

theorem hasMsMatchGo_drop (n : ℕ) (p : Bool) (s : Str)
    (h : hasMsMatchGo p s = false) :
    hasMsMatchGo (lastCtx p (s.take n)) (s.drop n) = false := by
  apply hasMsMatchGo_append_free
  rw [List.take_append_drop]
  exact h

/-- Rebuild a string from `/`-separated parts. -/
def joinParts : List Str → Str
  | [] => []
  | [q] => q
  | q :: qs => q ++ '/' :: joinParts qs

theorem joinParts_pair (q q2 : Str) (qs2 : List Str) :
    joinParts (q :: q2 :: qs2) = q ++ '/' :: joinParts (q2 :: qs2) := rfl

theorem joinParts_splitKeep : ∀ m : Str, joinParts (splitKeep '/' m) = m := by
  intro m
  induction m with
  | nil => rfl
  | cons c m' ih =>
    rw [splitKeep]
    by_cases hc : c = '/'
    · rw [if_pos hc]
      rcases hs : splitKeep '/' m' with _ | ⟨q, qs⟩
      · exact absurd hs (splitKeep_ne_nil '/' m')
      · rw [hs] at ih
        rw [joinParts_pair, ih]
        simp [hc]
    · rw [if_neg hc]
      rcases hs : splitKeep '/' m' with _ | ⟨q, qs⟩
      · exact absurd hs (splitKeep_ne_nil '/' m')
      · rw [hs] at ih
        cases qs with
        | nil =>
          rw [show joinParts [c :: q] = c :: q from rfl]
          rw [show joinParts [q] = q from rfl] at ih
          rw [ih]
        | cons q2 qs2 =>
          rw [joinParts_pair] at ih
          rw [joinParts_pair, List.cons_append, ih]

theorem takeWhile_append_all (p : Char → Bool) (l1 l2 : Str)
    (h : ∀ c ∈ l1, p c = true) :
    (l1 ++ l2).takeWhile p = l1 ++ l2.takeWhile p := by
  induction l1 with
  | nil => rfl
  | cons c r ih =>
    have hc := h c (List.mem_cons_self c r)
    rw [List.cons_append, List.takeWhile_cons, if_pos hc, List.cons_append,
      ih (fun x hx => h x (List.mem_cons_of_mem c hx))]

theorem lastWordEnd_none_iff (r : Str) :
    lastWordEnd r = none ↔ ∀ ch ∈ r, isWordChar ch = false := by
  induction r with
  | nil => simp [lastWordEnd]
  | cons c rest ih =>
    rw [lastWordEnd]
    rcases hl : lastWordEnd rest with _ | n
    · constructor
      · intro h ch hch
        rcases List.mem_cons.mp hch with he | hm
        · by_cases hw : isWordChar c
          · rw [if_pos hw] at h
            exact absurd h (by simp)
          · rw [he]
            simpa using hw
        · exact (ih.mp hl) ch hm
      · intro h
        rw [if_neg (by rw [h c (List.mem_cons_self c rest)]; simp)]
    · constructor
      · intro h
        exact absurd h (by simp)
      · intro h
        have hn := ih.mpr (fun ch hm => h ch (List.mem_cons_of_mem c hm))
        rw [hl] at hn
        exact absurd hn (by simp)

theorem lastWordEnd_split (r : Str) :
    ∀ e, lastWordEnd r = some e →
      ∃ r1 r2, r = r1 ++ r2 ∧ r1.length = e ∧
        ∀ ch ∈ r2, isWordChar ch = false := by
  induction r with
  | nil => intro e h; exact absurd h (by simp [lastWordEnd])
  | cons c rest ih =>
    intro e h
    rw [lastWordEnd] at h
    rcases hl : lastWordEnd rest with _ | n
    · rw [hl] at h
      by_cases hw : isWordChar c
      · rw [if_pos hw] at h
        have he : e = 1 := (Option.some.inj h).symm
        exact ⟨[c], rest, rfl, by rw [he]; rfl,
          fun ch hm => (lastWordEnd_none_iff rest).mp hl ch hm⟩
      · rw [if_neg hw] at h
        exact absurd h (by simp)
    · rw [hl] at h
      have he : e = n + 1 := (Option.some.inj h).symm
      obtain ⟨r1, r2, hr, hlen, hnw⟩ := ih n hl
      exact ⟨c :: r1, r2, by rw [List.cons_append, hr],
        by rw [List.length_cons, hlen, he], hnw⟩

theorem unitsFrom_succ_eq (f : ℕ) (s : Str) :
    unitsFrom (f + 1) s =
      (match s.takeWhile isSChar with
       | [] => []
       | _ :: _ =>
         match s.drop (s.takeWhile isSChar).length with
         | d :: rest2 =>
           if d = '/' then
             ((s.takeWhile isSChar).length + 1, rest2)
               :: (unitsFrom f rest2).map
                   (fun p => ((s.takeWhile isSChar).length + 1 + p.1, p.2))
           else []
         | [] => []) := rfl

theorem unitsFrom_mem_drop :
    ∀ (fuel : ℕ) (s : Str) (clen : ℕ) (rest : Str),
      (clen, rest) ∈ unitsFrom fuel s → s.drop clen = rest ∧ 1 ≤ clen := by
  intro fuel
  induction fuel with
  | zero =>
    intro s clen rest h
    exact absurd h (by simp [unitsFrom])
  | succ f ih =>
    intro s clen rest h
    rw [unitsFrom_succ_eq] at h
    rcases hr : s.takeWhile isSChar with _ | ⟨c0, r0⟩
    · rw [hr] at h
      exact absurd h (by simp)
    · rw [hr] at h
      rcases hd : s.drop (c0 :: r0).length with _ | ⟨d, rest2⟩
      · rw [hd] at h
        exact absurd h (by simp)
      · rw [hd] at h
        have h' : (clen, rest) ∈
            (if d = '/' then
              ((c0 :: r0).length + 1, rest2)
                :: List.map (fun p => ((c0 :: r0).length + 1 + p.1, p.2))
                    (unitsFrom f rest2)
            else []) := h
        by_cases hds : d = '/'
        · rw [if_pos hds] at h'
          rcases List.mem_cons.mp h' with hh | ht
          · have h1 : clen = (c0 :: r0).length + 1 := congrArg Prod.fst hh
            have h2 : rest = rest2 := congrArg Prod.snd hh
            refine ⟨?_, by omega⟩
            rw [h1, h2, ← List.drop_drop, hd]
            rfl
          · obtain ⟨⟨c', r'⟩, hmem, heq⟩ := List.mem_map.mp ht
            have h1 : clen = (c0 :: r0).length + 1 + c' := (congrArg Prod.fst heq).symm
            have h2 : rest = r' := (congrArg Prod.snd heq).symm
            obtain ⟨hdr, hc1⟩ := ih rest2 c' r' hmem
            refine ⟨?_, by omega⟩
            rw [h1, h2, show (c0 :: r0).length + 1 + c' =
              (c0 :: r0).length + (1 + c') by omega, ← List.drop_drop,
              show (1 : ℕ) + c' = 1 + c' from rfl, ← List.drop_drop, hd,
              show List.drop 1 (d :: rest2) = rest2 from rfl]
            exact hdr
        · rw [if_neg hds] at h'
          exact absurd h' (by simp)

theorem isSChar_slash : isSChar '/' = false := by decide

/-- Inside `joinParts (mids ++ [qlast]) ++ after`, the unit parse has an
arm at index `mids.length - 1` whose remaining input is `qlast ++ after`:
each middle part is a maximal segment-class run followed by `/`. -/
theorem unitsFrom_arm :
    ∀ (mids : List Str) (qlast after : Str), 1 ≤ mids.length →
      (∀ q ∈ mids, q ≠ [] ∧ ∀ ch ∈ q, isSChar ch = true) →
      ∀ fuel : ℕ, (joinParts (mids ++ [qlast]) ++ after).length ≤ fuel →
        ∃ clen, (unitsFrom fuel (joinParts (mids ++ [qlast]) ++ after)).get?
          (mids.length - 1) = some (clen, qlast ++ after) := by
  intro mids
  induction mids with
  | nil =>
    intro qlast after h
    exact absurd h (by simp)
  | cons q mids' ih =>
    intro qlast after _ hOK fuel hfuel
    obtain ⟨hqne, hqS⟩ := hOK q (List.mem_cons_self q mids')
    have hjoin : joinParts ((q :: mids') ++ [qlast]) =
        q ++ '/' :: joinParts (mids' ++ [qlast]) := by
      cases mids' with
      | nil => rfl
      | cons m ms => rfl
    have hx : joinParts ((q :: mids') ++ [qlast]) ++ after =
        q ++ '/' :: (joinParts (mids' ++ [qlast]) ++ after) := by
      rw [hjoin, List.append_assoc]
      rfl
    have hrun : (joinParts ((q :: mids') ++ [qlast]) ++ after).takeWhile isSChar = q := by
      rw [hx, takeWhile_append_all isSChar q _ hqS, List.takeWhile_cons,
        if_neg (by rw [isSChar_slash]; simp), List.append_nil]
    obtain ⟨c0, r0, hq⟩ : ∃ c0 r0, q = c0 :: r0 := by
      cases q with
      | nil => exact absurd rfl hqne
      | cons a b => exact ⟨a, b, rfl⟩
    subst hq
    cases fuel with
    | zero =>
      exfalso
      rw [hx] at hfuel
      simp at hfuel
    | succ f =>
      have hdrop : (joinParts ((c0 :: r0) :: mids' ++ [qlast]) ++ after).drop
          (c0 :: r0 : Str).length =
          '/' :: (joinParts (mids' ++ [qlast]) ++ after) := by
        rw [hx, List.drop_left]
      rw [unitsFrom_succ_eq, hrun, hdrop]
      have hred : (match (c0 :: r0 : Str) with
          | [] => ([] : List (ℕ × Str))
          | _ :: _ =>
            match ('/' :: (joinParts (mids' ++ [qlast]) ++ after) : Str) with
            | d :: rest2 =>
              if d = '/' then
                ((c0 :: r0 : Str).length + 1, rest2)
                  :: (unitsFrom f rest2).map
                      (fun p => ((c0 :: r0 : Str).length + 1 + p.1, p.2))
              else []
            | [] => []) =
          ((c0 :: r0 : Str).length + 1, joinParts (mids' ++ [qlast]) ++ after)
            :: (unitsFrom f (joinParts (mids' ++ [qlast]) ++ after)).map
                (fun p => ((c0 :: r0 : Str).length + 1 + p.1, p.2)) := by
        rfl
      rw [hred]
      cases mids' with
      | nil =>
        exact ⟨(c0 :: r0 : Str).length + 1, rfl⟩
      | cons m2 ms2 =>
        have hlen2 : (joinParts ((m2 :: ms2) ++ [qlast]) ++ after).length ≤ f := by
          have hxl := congrArg List.length hx
          simp only [List.length_append, List.length_cons] at hxl hfuel ⊢
          omega
        obtain ⟨clen', hget'⟩ := ih qlast after (by simp)
          (fun x hxm => hOK x (List.mem_cons_of_mem _ hxm)) f hlen2
        refine ⟨(c0 :: r0 : Str).length + 1 + clen', ?_⟩
        rw [show ((c0 :: r0) :: m2 :: ms2 : List Str).length - 1 =
          ((m2 :: ms2 : List Str).length - 1) + 1 by simp, List.get?_cons_succ,
          List.get?_map, hget']
        rfl


theorem matchMsAt_cons_eq (prev : Bool) (c : Char) (t : Str) :
    matchMsAt prev (c :: t) =
      if (isWordChar c) = prev then none
      else
        ((((unitsFrom (c :: t).length (c :: t)).enum.filter
            (fun q => 1 ≤ q.1)).reverse).findSome?
          (fun q => (lastWordEnd ((q.2.2).takeWhile isSChar)).map
            (fun e => q.2.1 + e))) := rfl

theorem matchMsAt_some_of (p : Bool) (c : Char) (t : Str)
    (hguard : ¬ (isWordChar c = p))
    (i clen : ℕ) (rest : Str)
    (hget : (unitsFrom (c :: t).length (c :: t)).get? i = some (clen, rest))
    (hi : 1 ≤ i)
    (hword : ∃ wc ∈ rest.takeWhile isSChar, isWordChar wc = true) :
    ∃ n, matchMsAt p (c :: t) = some n := by
  rw [matchMsAt_cons_eq, if_neg hguard]
  rcases hfs : ((((unitsFrom (c :: t).length (c :: t)).enum.filter
      (fun q => 1 ≤ q.1)).reverse).findSome?
        (fun q => (lastWordEnd ((q.2.2).takeWhile isSChar)).map
          (fun e => q.2.1 + e))) with _ | n
  · exfalso
    have hmem : ((i, (clen, rest)) : ℕ × (ℕ × Str)) ∈
        ((unitsFrom (c :: t).length (c :: t)).enum.filter
          (fun q => 1 ≤ q.1)).reverse := by
      rw [List.mem_reverse, List.mem_filter]
      refine ⟨List.mk_mem_enum_iff_getElem?.mpr ?_, by simpa using hi⟩
      rw [← List.get?_eq_getElem?]
      exact hget
    have hval := (List.findSome?_eq_none_iff.mp hfs) _ hmem
    rcases hlw : lastWordEnd (rest.takeWhile isSChar) with _ | e
    · obtain ⟨wc, hwcm, hwcw⟩ := hword
      have hnw := (lastWordEnd_none_iff _).mp hlw wc hwcm
      rw [hwcw] at hnw
      exact absurd hnw (by simp)
    · rw [hlw] at hval
      exact absurd hval (by simp)
  · exact ⟨n, by rw [hfs]⟩

theorem joinParts_ends (zs : List Str) (qlast : Str) :
    ∃ pre, joinParts (zs ++ [qlast]) = pre ++ qlast := by
  induction zs with
  | nil => exact ⟨[], rfl⟩
  | cons z zs' ih =>
    obtain ⟨pre, hpre⟩ := ih
    have hjoin : joinParts ((z :: zs') ++ [qlast]) =
        z ++ '/' :: joinParts (zs' ++ [qlast]) := by
      cases zs' with
      | nil => rfl
      | cons m ms => rfl
    refine ⟨z ++ '/' :: pre, ?_⟩
    rw [hjoin, hpre, List.append_assoc]
    rfl

theorem midInL_parts (mid : Str) (h : midInL mid = true) :
    3 ≤ (splitKeep '/' mid).length ∧
      ∀ q ∈ splitKeep '/' mid, q ≠ [] ∧ ∀ ch ∈ q, isSChar ch = true := by
  rw [midInL] at h
  simp only [Bool.and_eq_true, decide_eq_true_eq, List.all_eq_true] at h
  refine ⟨h.1, fun q hq => ?_⟩
  have hq2 := h.2 q hq
  simp only [Bool.and_eq_true, List.all_eq_true] at hq2
  refine ⟨by simpa using hq2.1, fun ch hch => ?_⟩
  exact hq2.2 ch hch

/-- The engine matches wherever a language member sits at the head with a
valid leading boundary and the final segment run reaches a word character
(either inside the last part, or as the first following character). -/
theorem matchMsAt_of_midInL (p : Bool) (mid w : Str)
    (hmid : midInL mid = true)
    (hhead : headBoundary p mid = true)
    (hlast : (∃ lc, mid.getLast? = some lc ∧ isWordChar lc = true) ∨
      (∃ wh w', w = wh :: w' ∧ isWordChar wh = true)) :
    ∃ n, matchMsAt p (mid ++ w) = some n := by
  obtain ⟨hlen3, hOK⟩ := midInL_parts mid hmid
  have hpne : splitKeep '/' mid ≠ [] := by
    intro he
    rw [he] at hlen3
    simp at hlen3
  have hdecomp : (splitKeep '/' mid).dropLast ++
      [(splitKeep '/' mid).getLast hpne] = splitKeep '/' mid :=
    List.dropLast_append_getLast hpne
  have hjoin : joinParts ((splitKeep '/' mid).dropLast ++
      [(splitKeep '/' mid).getLast hpne]) = mid := by
    rw [hdecomp]
    exact joinParts_splitKeep mid
  have hmlen : 1 ≤ (splitKeep '/' mid).dropLast.length := by
    rw [List.length_dropLast]
    omega
  have hmidsOK : ∀ q ∈ (splitKeep '/' mid).dropLast,
      q ≠ [] ∧ ∀ ch ∈ q, isSChar ch = true :=
    fun q hq => hOK q ((List.dropLast_sublist _).mem hq)
  have hqlastOK := hOK _ (List.getLast_mem hpne)
  obtain ⟨clen, hget⟩ := unitsFrom_arm (splitKeep '/' mid).dropLast
    ((splitKeep '/' mid).getLast hpne) w hmlen hmidsOK
    ((joinParts ((splitKeep '/' mid).dropLast ++
      [(splitKeep '/' mid).getLast hpne]) ++ w).length) (le_refl _)
  rw [hjoin] at hget
  obtain ⟨ch, midt, hmid_cons⟩ : ∃ ch midt, mid = ch :: midt := by
    cases hm : mid with
    | nil =>
      rw [hm] at hhead
      exact absurd hhead (by simp [headBoundary])
    | cons a b => exact ⟨a, b, rfl⟩
  have hguard : ¬ (isWordChar ch = p) := by
    rw [hmid_cons] at hhead
    have hb : (isWordChar ch != p) = true := hhead
    simpa using hb
  have hword : ∃ wc ∈ ((splitKeep '/' mid).getLast hpne ++ w).takeWhile isSChar,
      isWordChar wc = true := by
    rw [takeWhile_append_all isSChar _ _ hqlastOK.2]
    rcases hlast with ⟨lc, hgl, hlcw⟩ | ⟨wh, w', hw, hwhw⟩
    · refine ⟨lc, List.mem_append_left _ ?_, hlcw⟩
      obtain ⟨pre, hpre⟩ := joinParts_ends (splitKeep '/' mid).dropLast
        ((splitKeep '/' mid).getLast hpne)
      rw [hjoin] at hpre
      rw [hpre, List.getLast?_append] at hgl
      rcases hql : ((splitKeep '/' mid).getLast hpne).getLast? with _ | lc'
      · exact absurd hql (by
          intro hnone
          have := List.getLast?_eq_none_iff.mp hnone
          exact hqlastOK.1 this)
      · rw [hql] at hgl
        have : lc' = lc := Option.some.inj hgl
        rw [← this] at hlcw ⊢
        exact List.mem_of_getLast?_eq_some hql
    · refine ⟨wh, List.mem_append_right _ ?_, hwhw⟩
      rw [hw, List.takeWhile_cons, if_pos (isSChar_of_word wh hwhw)]
      exact List.mem_cons_self wh _
  have hget2 : (unitsFrom (ch :: (midt ++ w)).length
      (ch :: (midt ++ w))).get? ((splitKeep '/' mid).dropLast.length - 1) =
      some (clen, (splitKeep '/' mid).getLast hpne ++ w) := by
    rw [show (ch :: (midt ++ w) : Str) = mid ++ w by
      rw [hmid_cons]; rfl]
    exact hget
  have hi : 1 ≤ (splitKeep '/' mid).dropLast.length - 1 := by
    rw [List.length_dropLast]
    omega
  obtain ⟨n, hn⟩ := matchMsAt_some_of p ch (midt ++ w) hguard
    ((splitKeep '/' mid).dropLast.length - 1) clen
    ((splitKeep '/' mid).getLast hpne ++ w) hget2 hi hword
  refine ⟨n, ?_⟩
  rw [hmid_cons, List.cons_append]
  exact hn

/-- Pull a segment-class prefix of a pass's output back to its input: the
replacement's head is outside the class, so such a prefix is copied
verbatim, and the first differing character is either also copied or the
head of the replacement emitted for a match of the pass at that point. -/
theorem scanGo_pull (fm : Bool → Str → Option ℕ) (repl : Str) (r0 : Char)
    (r' : Str) (hrepl : repl = r0 :: r')
    (hr0 : (isSChar r0 || decide (r0 = '/')) = false) :
    ∀ (fuel : ℕ) (prev : Bool) (s u v : Str),
      scanGo fm repl fuel prev s = u ++ v →
      (∀ ch ∈ u, (isSChar ch || decide (ch = '/')) = true) →
      ∃ w, s = u ++ w ∧
        ((v = [] ∧ w = []) ∨
          ∃ d v', v = d :: v' ∧
            ((∃ w', w = d :: w') ∨
              (d = r0 ∧ ∃ n, fm (lastCtx prev u) w = some n))) := by
  intro fuel
  induction fuel with
  | zero =>
    intro prev s u v hout hu
    rw [scanGo_zero] at hout
    refine ⟨v, hout, ?_⟩
    cases v with
    | nil => exact Or.inl ⟨rfl, rfl⟩
    | cons d v' => exact Or.inr ⟨d, v', rfl, Or.inl ⟨v', rfl⟩⟩
  | succ f ih =>
    intro prev s u v hout hu
    cases s with
    | nil =>
      rw [scanGo_nil] at hout
      obtain ⟨hu0, hv0⟩ := List.append_eq_nil.mp hout.symm
      refine ⟨[], by rw [hu0]; rfl, Or.inl ⟨hv0, rfl⟩⟩
    | cons c rest =>
      rcases hm : fm prev (c :: rest) with _ | n
      · rw [scanGo_copy _ _ _ _ _ _ hm] at hout
        cases u with
        | nil =>
          refine ⟨c :: rest, rfl, Or.inr ⟨c, scanGo fm repl f (isWordChar c) rest, hout.symm, Or.inl ⟨rest, rfl⟩⟩⟩
        | cons c2 u' =>
          have hc2 : c = c2 := by
            have := congrArg List.head? hout
            simpa using this
          have htail : scanGo fm repl f (isWordChar c) rest = u' ++ v := by
            have := congrArg List.tail hout
            simpa using this
          obtain ⟨w, hw, hdisj⟩ := ih (isWordChar c) rest u' v htail
            (fun x hx => hu x (List.mem_cons_of_mem c2 hx))
          refine ⟨w, by rw [← hc2, hw]; rfl, ?_⟩
          rcases hdisj with hl | ⟨d, v', hv, hin⟩
          · exact Or.inl hl
          · refine Or.inr ⟨d, v', hv, ?_⟩
            rcases hin with hcopy | ⟨hd0, n, hfm⟩
            · exact Or.inl hcopy
            · refine Or.inr ⟨hd0, n, ?_⟩
              rw [← hc2, lastCtx_cons]
              exact hfm
      · rw [scanGo_repl _ _ _ _ _ _ _ hm, hrepl] at hout
        cases u with
        | nil =>
          refine ⟨c :: rest, rfl, Or.inr ⟨r0, r' ++ scanGo fm (r0 :: r') f
            (match ((c :: rest).take n).getLast? with
              | some d => isWordChar d
              | none => prev) ((c :: rest).drop n), hout.symm,
            Or.inr ⟨rfl, n, ?_⟩⟩⟩
          rw [lastCtx_nil]
          exact hm
        | cons c2 u' =>
          exfalso
          have hc2 : r0 = c2 := by
            have := congrArg List.head? hout
            simpa using this
          have := hu c2 (List.mem_cons_self c2 u')
          rw [← hc2] at this
          rw [hr0] at this
          exact absurd this (by simp)

theorem matchMsAt_head_S (prev : Bool) (x : Str) (n : ℕ)
    (h : matchMsAt prev x = some n) :
    ∃ e xs, x = e :: xs ∧ isSChar e = true := by
  cases x with
  | nil => exact absurd h (by simp [matchMsAt])
  | cons c t =>
    refine ⟨c, t, rfl, ?_⟩
    rw [matchMsAt_cons_eq] at h
    by_cases hg : isWordChar c = prev
    · rw [if_pos hg] at h
      exact absurd h (by simp)
    · rw [if_neg hg] at h
      obtain ⟨a, hamem, _⟩ := List.exists_of_findSome?_eq_some h
      rw [List.mem_reverse, List.mem_filter] at hamem
      have hne : unitsFrom (c :: t).length (c :: t) ≠ [] := by
        intro hnil
        have := hamem.1
        rw [hnil] at this
        simp at this
      cases hcS : isSChar c
      · exfalso
        apply hne
        rw [show (c :: t : Str).length = t.length + 1 from rfl,
          unitsFrom_succ_eq, List.takeWhile_cons,
          if_neg (by rw [hcS]; simp)]
      · rfl

theorem matchMsAt_next (prev : Bool) (s : Str) (n : ℕ)
    (h : matchMsAt prev s = some n) :
    ∀ d, (s.drop n).head? = some d → isWordChar d = false := by
  intro d hd
  cases s with
  | nil => exact absurd h (by simp [matchMsAt])
  | cons c t =>
    rw [matchMsAt_cons_eq] at h
    by_cases hg : isWordChar c = prev
    · rw [if_pos hg] at h
      exact absurd h (by simp)
    · rw [if_neg hg] at h
      obtain ⟨a, hamem, hval⟩ := List.exists_of_findSome?_eq_some h
      rw [List.mem_reverse, List.mem_filter] at hamem
      obtain ⟨i, clen, rest, ha⟩ : ∃ i clen rest, a = (i, (clen, rest)) :=
        ⟨a.1, a.2.1, a.2.2, rfl⟩
      rw [ha] at hamem hval
      have hmem : ((clen, rest) : ℕ × Str) ∈ unitsFrom (c :: t).length (c :: t) := by
        have := List.mk_mem_enum_iff_getElem?.mp hamem.1
        exact List.getElem?_mem this
      obtain ⟨hdrop, hclen⟩ := unitsFrom_mem_drop _ _ _ _ hmem
      obtain ⟨e, hlwe, hne⟩ : ∃ e, lastWordEnd (rest.takeWhile isSChar) = some e ∧ clen + e = n := by
        rcases hlw : lastWordEnd (rest.takeWhile isSChar) with _ | e
        · rw [hlw] at hval
          exact absurd hval (by simp)
        · rw [hlw] at hval
          exact ⟨e, rfl, Option.some.inj hval⟩
      obtain ⟨r1, r2, hr12, hr1len, hr2nw⟩ :=
        lastWordEnd_split (rest.takeWhile isSChar) e hlwe
      have hsdrop : (c :: t : Str).drop n = r2 ++ rest.dropWhile isSChar := by
        rw [← hne, ← List.drop_drop, hdrop]
        rw [show rest.drop e = (rest.takeWhile isSChar ++ rest.dropWhile isSChar).drop e by
          rw [List.takeWhile_append_dropWhile]]
        rw [hr12, List.append_assoc, ← hr1len, List.drop_left]
      rw [hsdrop] at hd
      cases r2 with
      | nil =>
        rw [List.nil_append] at hd
        have := dropWhile_head_not isSChar rest d hd
        cases hw : isWordChar d
        · rfl
        · exact absurd (isSChar_of_word d hw) (by rw [this]; simp)
      | cons x2 xs2 =>
        have hdx : d = x2 := by
          have := hd
          simp at this
          exact this.symm
        rw [hdx]
        exact hr2nw x2 (List.mem_cons_self x2 xs2)

theorem matchMsAt_pos (prev : Bool) (s : Str) (n : ℕ)
    (h : matchMsAt prev s = some n) : 1 ≤ n := by
  cases s with
  | nil => exact absurd h (by simp [matchMsAt])
  | cons c t =>
    rw [matchMsAt_cons_eq] at h
    by_cases hg : isWordChar c = prev
    · rw [if_pos hg] at h
      exact absurd h (by simp)
    · rw [if_neg hg] at h
      obtain ⟨a, hamem, hval⟩ := List.exists_of_findSome?_eq_some h
      rw [List.mem_reverse, List.mem_filter] at hamem
      obtain ⟨i, clen, rest, ha⟩ : ∃ i clen rest, a = (i, (clen, rest)) :=
        ⟨a.1, a.2.1, a.2.2, rfl⟩
      rw [ha] at hamem hval
      have hmem : ((clen, rest) : ℕ × Str) ∈
          unitsFrom (c :: t).length (c :: t) :=
        List.getElem?_mem (List.mk_mem_enum_iff_getElem?.mp hamem.1)
      obtain ⟨_, hclen⟩ := unitsFrom_mem_drop _ _ _ _ hmem
      rcases hlw : lastWordEnd (rest.takeWhile isSChar) with _ | e
      · rw [hlw] at hval
        exact absurd hval (by simp)
      · rw [hlw] at hval
        have hval2 : some (clen + e) = some n := hval
        have := Option.some.inj hval2
        omega

theorem msExistsAt_false_head_nonword (x : Char) (r : Str)
    (hx : isWordChar x = false) : msExistsAt false (x :: r) = false := by
  cases hv : msExistsAt false (x :: r)
  · rfl
  · exfalso
    obtain ⟨n, _, h0, _, hhead, _⟩ := (msExistsAt_true_iff _ _).mp hv
    cases n with
    | zero => omega
    | succ m =>
      rw [List.take_succ_cons] at hhead
      have : (isWordChar x != false) = true := hhead
      rw [hx] at this
      exact absurd this (by simp)

theorem scanGo_head (fm : Bool → Str → Option ℕ) (repl : Str) (r0 : Char)
    (r' : Str) (hrepl : repl = r0 :: r') (fuel : ℕ) (prev : Bool) (s : Str)
    (x : Char) (T : Str) (hout : scanGo fm repl fuel prev s = x :: T) :
    x = r0 ∨ ∃ s', s = x :: s' := by
  cases fuel with
  | zero =>
    rw [scanGo_zero] at hout
    exact Or.inr ⟨T, hout⟩
  | succ f =>
    cases s with
    | nil =>
      rw [scanGo_nil] at hout
      exact absurd hout (by simp)
    | cons c rest =>
      rcases hm : fm prev (c :: rest) with _ | n
      · rw [scanGo_copy _ _ _ _ _ _ hm] at hout
        have : c = x := by simpa using congrArg List.head? hout
        exact Or.inr ⟨rest, by rw [this]⟩
      · rw [scanGo_repl _ _ _ _ _ _ _ hm, hrepl] at hout
        have : r0 = x := by simpa using congrArg List.head? hout
        exact Or.inl this.symm

theorem joinParts_chars (parts : List Str)
    (hOK : ∀ q ∈ parts, ∀ ch ∈ q, isSChar ch = true) :
    ∀ ch ∈ joinParts parts, (isSChar ch || decide (ch = '/')) = true := by
  induction parts with
  | nil => intro ch hch; exact absurd hch (by simp [joinParts])
  | cons q qs ih =>
    intro ch hch
    cases qs with
    | nil =>
      rw [show joinParts [q] = q from rfl] at hch
      rw [hOK q (List.mem_cons_self q []) ch hch]
      simp
    | cons q2 qs2 =>
      rw [joinParts_pair] at hch
      rcases List.mem_append.mp hch with hq | hrest
      · rw [hOK q (List.mem_cons_self q _) ch hq]
        simp
      · rcases List.mem_cons.mp hrest with he | hj
        · rw [he]
          simp
        · exact ih (fun p hp => hOK p (List.mem_cons_of_mem q hp)) ch hj

theorem midInL_chars (mid : Str) (h : midInL mid = true) :
    ∀ ch ∈ mid, (isSChar ch || decide (ch = '/')) = true := by
  obtain ⟨_, hOK⟩ := midInL_parts mid h
  intro ch hch
  rw [← joinParts_splitKeep mid] at hch
  exact joinParts_chars _ (fun q hq => (hOK q hq).2) ch hch

theorem lastCtx_blk (p : Bool) : lastCtx p (str "[경로생략]") = false := rfl

/-- After the multi-segment pass no multi-segment match (with correct word
boundaries) remains anywhere in the output: replaced sites vanish, the
character right after a replaced site is never a word character, and a
surviving candidate pulls back to an input position where the engine's
greedy parse must have succeeded. -/
theorem msFree_msPass :
    ∀ (fuel : ℕ) (prev : Bool) (s : Str), s.length ≤ fuel →
      hasMsMatchGo prev
        (scanGo matchMsAt (str "[경로생략]") fuel prev s) = false := by
  intro fuel
  induction fuel with
  | zero =>
    intro prev s hlen
    have hs : s = [] := List.length_eq_zero.mp (Nat.le_zero.mp hlen)
    rw [hs]
    rfl
  | succ f ih =>
    intro prev s hlen
    cases s with
    | nil => rw [scanGo_nil]; rfl
    | cons c rest =>
      rcases hm : matchMsAt prev (c :: rest) with _ | n
      · rw [scanGo_copy _ _ _ _ _ _ hm, hasMsMatchGo_cons,
          Bool.or_eq_false_iff]
        have hrlen : rest.length ≤ f := by
          simp only [List.length_cons] at hlen
          omega
        refine ⟨?_, ih (isWordChar c) rest hrlen⟩
        cases hval : msExistsAt prev
            (c :: scanGo matchMsAt (str "[경로생략]") f (isWordChar c) rest)
        · rfl
        · exfalso
          obtain ⟨n, hle, h0, hmidL, hhead, htail⟩ :=
            (msExistsAt_true_iff _ _).mp hval
          obtain ⟨w, hw, hdisj⟩ := scanGo_pull matchMsAt (str "[경로생략]")
            '[' (str "경로생략]") (by decide) (by decide) (f + 1) prev
            (c :: rest)
            ((c :: scanGo matchMsAt (str "[경로생략]") f (isWordChar c) rest).take n)
            ((c :: scanGo matchMsAt (str "[경로생략]") f (isWordChar c) rest).drop n)
            (by rw [scanGo_copy _ _ _ _ _ _ hm, List.take_append_drop])
            (midInL_chars _ hmidL)
          have hlast : (∃ lc, ((c :: scanGo matchMsAt (str "[경로생략]") f
              (isWordChar c) rest).take n).getLast? = some lc ∧
                isWordChar lc = true) ∨
              (∃ wh w', w = wh :: w' ∧ isWordChar wh = true) := by
            rcases hgl : ((c :: scanGo matchMsAt (str "[경로생략]") f
                (isWordChar c) rest).take n).getLast? with _ | lc
            · exfalso
              rw [tailBoundary, hgl] at htail
              exact absurd htail (by simp)
            · cases hlcw : isWordChar lc
              · rcases hdisj with ⟨hv0, hw0⟩ | ⟨d, v', hv, hin⟩
                · exfalso
                  rw [tailBoundary, hgl, hv0] at htail
                  have : isWordChar lc = true := htail
                  rw [hlcw] at this
                  exact absurd this (by simp)
                · have hdw : isWordChar d = true := by
                    rw [tailBoundary, hgl, hv] at htail
                    have h2 : (isWordChar lc != isWordChar d) = true := htail
                    rw [hlcw] at h2
                    simpa using h2
                  rcases hin with ⟨w', hww⟩ | ⟨hd0, _⟩
                  · exact Or.inr ⟨d, w', hww, hdw⟩
                  · exfalso
                    rw [hd0] at hdw
                    exact absurd hdw (by decide)
              · exact Or.inl ⟨lc, rfl, hlcw⟩
          obtain ⟨n3, hmatch⟩ := matchMsAt_of_midInL prev _ w hmidL hhead hlast
          rw [← hw] at hmatch
          rw [hm] at hmatch
          exact absurd hmatch (by simp)
      · rw [scanGo_repl _ _ _ _ _ _ _ hm,
          hasMsMatchGo_append_noS _ (by decide), lastCtx_blk]
        have hn1 : 1 ≤ n := matchMsAt_pos prev _ n hm
        have hdlen : ((c :: rest).drop n).length ≤ f := by
          rw [List.length_drop]
          simp only [List.length_cons] at hlen ⊢
          omega
        have hfree := ih (match ((c :: rest).take n).getLast? with
          | some d => isWordChar d
          | none => prev) ((c :: rest).drop n) hdlen
        rcases hT : scanGo matchMsAt (str "[경로생략]") f
            (match ((c :: rest).take n).getLast? with
              | some d => isWordChar d
              | none => prev) ((c :: rest).drop n) with _ | ⟨x, T⟩
        · rfl
        · rw [hT] at hfree
          rw [hasMsMatchGo_cons, Bool.or_eq_false_iff] at hfree ⊢
          refine ⟨?_, hfree.2⟩
          rcases scanGo_head matchMsAt (str "[경로생략]") '[' (str "경로생략]")
              (by decide) f _ _ x T hT with hx | ⟨s', hs'⟩
          · rw [hx]
            exact msExistsAt_head_notS false '[' T (by decide)
          · have hxw : isWordChar x = false := by
              apply matchMsAt_next prev (c :: rest) n hm
              rw [hs']
              rfl
            exact msExistsAt_false_head_nonword x T hxw

/-- A pass whose replacement and matched characters are all non-word and
outside the segment class preserves multi-segment-match freedom: candidate
positions and both boundary contexts map unchanged between input and
output. -/
theorem msFree_pass (fm : Bool → Str → Option ℕ) (repl : Str) (r0 : Char)
    (r' : Str) (hrepl : repl = r0 :: r')
    (hreplS : ∀ ch ∈ repl, isSChar ch = false)
    (hr0cls : (isSChar r0 || decide (r0 = '/')) = false)
    (hr0w : isWordChar r0 = false)
    (hrl : ∀ p, lastCtx p repl = false)
    (hfmHead : ∀ prev x n, fm prev x = some n →
      ∃ e xs, x = e :: xs ∧ isWordChar e = false)
    (hfmCtx : ∀ prev x n, fm prev x = some n →
      lastCtx prev (x.take n) = false) :
    ∀ (fuel : ℕ) (prev : Bool) (s : Str), hasMsMatchGo prev s = false →
      hasMsMatchGo prev (scanGo fm repl fuel prev s) = false := by
  intro fuel
  induction fuel with
  | zero => intro prev s h; exact h
  | succ f ih =>
    intro prev s h
    cases s with
    | nil => rw [scanGo_nil]; rfl
    | cons c rest =>
      rw [hasMsMatchGo_cons, Bool.or_eq_false_iff] at h
      rcases hm : fm prev (c :: rest) with _ | n
      · rw [scanGo_copy _ _ _ _ _ _ hm, hasMsMatchGo_cons,
          Bool.or_eq_false_iff]
        refine ⟨?_, ih (isWordChar c) rest h.2⟩
        cases hval : msExistsAt prev (c :: scanGo fm repl f (isWordChar c) rest)
        · rfl
        · exfalso
          obtain ⟨n, hle, h0, hmidL, hhead, htail⟩ :=
            (msExistsAt_true_iff _ _).mp hval
          obtain ⟨w, hw, hdisj⟩ := scanGo_pull fm repl r0 r' hrepl hr0cls
            (f + 1) prev (c :: rest)
            ((c :: scanGo fm repl f (isWordChar c) rest).take n)
            ((c :: scanGo fm repl f (isWordChar c) rest).drop n)
            (by rw [scanGo_copy _ _ _ _ _ _ hm, List.take_append_drop])
            (midInL_chars _ hmidL)
          have hmlen : ((c :: scanGo fm repl f (isWordChar c) rest).take n).length = n := by
            rw [List.length_take]
            omega
          have htb : tailBoundary
              ((c :: scanGo fm repl f (isWordChar c) rest).take n) w = true := by
            rw [tailBoundary]
            rcases hgl : ((c :: scanGo fm repl f (isWordChar c) rest).take n).getLast? with _ | lc
            · rw [tailBoundary, hgl] at htail
              exact absurd htail (by simp)
            · rcases hdisj with ⟨hv0, hw0⟩ | ⟨d, v', hv, hin⟩
              · rw [hw0]
                rw [tailBoundary, hgl, hv0] at htail
                exact htail
              · rcases hin with ⟨w', hww⟩ | ⟨hd0, n2, hfm2⟩
                · rw [hww]
                  rw [tailBoundary, hgl, hv] at htail
                  exact htail
                · obtain ⟨e, xs, hwe, hew⟩ := hfmHead _ _ _ hfm2
                  rw [hwe]
                  rw [tailBoundary, hgl, hv] at htail
                  have h2 : (isWordChar lc != isWordChar d) = true := htail
                  rw [hd0, hr0w] at h2
                  show (isWordChar lc != isWordChar e) = true
                  rw [hew]
                  exact h2
          have hin_match : msExistsAt prev (c :: rest) = true := by
            rw [hw]
            apply (msExistsAt_true_iff _ _).mpr
            refine ⟨n, ?_, h0, ?_, ?_, ?_⟩
            · rw [List.length_append, hmlen]
              omega
            · rw [List.take_left' hmlen]
              exact hmidL
            · rw [List.take_left' hmlen]
              exact hhead
            · rw [List.take_left' hmlen, List.drop_left' hmlen]
              exact htb
          rw [hin_match] at h
          exact absurd h.1 (by simp)
      · rw [scanGo_repl _ _ _ _ _ _ _ hm]
        have hctx : (match ((c :: rest).take n).getLast? with
            | some d => isWordChar d
            | none => prev) = false := hfmCtx prev _ n hm
        rw [hctx, hasMsMatchGo_append_noS repl hreplS, hrl]
        apply ih false ((c :: rest).drop n)
        have hdfree := hasMsMatchGo_drop n prev (c :: rest)
          (by rw [hasMsMatchGo_cons, Bool.or_eq_false_iff]; exact h)
        have hctx2 : lastCtx prev ((c :: rest).take n) = false := hfmCtx prev _ n hm
        rw [hctx2] at hdfree
        exact hdfree

theorem space_not_word (c : Char) (h : isSpaceChar c = true) :
    isWordChar c = false := by
  rw [isSpaceChar] at h
  simp only [Bool.or_eq_true, decide_eq_true_eq] at h
  rcases h with ((((h | h) | h) | h) | h) | h <;> (subst h; decide)

theorem space_not_S (c : Char) (h : isSpaceChar c = true) :
    isSChar c = false := by
  rw [isSpaceChar] at h
  simp only [Bool.or_eq_true, decide_eq_true_eq] at h
  rcases h with ((((h | h) | h) | h) | h) | h <;> (subst h; decide)

theorem sChar_not_space (c : Char) (h : isSChar c = true) :
    isSpaceChar c = false := by
  cases hv : isSpaceChar c
  · rfl
  · rw [space_not_S c hv] at h
    exact absurd h (by simp)

theorem bracket_not_word (c : Char) (h : (c = '[' || c = ']') = true) :
    isWordChar c = false := by
  simp only [Bool.or_eq_true, decide_eq_true_eq] at h
  rcases h with h | h <;> (subst h; decide)

theorem matchBracketRunAt_head (prev : Bool) (x : Str) (n : ℕ)
    (h : matchBracketRunAt prev x = some n) :
    ∃ e xs, x = e :: xs ∧ isWordChar e = false := by
  unfold matchBracketRunAt at h
  cases x with
  | nil =>
    rw [show List.takeWhile (fun c => c = '[' || c = ']') ([] : Str) = []
      from rfl] at h
    exact absurd h (by simp)
  | cons c xs =>
    refine ⟨c, xs, rfl, ?_⟩
    rw [List.takeWhile_cons] at h
    by_cases hc : (c = '[' || c = ']') = true
    · exact bracket_not_word c hc
    · rw [if_neg hc] at h
      exact absurd h (by simp)

theorem matchBracketRunAt_ctx (prev : Bool) (x : Str) (n : ℕ)
    (h : matchBracketRunAt prev x = some n) :
    lastCtx prev (x.take n) = false := by
  unfold matchBracketRunAt at h
  by_cases hlen : 2 ≤ (x.takeWhile (fun c => c = '[' || c = ']')).length
  · rw [if_pos hlen] at h
    have hn : n = (x.takeWhile (fun c => c = '[' || c = ']')).length :=
      (Option.some.inj h).symm
    obtain ⟨t, ht⟩ := (List.takeWhile_prefix (l := x)
      (p := fun c => c = '[' || c = ']'))
    have htake : x.take n = x.takeWhile (fun c => c = '[' || c = ']') := by
      have h2 : x.take n =
          (x.takeWhile (fun c => c = '[' || c = ']') ++ t).take n := by
        rw [ht]
      rw [h2, List.take_left' hn.symm]
    rw [htake, lastCtx]
    rcases hgl : (x.takeWhile (fun c => c = '[' || c = ']')).getLast? with _ | b
    · exfalso
      have := List.getLast?_eq_none_iff.mp hgl
      rw [this] at hlen
      simp at hlen
    · have hbmem : b ∈ x.takeWhile (fun c => c = '[' || c = ']') :=
        List.mem_of_getLast?_eq_some hgl
      have hpb := List.mem_takeWhile_imp hbmem
      exact bracket_not_word b (by simpa using hpb)
  · rw [if_neg hlen] at h
    exact absurd h (by simp)

theorem matchWsAt_head (prev : Bool) (x : Str) (n : ℕ)
    (h : matchWsAt prev x = some n) :
    ∃ e xs, x = e :: xs ∧ isWordChar e = false := by
  unfold matchWsAt at h
  cases x with
  | nil =>
    rw [show List.takeWhile isSpaceChar ([] : Str) = [] from rfl] at h
    exact absurd h (by simp)
  | cons c xs =>
    refine ⟨c, xs, rfl, ?_⟩
    rw [List.takeWhile_cons] at h
    by_cases hc : isSpaceChar c = true
    · exact space_not_word c hc
    · rw [if_neg hc] at h
      simp at h

theorem matchWsAt_ctx (prev : Bool) (x : Str) (n : ℕ)
    (h : matchWsAt prev x = some n) :
    lastCtx prev (x.take n) = false := by
  unfold matchWsAt at h
  by_cases hrun : x.takeWhile isSpaceChar = []
  · rw [if_pos hrun] at h
    exact absurd h (by simp)
  · rw [if_neg hrun] at h
    have hn : n = (x.takeWhile isSpaceChar).length := (Option.some.inj h).symm
    obtain ⟨t, ht⟩ := (List.takeWhile_prefix (l := x) (p := isSpaceChar))
    have htake : x.take n = x.takeWhile isSpaceChar := by
      have h2 : x.take n = (x.takeWhile isSpaceChar ++ t).take n := by
        rw [ht]
      rw [h2, List.take_left' hn.symm]
    rw [htake, lastCtx]
    rcases hgl : (x.takeWhile isSpaceChar).getLast? with _ | b
    · exact absurd (List.getLast?_eq_none_iff.mp hgl) hrun
    · have hbmem : b ∈ x.takeWhile isSpaceChar :=
        List.mem_of_getLast?_eq_some hgl
      have hpb := List.mem_takeWhile_imp hbmem
      exact space_not_word b (by simpa using hpb)

theorem msFree_dropWhile_space (s : Str)
    (h : hasMsMatchGo false s = false) :
    hasMsMatchGo false (s.dropWhile isSpaceChar) = false := by
  induction s with
  | nil => exact h
  | cons c r ih =>
    rw [List.dropWhile_cons]
    by_cases hc : isSpaceChar c = true
    · rw [if_pos hc]
      rw [hasMsMatchGo_cons, Bool.or_eq_false_iff, space_not_word c hc] at h
      exact ih h.2
    · rw [if_neg hc]
      exact h

theorem msExistsAt_append_nonword (p : Bool) (x : Str) (d : Char)
    (hd : isWordChar d = false) (h : msExistsAt p x = true) :
    msExistsAt p (x ++ [d]) = true := by
  obtain ⟨n, hle, h0, hmid, hhead, htail⟩ := (msExistsAt_true_iff _ _).mp h
  apply (msExistsAt_true_iff _ _).mpr
  have htak : (x ++ [d]).take n = x.take n := by
    rw [List.take_append_of_le_length hle]
  have hdrp : (x ++ [d]).drop n = x.drop n ++ [d] := by
    rw [List.drop_append_of_le_length hle]
  refine ⟨n, ?_, h0, ?_, ?_, ?_⟩
  · rw [List.length_append]
    omega
  · rw [htak]
    exact hmid
  · rw [htak]
    exact hhead
  · rw [htak, hdrp, tailBoundary]
    rw [tailBoundary] at htail
    rcases hgl : (x.take n).getLast? with _ | lc
    · rw [hgl] at htail
      exact absurd htail (by simp)
    · rw [hgl] at htail
      cases hxd : x.drop n with
      | nil =>
        rw [hxd] at htail
        have hlcw : isWordChar lc = true := htail
        show (isWordChar lc != isWordChar d) = true
        rw [hlcw, hd]
        rfl
      | cons y ys =>
        rw [hxd] at htail
        exact htail

theorem hasMsMatchGo_dropLast_nonword (y : Str) (d : Char)
    (hd : isWordChar d = false) :
    ∀ p, hasMsMatchGo p (y ++ [d]) = false → hasMsMatchGo p y = false := by
  induction y with
  | nil => intro p _; rfl
  | cons c y' ih =>
    intro p h
    rw [List.cons_append, hasMsMatchGo_cons, Bool.or_eq_false_iff] at h
    rw [hasMsMatchGo_cons, Bool.or_eq_false_iff]
    refine ⟨?_, ih (isWordChar c) h.2⟩
    cases hv : msExistsAt p (c :: y')
    · rfl
    · exfalso
      have := msExistsAt_append_nonword p (c :: y') d hd hv
      rw [List.cons_append] at this
      rw [this] at h
      exact absurd h.1 (by simp)

theorem msFree_trimRight :
    ∀ (N : ℕ) (s : Str), s.length ≤ N → hasMsMatchGo false s = false →
      hasMsMatchGo false (s.reverse.dropWhile isSpaceChar).reverse = false := by
  intro N
  induction N with
  | zero =>
    intro s hlen h
    have hs : s = [] := List.length_eq_zero.mp (Nat.le_zero.mp hlen)
    rw [hs]
    rfl
  | succ m ih =>
    intro s hlen h
    rcases hrev : s.reverse with _ | ⟨c, rs⟩
    · rfl
    · have hs : s = rs.reverse ++ [c] := by
        rw [← List.reverse_cons, ← hrev, List.reverse_reverse]
      by_cases hc : isSpaceChar c = true
      · rw [List.dropWhile_cons, if_pos hc]
        have hfree' : hasMsMatchGo false rs.reverse = false := by
          apply hasMsMatchGo_dropLast_nonword rs.reverse c
            (space_not_word c hc) false
          rw [← hs]
          exact h
        have hlen' : rs.reverse.length ≤ m := by
          have h2 := congrArg List.length hs
          simp only [List.length_append, List.length_reverse,
            List.length_cons] at h2 ⊢
          omega
        have := ih rs.reverse hlen' hfree'
        rw [List.reverse_reverse] at this
        exact this
      · rw [List.dropWhile_cons, if_neg hc, ← hrev, List.reverse_reverse]
        exact h

theorem msFree_jsTrim (s : Str) (h : hasMsMatchGo false s = false) :
    hasMsMatchGo false (jsTrim s) = false := by
  rw [jsTrim]
  exact msFree_trimRight (s.dropWhile isSpaceChar).length _ (le_refl _)
    (msFree_dropWhile_space s h)

theorem alpha_nonspace (c : Char)
    (h : (isLowerAlpha c || isUpperAlpha c) = true) : isSpaceChar c = false := by
  cases hv : isSpaceChar c
  · rfl
  · exfalso
    rw [isSpaceChar] at hv
    simp only [Bool.or_eq_true, decide_eq_true_eq] at hv
    rcases hv with ((((h1 | h1) | h1) | h1) | h1) | h1 <;>
      (subst h1; exact absurd h (by decide))

theorem matchDriveAt_head (prev : Bool) (x : Str) (n : ℕ)
    (h : matchDriveAt prev x = some n) :
    ∃ d xs, x = d :: xs ∧ isSpaceChar d = false := by
  rcases x with _ | ⟨c, _ | ⟨c2, _ | ⟨c3, rest⟩⟩⟩
  · exact absurd h (by simp [matchDriveAt])
  · exact absurd h (by simp [matchDriveAt])
  · exact absurd h (by simp [matchDriveAt])
  · refine ⟨c, c2 :: c3 :: rest, rfl, ?_⟩
    unfold matchDriveAt at h
    have h' : (if (c2 = ':' && c3 = '\\' && (isLowerAlpha c || isUpperAlpha c)) = true
        then (if rest.takeWhile (fun ch => !isSpaceChar ch) = [] then none
          else some (3 + (rest.takeWhile (fun ch => !isSpaceChar ch)).length))
        else none) = some n := h
    by_cases hcond : (c2 = ':' && c3 = '\\' && (isLowerAlpha c || isUpperAlpha c)) = true
    · simp only [Bool.and_eq_true] at hcond
      exact alpha_nonspace c hcond.2
    · rw [if_neg hcond] at h'
      exact absurd h' (by simp)

/-- The redactor's output is free of both claim patterns: the `/Users/`
pass removes every absolute-path occurrence and every later pass and the
final trim preserve that; the multi-segment pass removes every boundary-
correct multi-segment slash path and the bracket, whitespace and trim
steps preserve that too. -/
theorem redactPathLikeText_free (raw : Str) :
    hasUsersMatch (redactPathLikeText raw) = false ∧
      hasMsMatch (redactPathLikeText raw) = false := by
  rw [redactPathLikeText]
  by_cases ht : sanitizeString raw [] = []
  · rw [if_pos ht]
    exact ⟨rfl, rfl⟩
  · rw [if_neg ht]
    have hU1 : hasUsersMatch (scanReplace matchUsersAt (str "[경로생략]")
        (scanReplace matchLinkAt (str "[링크]") (sanitizeString raw []))) = false :=
      usersFree_usersPass _ false _ (le_refl _)
    have hU2 : hasUsersMatch (scanReplace matchDriveAt (str "[경로생략]")
        (scanReplace matchUsersAt (str "[경로생략]")
          (scanReplace matchLinkAt (str "[링크]") (sanitizeString raw [])))) = false :=
      usersFree_pass matchDriveAt (str "[경로생략]") '[' (str "경로생략]")
        (by decide) (by decide)
        (fun _ prev x n hx => matchDriveAt_head prev x n hx)
        (by decide) _ false _ hU1
    have hU3 : hasUsersMatch (scanReplace matchMsAt (str "[경로생략]")
        (scanReplace matchDriveAt (str "[경로생략]")
          (scanReplace matchUsersAt (str "[경로생략]")
            (scanReplace matchLinkAt (str "[링크]") (sanitizeString raw []))))) = false :=
      usersFree_pass matchMsAt (str "[경로생략]") '[' (str "경로생략]")
        (by decide) (by decide)
        (fun _ prev x n hx => by
          obtain ⟨e, xs, hxe, heS⟩ := matchMsAt_head_S prev x n hx
          exact ⟨e, xs, hxe, sChar_not_space e heS⟩)
        (by decide) _ false _ hU2
    have hU4 : hasUsersMatch (scanReplace matchBracketRunAt (str " ")
        (scanReplace matchMsAt (str "[경로생략]")
          (scanReplace matchDriveAt (str "[경로생략]")
            (scanReplace matchUsersAt (str "[경로생략]")
              (scanReplace matchLinkAt (str "[링크]") (sanitizeString raw [])))))) = false :=
      usersFree_pass matchBracketRunAt (str " ") ' ' [] (by decide) (by decide)
        (fun hfalse => absurd hfalse (by decide))
        (by decide) _ false _ hU3
    have hU5 : hasUsersMatch (scanReplace matchWsAt (str " ")
        (scanReplace matchBracketRunAt (str " ")
          (scanReplace matchMsAt (str "[경로생략]")
            (scanReplace matchDriveAt (str "[경로생략]")
              (scanReplace matchUsersAt (str "[경로생략]")
                (scanReplace matchLinkAt (str "[링크]") (sanitizeString raw []))))))) = false :=
      usersFree_pass matchWsAt (str " ") ' ' [] (by decide) (by decide)
        (fun hfalse => absurd hfalse (by decide))
        (by decide) _ false _ hU4
    have hM1 : hasMsMatchGo false (scanReplace matchMsAt (str "[경로생략]")
        (scanReplace matchDriveAt (str "[경로생략]")
          (scanReplace matchUsersAt (str "[경로생략]")
            (scanReplace matchLinkAt (str "[링크]") (sanitizeString raw []))))) = false :=
      msFree_msPass _ false _ (le_refl _)
    have hM2 : hasMsMatchGo false (scanReplace matchBracketRunAt (str " ")
        (scanReplace matchMsAt (str "[경로생략]")
          (scanReplace matchDriveAt (str "[경로생략]")
            (scanReplace matchUsersAt (str "[경로생략]")
              (scanReplace matchLinkAt (str "[링크]") (sanitizeString raw [])))))) = false :=
      msFree_pass matchBracketRunAt (str " ") ' ' [] (by decide) (by decide)
        (by decide) (by decide) (fun _ => rfl)
        matchBracketRunAt_head matchBracketRunAt_ctx _ false _ hM1
    have hM3 : hasMsMatchGo false (scanReplace matchWsAt (str " ")
        (scanReplace matchBracketRunAt (str " ")
          (scanReplace matchMsAt (str "[경로생략]")
            (scanReplace matchDriveAt (str "[경로생략]")
              (scanReplace matchUsersAt (str "[경로생략]")
                (scanReplace matchLinkAt (str "[링크]") (sanitizeString raw []))))))) = false :=
      msFree_pass matchWsAt (str " ") ' ' [] (by decide) (by decide)
        (by decide) (by decide) (fun _ => rfl)
        matchWsAt_head matchWsAt_ctx _ false _ hM2
    exact ⟨hasUsersMatch_jsTrim _ hU5, msFree_jsTrim _ hM3⟩

/-- C6: for every input string, the inline-preview formatter's output —
`redactPathLikeText` applied after `stripMetadataNoise`, as
`buildInlineSnippetTextFromPackItems` does — contains no substring
matching the redactor's own absolute-path pattern (`/Users/` followed by
a non-space character) and no substring matching its multi-segment
slash-path pattern (2+ `[A-Za-z0-9._-]+/` units, a final segment and
word boundaries). -/
theorem C6_redaction_safety (s : Str) :
    hasUsersMatch (redactPathLikeText (stripMetadataNoise s)) = false ∧
      hasMsMatch (redactPathLikeText (stripMetadataNoise s)) = false :=
  redactPathLikeText_free (stripMetadataNoise s)
